import Mathlib

/-!
Framebuffer drawing engine of the eVic SDK (`src/display/Display.c`).

A shallow embedding of the drawing routines of `Display.c` and the properties
of its bit copier, pixel blitter, line rasterizer and text renderer.

Conventions of the embedding

* A `uint8_t` buffer is a list of bytes (`Fin 256`).  A pointer into a buffer is
  the buffer together with a natural index.  Every load and store checks the
  index against the length of the buffer; an access outside the buffer is a
  memory fault, rendered as `none`.
* `int` values are integers; the result of every `int` addition, subtraction
  and multiplication is reduced to the 32 bit two's complement range by
  `wrap32`.  `uint32_t` and `uint8_t` values are natural numbers.
* The line loop and the text loop carry a log next to the program state (the
  plotted points, the handled characters); the log is never read by the loops.
* The panel constants `DISPLAY_WIDTH` and `DISPLAY_HEIGHT` come from
  `Display.h`; they are the two fields of `Panel`.
* The mutex and the critical section do not change the framebuffer; the drawing
  routines are modelled by their effect on the framebuffer.  `Traced` gives every
  public entry point on a state that also records the lock, unlock, mutation and
  controller-call events in order.
* `Logged` repeats the bit copier and the column loop of the blitter with a log
  of the byte indices they load and store.
-/

namespace Display

/-! ## Machine integers -/

/-- Reduction of an integer to the range of a 32 bit `int`. -/
def wrap32 (z : Int) : Int := (z + 2147483648) % 4294967296 - 2147483648

/-- Conversion of an `int` to `uint32_t`. -/
def toU32 (z : Int) : Nat := (z % 4294967296).toNat

/-- Bitwise complement `~v` of a non-negative `int`, as a 32 bit pattern. -/
def lnot32 (v : Nat) : Nat := v ^^^ 4294967295

/-- The C function `abs` on `int`. -/
def abs32 (z : Int) : Int := wrap32 (if z < 0 then -z else z)

/-! ## Byte buffers -/

/-- A `uint8_t` cell. -/
abbrev Byte := Fin 256

/-- A `uint8_t` array. -/
abbrev Buf := List Byte

/-- Conversion of an integer value to `uint8_t`. -/
def toByte (v : Nat) : Byte := ⟨v % 256, Nat.mod_lt _ (by decide)⟩

/-- Load of `b[i]`. -/
def rd (b : Buf) (i : Nat) : Option Nat := (b[i]?).map Fin.val

/-- Store `b[i] = v`. -/
def wr (b : Buf) (i : Nat) (v : Nat) : Option Buf :=
  if i < b.length then some (b.set i (toByte v)) else none

/-- Pointer `&b[i]` for an `int` index: defined from the start of the array up
to one past its end. -/
def ptr (b : Buf) (i : Int) : Option Nat :=
  if 0 ≤ i ∧ i ≤ b.length then some i.toNat else none

/-- Statement `b[i] &= m`. -/
def andAssign (b : Buf) (i : Nat) (m : Nat) : Option Buf :=
  (rd b i).bind fun v => wr b i (v &&& m)

/-- Statement `b[i] |= m`. -/
def orAssign (b : Buf) (i : Nat) (m : Nat) : Option Buf :=
  (rd b i).bind fun v => wr b i (v ||| m)

/-- Library call `memcpy(&dst[d], &src[s], n)`. -/
def memcpy (src : Buf) : Nat → Buf → Nat → Nat → Option Buf
  | 0, dst, _, _ => some dst
  | n + 1, dst, d, s =>
    (rd src s).bind fun v => (wr dst d v).bind fun dst1 => memcpy src n dst1 (d + 1) (s + 1)

/-- Library call `memset(&dst[d], v, n)`. -/
def memset (v : Nat) : Nat → Buf → Nat → Option Buf
  | 0, dst, _ => some dst
  | n + 1, dst, d => (wr dst d v).bind fun dst1 => memset v n dst1 (d + 1)

/-- Value of byte `i` of a buffer, 0 beyond its end. -/
def byteAt (b : Buf) (i : Nat) : Nat := ((b[i]?).map Fin.val).getD 0

/-- Bit `j` of the bit string that starts at byte `base` of `b`: byte
`base + j / 8`, bit `j % 8`, bit 0 being the least significant one.  Bits beyond
the buffer read as `false`. -/
def bitAt (b : Buf) (base j : Nat) : Bool :=
  (byteAt b (base + j / 8)).testBit (j % 8)

/-! ## Bit copier (`Display_BitCopy`, lines 171-238) -/

/-- The `while(numFullBytes--)` loop of `Display_BitCopy` (lines 201-212); the
result carries the advanced `dst` and `src` pointers. -/
def BitCopy_loop (src : Buf) (dstOffset dstOffsetRem bitMask1 bitMask2 : Nat) :
    Nat → Buf → Nat → Nat → Option (Buf × Nat × Nat)
  | 0, dst, d, s => some (dst, d, s)
  | n + 1, dst, d, s =>
    (andAssign dst d (lnot32 (bitMask1 <<< dstOffset))).bind fun dst1 =>
    (rd src s).bind fun s0 =>
    (orAssign dst1 d ((s0 &&& bitMask1) <<< dstOffset)).bind fun dst2 =>
    (andAssign dst2 (d + 1) (lnot32 (bitMask2 >>> dstOffsetRem))).bind fun dst3 =>
    (orAssign dst3 (d + 1) ((s0 &&& bitMask2) >>> dstOffsetRem)).bind fun dst4 =>
    BitCopy_loop src dstOffset dstOffsetRem bitMask1 bitMask2 n dst4 (d + 1) (s + 1)

/-- Lines 234-237 of `Display_BitCopy`: `remSize` bits from `src[0]` low to
`dst[0]` high. -/
def BitCopy_last (src : Buf) (dstOffset remSize : Nat) (dst : Buf) (d s : Nat) : Option Buf :=
  let bitMask1 := ((1 <<< remSize) - 1) % 256
  (andAssign dst d (lnot32 (bitMask1 <<< dstOffset))).bind fun dst1 =>
  (rd src s).bind fun s0 =>
  orAssign dst1 d ((s0 &&& bitMask1) <<< dstOffset)

/-- Lines 215-237 of `Display_BitCopy`: the trailing `size % 8` bits. -/
def BitCopy_tail (src : Buf) (dstOffset dstOffsetRem size : Nat) (dst : Buf) (d s : Nat) :
    Option Buf :=
  let remSize := size % 8
  if remSize = 0 then some dst
  else if remSize > dstOffsetRem then
    let remSize1 := (remSize - dstOffsetRem) % 256
    let bitMask2 := (((1 <<< remSize1) - 1) <<< dstOffsetRem) % 256
    (andAssign dst (d + 1) (lnot32 (bitMask2 >>> dstOffsetRem))).bind fun dst1 =>
    (rd src s).bind fun s0 =>
    (orAssign dst1 (d + 1) ((s0 &&& bitMask2) >>> dstOffsetRem)).bind fun dst2 =>
    BitCopy_last src dstOffset dstOffsetRem dst2 d s
  else BitCopy_last src dstOffset remSize dst d s

/-- `Display_BitCopy(&dst[d], &src[s], dstOffset, size)`. -/
def Display_BitCopy (dst : Buf) (d : Nat) (src : Buf) (s : Nat) (dstOffset size : Nat) :
    Option Buf :=
  let d := d + dstOffset / 8
  let dstOffset := dstOffset % 8
  if dstOffset = 0 ∧ size % 8 = 0 then memcpy src (size / 8) dst d s
  else
    let numFullBytes := size / 8
    let dstOffsetRem := (8 - dstOffset) % 256
    if dstOffset = 0 then
      (memcpy src numFullBytes dst d s).bind fun dst1 =>
      BitCopy_tail src dstOffset dstOffsetRem size dst1 (d + numFullBytes) (s + numFullBytes)
    else
      let bitMask1 := ((1 <<< dstOffsetRem) - 1) % 256
      let bitMask2 := lnot32 bitMask1 % 256
      (BitCopy_loop src dstOffset dstOffsetRem bitMask1 bitMask2 numFullBytes dst d s).bind
        fun r => BitCopy_tail src dstOffset dstOffsetRem size r.1 r.2.1 r.2.2

/-! ## Pixel blitter (`Display_PutPixelsUnlocked`, lines 250-271) -/

/-- The panel geometry of `Display.h`. -/
structure Panel where
  /-- Number of columns, `DISPLAY_WIDTH`. -/
  DISPLAY_WIDTH : Nat
  /-- Number of rows, `DISPLAY_HEIGHT`. -/
  DISPLAY_HEIGHT : Nat
deriving DecidableEq, Repr

/-- Modelled from the spec: `DISPLAY_FRAMEBUFFER_SIZE` of `Display.h`, which is
not among the sources; the framebuffer is a byte array of fixed size
`width * ceil(height/8)`. -/
def DISPLAY_FRAMEBUFFER_SIZE (p : Panel) : Nat :=
  p.DISPLAY_WIDTH * ((p.DISPLAY_HEIGHT + 7) / 8)

/-- The panels the engine is built for: the height is a whole number of bytes,
and the constants and every framebuffer index fit an `int`. -/
def Panel.ok (p : Panel) : Prop :=
  p.DISPLAY_HEIGHT % 8 = 0 ∧ p.DISPLAY_WIDTH < 2147483648 ∧ p.DISPLAY_HEIGHT < 2147483648 ∧
    p.DISPLAY_WIDTH * (p.DISPLAY_HEIGHT / 8) < 2147483648

instance (p : Panel) : Decidable p.ok := by unfold Panel.ok; infer_instance

/-- The `for(curX = 0; curX < w; curX++)` loop of `Display_PutPixelsUnlocked`
(lines 266-270); the first argument counts the iterations left. -/
def PutPixels_loop (p : Panel) (x y : Int) (bitmap : Buf) (bm : Nat) (h colSize startRow : Int) :
    Nat → Int → Buf → Option Buf
  | 0, _, fb => some fb
  | n + 1, curX, fb =>
    (ptr fb (wrap32 (wrap32 (wrap32 (x + curX) * Int.tdiv p.DISPLAY_HEIGHT 8) + startRow))).bind
      fun d =>
    (ptr bitmap (bm + wrap32 (curX * colSize))).bind fun s =>
    (Display_BitCopy fb d bitmap s (toU32 (Int.tmod y 8)) (toU32 h)).bind fun fb1 =>
    PutPixels_loop p x y bitmap bm h colSize startRow n (wrap32 (curX + 1)) fb1

/-- `Display_PutPixelsUnlocked(x, y, &bitmap[bm], w, h)` on the framebuffer `fb`. -/
def Display_PutPixelsUnlocked (p : Panel) (fb : Buf) (x y : Int) (bitmap : Buf) (bm : Nat)
    (w h : Int) : Option Buf :=
  if x < 0 ∨ y < 0 ∨ w ≤ 0 ∨ h ≤ 0 ∨ wrap32 (x + w) > p.DISPLAY_WIDTH ∨
      wrap32 (y + h) > p.DISPLAY_HEIGHT then some fb
  else
    let colSize := Int.tdiv (wrap32 (h + 7)) 8
    let startRow := Int.tdiv y 8
    PutPixels_loop p x y bitmap bm h colSize startRow w.toNat 0 fb

/-- `Display_PutPixels(x, y, bitmap, w, h)` (lines 273-277): the blitter between
mutex lock and unlock. -/
def Display_PutPixels (p : Panel) (fb : Buf) (x y : Int) (bitmap : Buf) (w h : Int) : Option Buf :=
  Display_PutPixelsUnlocked p fb x y bitmap 0 w h

/-- The sanity check of `Display_PutPixelsUnlocked` as the spec words it, over
the integers, together with the size of the bitmap: `w * ceil(h/8)` bytes at
least. -/
def ValidRequest (p : Panel) (x y : Int) (bitmap : Buf) (w h : Int) : Prop :=
  0 ≤ x ∧ 0 ≤ y ∧ 0 < w ∧ 0 < h ∧ x + w ≤ p.DISPLAY_WIDTH ∧ y + h ≤ p.DISPLAY_HEIGHT ∧
    w.toNat * ((h.toNat + 7) / 8) ≤ bitmap.length

instance (p : Panel) (x y : Int) (bitmap : Buf) (w h : Int) :
    Decidable (ValidRequest p x y bitmap w h) := by
  unfold ValidRequest; infer_instance

/-- Pixel `(x, y)` of a framebuffer: byte `x * ceil(height/8) + y / 8`,
bit `y % 8`. -/
def pixel (p : Panel) (fb : Buf) (x y : Nat) : Bool :=
  bitAt fb (x * ((p.DISPLAY_HEIGHT + 7) / 8)) y

/-- Bit `r` of column `c` of a bitmap of height `h`: byte `c * ceil(h/8) + r / 8`,
bit `r % 8`. -/
def bitmapBit (bitmap : Buf) (h c r : Nat) : Bool :=
  bitAt bitmap (c * ((h + 7) / 8)) r

/-! ## Clearing (`Display_ClearUnlocked`, lines 66-68; `Display_Clear`, lines 153-159) -/

/-- `Display_ClearUnlocked()`. -/
def Display_ClearUnlocked (p : Panel) (fb : Buf) : Option Buf :=
  memset 0 (DISPLAY_FRAMEBUFFER_SIZE p) fb 0

/-- `Display_Clear()`: the clearing between critical section enter and exit. -/
def Display_Clear (p : Panel) (fb : Buf) : Option Buf :=
  Display_ClearUnlocked p fb


/-! ## Line rasterizer (`Display_PutLine`, lines 279-302) -/

/-- Result of running a loop for a bounded number of iterations. -/
inductive Outcome (α : Type) where
  /-- The loop reached its `break` with this state. -/
  | done (a : α) : Outcome α
  /-- A load or store left its buffer. -/
  | fault : Outcome α
  /-- The loop was still running when the bound was reached. -/
  | running : Outcome α
deriving DecidableEq, Repr

/-- The `while(1)` loop of `Display_PutLine` (lines 286-300), run for at most the
given number of iterations.  Next to the framebuffer the state carries the list
of the points handed to the blitter so far. -/
def PutLine_loop (p : Panel) (x1 y1 dx sx dy sy : Int) :
    Nat → Buf → List (Int × Int) → Int → Int → Int → Outcome (Buf × List (Int × Int))
  | 0, _, _, _, _, _ => Outcome.running
  | fuel + 1, fb, pts, x0, y0, err =>
    match Display_PutPixelsUnlocked p fb x0 y0 [0xFF] 0 1 1 with
    | none => Outcome.fault
    | some fb1 =>
      if x0 = x1 ∧ y0 = y1 then Outcome.done (fb1, pts ++ [(x0, y0)])
      else
        let e2 := err
        let err1 := if e2 > wrap32 (-dx) then wrap32 (err - dy) else err
        let x0a := if e2 > wrap32 (-dx) then wrap32 (x0 + sx) else x0
        let err2 := if e2 < dy then wrap32 (err1 + dx) else err1
        let y0a := if e2 < dy then wrap32 (y0 + sy) else y0
        PutLine_loop p x1 y1 dx sx dy sy fuel fb1 (pts ++ [(x0, y0)]) x0a y0a err2

/-- `Display_PutLine(x0, y0, x1, y1)`, its loop bounded by `fuel` iterations.  The
result is the framebuffer and the list of plotted points, in order. -/
def Display_PutLine (p : Panel) (fuel : Nat) (fb : Buf) (x0 y0 x1 y1 : Int) :
    Outcome (Buf × List (Int × Int)) :=
  let dx := abs32 (wrap32 (x1 - x0))
  let sx : Int := if x0 < x1 then 1 else -1
  let dy := abs32 (wrap32 (y1 - y0))
  let sy : Int := if y0 < y1 then 1 else -1
  let err := Int.tdiv (if dx > dy then dx else wrap32 (-dy)) 2
  PutLine_loop p x1 y1 dx sx dy sy fuel fb [] x0 y0 err

/-! ## Text renderer (`Display_PutText`, lines 304-346) -/

/-- Modelled from the spec: the glyph metadata `Font_CharInfo_t` of `Font.h`,
which is not among the sources; the font resource format gives a glyph as
`{width:int, dataOffset:int}`. -/
structure Font_CharInfo_t where
  /-- Width of the glyph in pixels. -/
  width : Int
  /-- Offset of the glyph bitmap in the font data. -/
  offset : Int
deriving DecidableEq, Repr

/-- Modelled from the spec: the font resource `Font_Info_t` of `Font.h`, which is
not among the sources: `{startChar:int, endChar:int, height:int,
kerningPixels:int, spacePixels:int, glyphs:[{width:int, dataOffset:int}],
data:bytes}`, under the field names `Display_PutText` uses. -/
structure Font_Info_t where
  /-- First character of the font. -/
  startChar : Int
  /-- Last character of the font. -/
  endChar : Int
  /-- Height of every glyph in pixels. -/
  height : Int
  /-- Extra gap before a glyph. -/
  kerning : Int
  /-- Width of a space. -/
  spacePixels : Int
  /-- Glyph table, indexed by `char - startChar`. -/
  charInfo : List Font_CharInfo_t
  /-- Glyph bitmaps, back to back. -/
  data : Buf
deriving DecidableEq, Repr

/-- Load of `a[i]` from a table, for an `int` index. -/
def tableAt {α : Type} (a : List α) (i : Int) : Option α :=
  if 0 ≤ i then a[i.toNat]? else none

/-- What `Display_PutText` did with one character of the text. -/
inductive TextEvent where
  /-- A newline: cursor back to `x`, one font height down. -/
  | newline : TextEvent
  /-- A space: cursor advanced by `spacePixels`. -/
  | space : TextEvent
  /-- A character outside `[startChar, endChar]`. -/
  | skipped : TextEvent
  /-- A glyph: `cur` is the horizontal cursor when the character was reached,
  `kerned` tells whether `font->kerning` was added to it, and
  `Display_PutPixelsUnlocked(x, y, font->data + offset, w, h)` is the blit issued
  for the glyph of index `charIdx`. -/
  | glyph (cur : Int) (kerned : Bool) (x y : Int) (charIdx : Int) (offset : Nat) (w h : Int) :
      TextEvent
deriving DecidableEq, Repr

/-- State of the loop of `Display_PutText`: the cursor `(curX, y)`, the
framebuffer, and the log of the characters handled so far. -/
structure TextState where
  /-- Horizontal cursor `curX`. -/
  curX : Int
  /-- Vertical cursor, the parameter `y`. -/
  y : Int
  /-- The framebuffer. -/
  fb : Buf
  /-- Log of the characters handled so far, one event each. -/
  log : List TextEvent
deriving DecidableEq, Repr

/-- The `for` loop of `Display_PutText` (lines 313-344) over the characters of
the text that are still to come; `x` is the parameter `x` of the call. -/
def PutText_loop (p : Panel) (font : Font_Info_t) (x : Int) :
    List Int → TextState → Option TextState
  | [], st => some st
  | c :: cs, st =>
    if c = 10 then
      PutText_loop p font x cs
        { curX := x, y := wrap32 (st.y + font.height), fb := st.fb,
          log := st.log ++ [TextEvent.newline] }
    else if c = 32 then
      PutText_loop p font x cs
        { curX := wrap32 (st.curX + font.spacePixels), y := st.y, fb := st.fb,
          log := st.log ++ [TextEvent.space] }
    else if c < font.startChar ∨ c > font.endChar then
      PutText_loop p font x cs
        { curX := st.curX, y := st.y, fb := st.fb, log := st.log ++ [TextEvent.skipped] }
    else
      let kerned : Bool := decide (x ≠ st.curX ∧ font.kerning ≠ 0)
      let curX := if kerned then wrap32 (st.curX + font.kerning) else st.curX
      let charIdx := wrap32 (c - font.startChar)
      (tableAt font.charInfo charIdx).bind fun ci =>
      (ptr font.data ci.offset).bind fun charPtr =>
      (Display_PutPixelsUnlocked p st.fb curX st.y font.data charPtr ci.width font.height).bind
        fun fb1 =>
      PutText_loop p font x cs
        { curX := wrap32 (curX + ci.width), y := st.y, fb := fb1,
          log := st.log ++
            [TextEvent.glyph st.curX kerned curX st.y charIdx charPtr ci.width font.height] }

/-- The run of `Display_PutText(x, y, txt, font)` on the framebuffer `fb`; `txt`
holds the characters of the string before its terminating NUL. -/
def PutText_run (p : Panel) (fb : Buf) (x y : Int) (txt : List Int) (font : Font_Info_t) :
    Option TextState :=
  PutText_loop p font x txt { curX := x, y := y, fb := fb, log := [] }

/-- `Display_PutText(x, y, txt, font)`: its effect on the framebuffer. -/
def Display_PutText (p : Panel) (fb : Buf) (x y : Int) (txt : List Int) (font : Font_Info_t) :
    Option Buf :=
  (PutText_run p fb x y txt font).map TextState.fb

/-- The vertical cursor after `n` newlines: `y += font->height`, `n` times. -/
def lineY (font : Font_Info_t) (y : Int) : Nat → Int
  | 0 => y
  | n + 1 => wrap32 (lineY font y n + font.height)

/-- The claim about kerning in the spec's words: the glyph logged at position
`k` is the first glyph drawn on its line when no glyph was drawn since the last
newline before it. -/
def firstGlyphOnLine (evs : List TextEvent) (k : Nat) : Bool :=
  (((evs.take k).reverse.takeWhile fun e => decide (e ≠ TextEvent.newline)).all fun e =>
    match e with
    | TextEvent.glyph _ _ _ _ _ _ _ _ => false
    | _ => true)

/-- The part of the loop state the C program has: cursor and framebuffer. -/
def TextState.core (st : TextState) : Int × Int × Buf := (st.curX, st.y, st.fb)

/-- The kerning rule of `Display_PutText` on the log of a run: before a glyph the
kerning is added exactly when the cursor is not at the initial `x`; the glyph is
drawn at the cursor so advanced; and the glyph of a character that starts the
text or follows a newline gets no kerning. -/
def KerningRule (font : Font_Info_t) (x : Int) (log : List TextEvent) : Prop :=
  ∀ (k : Nat) (cur : Int) (kerned : Bool) (gx gy ci : Int) (off : Nat) (w h : Int),
    log[k]? = some (TextEvent.glyph cur kerned gx gy ci off w h) →
    (kerned = true ↔ cur ≠ x) ∧
    gx = (if cur ≠ x then wrap32 (cur + font.kerning) else cur) ∧
    ((k = 0 ∨ log[k - 1]? = some TextEvent.newline) → kerned = false)

/-! ## Exclusion mechanisms and display state (lines 97-159, 273-356) -/

/-- The two exclusion mechanisms of `Thread.h`: the blocking mutex
`Display_mutex` and the critical section. -/
inductive Mechanism where
  /-- `Thread_MutexLock(Display_mutex)` .. `Thread_MutexUnlock(Display_mutex)`. -/
  | mutex : Mechanism
  /-- `Thread_CriticalEnter()` .. `Thread_CriticalExit()`. -/
  | critical : Mechanism
deriving DecidableEq, Repr

/-- Modelled from the spec: the calls into the display controller driver of
`Display_SSD.h`, which is not among the sources; the driver is a synchronous
collaborator (`init`, `setOn`, `setPowerOn`, `setInverted`, `setContrast`,
`flip`, `transmit(framebuffer)`) that does not touch the framebuffer. -/
inductive SSDCall where
  /-- `Display_SSD_Init()`. -/
  | Init : SSDCall
  /-- `Display_SSD_SetOn(isOn)`. -/
  | SetOn (isOn : Nat) : SSDCall
  /-- `Display_SSD_SetPowerOn(isPowerOn)`. -/
  | SetPowerOn (isPowerOn : Nat) : SSDCall
  /-- `Display_SSD_Flip()`. -/
  | Flip : SSDCall
  /-- `Display_SSD_Update(framebuf)`, with the contents transmitted. -/
  | Update (framebuf : Buf) : SSDCall
  /-- `Display_SSD_SetInverted(invert)`. -/
  | SetInverted (invert : Bool) : SSDCall
  /-- `Display_SSD_SetContrast(contrast)`. -/
  | SetContrast (contrast : Nat) : SSDCall
deriving DecidableEq, Repr

/-- What a public operation of `Display.c` does, step by step: calls of the
threading runtime, calls of the display controller, and writes to the
framebuffer and the display state. -/
inductive Event where
  /-- `Thread_MutexCreate(&Display_mutex)`. -/
  | MutexCreate : Event
  /-- `Thread_MutexLock(Display_mutex)`. -/
  | MutexLock : Event
  /-- `Thread_MutexUnlock(Display_mutex)`. -/
  | MutexUnlock : Event
  /-- `Thread_CriticalEnter()`. -/
  | CriticalEnter : Event
  /-- `Thread_CriticalExit()`. -/
  | CriticalExit : Event
  /-- A call of the display controller. -/
  | ssd (c : SSDCall) : Event
  /-- `Display_PutPixelsUnlocked(x, y, .., w, h)`: a write to the framebuffer. -/
  | blit (x y w h : Int) : Event
  /-- `Display_ClearUnlocked()`: a write to the framebuffer. -/
  | clear : Event
  /-- The write `gSysInfo.displayFlip ^= 1`. -/
  | flipFlag : Event
  /-- The write `Display_type = Device_GetDisplayType()`. -/
  | setType : Event
deriving DecidableEq, Repr

/-- The mechanism an event acquires. -/
def Event.acquires : Event → Option Mechanism
  | Event.MutexLock => some Mechanism.mutex
  | Event.CriticalEnter => some Mechanism.critical
  | _ => none

/-- The mechanism an event releases. -/
def Event.releases : Event → Option Mechanism
  | Event.MutexUnlock => some Mechanism.mutex
  | Event.CriticalExit => some Mechanism.critical
  | _ => none

/-- The acquire event of a mechanism. -/
def Mechanism.acquire : Mechanism → Event
  | Mechanism.mutex => Event.MutexLock
  | Mechanism.critical => Event.CriticalEnter

/-- The release event of a mechanism. -/
def Mechanism.release : Mechanism → Event
  | Mechanism.mutex => Event.MutexUnlock
  | Mechanism.critical => Event.CriticalExit

/-- Mutations and display-controller calls: the events that have to be
serialized. -/
def Event.guarded : Event → Bool
  | Event.ssd _ => true
  | Event.blit _ _ _ _ => true
  | Event.clear => true
  | Event.flipFlag => true
  | Event.setType => true
  | _ => false

/-- The globals of `Display.c` and the flag it persists, with the trace of what
has been done to them. -/
structure Sys where
  /-- `Display_framebuf`. -/
  framebuf : Buf
  /-- `gSysInfo.displayFlip`, declared in `SysInfo.h`. -/
  displayFlip : Nat
  /-- `Display_type`. -/
  displayType : Nat
  /-- The events so far, oldest first. -/
  trace : List Event
deriving DecidableEq, Repr

/-- The trace of an operation in the spec's words: the operation runs under the
mechanism `m` when it acquires `m` first, releases `m` last, and acquires or
releases nothing in between; every mutation and controller call then lies between
the acquire and the matching release of exactly this mechanism. -/
def GuardedBy (m : Mechanism) (tr : List Event) : Prop :=
  ∃ body : List Event, tr = [m.acquire] ++ body ++ [m.release] ∧
    ∀ e, e ∈ body → e.acquires = none ∧ e.releases = none

/-- Whether a trace performs a mutation or a controller call while neither
mechanism is held; the first argument tells whether one is held. -/
def unguardedMutation : Bool → List Event → Bool
  | _, [] => false
  | held, e :: es =>
    if e.acquires.isSome then unguardedMutation true es
    else if e.releases.isSome then unguardedMutation false es
    else (e.guarded && !held) || unguardedMutation held es

namespace Traced

/-- Append an event to the trace. -/
def emit (s : Sys) (e : Event) : Sys :=
  { framebuf := s.framebuf, displayFlip := s.displayFlip, displayType := s.displayType,
    trace := s.trace ++ [e] }

/-- Replace the framebuffer. -/
def setFb (s : Sys) (fb : Buf) : Sys :=
  { framebuf := fb, displayFlip := s.displayFlip, displayType := s.displayType,
    trace := s.trace }

/-- `Display_Init()` (lines 97-107).  `createOk` tells whether
`Thread_MutexCreate` succeeds (on failure the `udf` instruction halts the
program: no result); `devType` is the value of `Device_GetDisplayType()`. -/
def Display_Init (p : Panel) (createOk : Bool) (devType : Nat) (s : Sys) : Option Sys :=
  let s1 := emit s Event.MutexCreate
  if createOk = false then none
  else
    let s2 := emit { framebuf := s1.framebuf, displayFlip := s1.displayFlip,
                     displayType := devType, trace := s1.trace } Event.setType
    (Display_ClearUnlocked p s2.framebuf).map fun fb1 =>
      emit (emit (setFb s2 fb1) Event.clear) (Event.ssd SSDCall.Init)

/-- `Display_SetOn(isOn)` (lines 109-113). -/
def Display_SetOn (isOn : Nat) (s : Sys) : Sys :=
  emit (emit (emit s Event.MutexLock) (Event.ssd (SSDCall.SetOn isOn))) Event.MutexUnlock

/-- `Display_SetPowerOn(isPowerOn)` (lines 115-119). -/
def Display_SetPowerOn (isPowerOn : Nat) (s : Sys) : Sys :=
  emit (emit (emit s Event.MutexLock) (Event.ssd (SSDCall.SetPowerOn isPowerOn)))
    Event.MutexUnlock

/-- `Display_GetType()` (lines 121-123). -/
def Display_GetType (s : Sys) : Nat := s.displayType

/-- `Display_IsFlipped()` (lines 125-127): the flag converted to `bool`. -/
def Display_IsFlipped (s : Sys) : Bool := decide (s.displayFlip ≠ 0)

/-- `Display_Flip()` (lines 129-137). -/
def Display_Flip (s : Sys) : Sys :=
  let s1 := emit s Event.MutexLock
  let s2 := emit { framebuf := s1.framebuf, displayFlip := s1.displayFlip ^^^ 1,
                   displayType := s1.displayType, trace := s1.trace } Event.flipFlag
  let s3 := emit s2 (Event.ssd (SSDCall.SetOn 0))
  let s4 := emit s3 (Event.ssd SSDCall.Flip)
  let s5 := emit s4 (Event.ssd (SSDCall.Update s4.framebuf))
  let s6 := emit s5 (Event.ssd (SSDCall.SetOn 1))
  emit s6 Event.MutexUnlock

/-- `Display_SetInverted(invert)` (lines 139-143). -/
def Display_SetInverted (invert : Bool) (s : Sys) : Sys :=
  emit (emit (emit s Event.MutexLock) (Event.ssd (SSDCall.SetInverted invert)))
    Event.MutexUnlock

/-- `Display_Update()` (lines 145-151). -/
def Display_Update (s : Sys) : Sys :=
  let s1 := emit s Event.CriticalEnter
  emit (emit s1 (Event.ssd (SSDCall.Update s1.framebuf))) Event.CriticalExit

/-- `Display_Clear()` (lines 153-159). -/
def Display_Clear (p : Panel) (s : Sys) : Option Sys :=
  let s1 := emit s Event.CriticalEnter
  (Display_ClearUnlocked p s1.framebuf).map fun fb1 =>
    emit (emit (setFb s1 fb1) Event.clear) Event.CriticalExit

/-- `Display_PutPixels(x, y, bitmap, w, h)` (lines 273-277). -/
def Display_PutPixels (p : Panel) (x y : Int) (bitmap : Buf) (w h : Int) (s : Sys) :
    Option Sys :=
  let s1 := emit s Event.MutexLock
  (Display_PutPixelsUnlocked p s1.framebuf x y bitmap 0 w h).map fun fb1 =>
    emit (emit (setFb s1 fb1) (Event.blit x y w h)) Event.MutexUnlock

/-- `Display_PutLine(x0, y0, x1, y1)` (lines 279-302), the loop bounded by
`fuel`: one blit per plotted point between lock and unlock. -/
def Display_PutLine (p : Panel) (fuel : Nat) (x0 y0 x1 y1 : Int) (s : Sys) : Outcome Sys :=
  let s1 := emit s Event.MutexLock
  match Display.Display_PutLine p fuel s1.framebuf x0 y0 x1 y1 with
  | Outcome.done (fb1, pts) =>
    Outcome.done (emit
      { framebuf := fb1, displayFlip := s1.displayFlip, displayType := s1.displayType,
        trace := s1.trace ++ pts.map fun q => Event.blit q.1 q.2 1 1 } Event.MutexUnlock)
  | Outcome.fault => Outcome.fault
  | Outcome.running => Outcome.running

/-- The blit of a logged character, if it is a glyph. -/
def blitOf : TextEvent → Option Event
  | TextEvent.glyph _ _ x y _ _ w h => some (Event.blit x y w h)
  | _ => none

/-- `Display_PutText(x, y, txt, font)` (lines 304-346): one blit per glyph
between critical section enter and exit. -/
def Display_PutText (p : Panel) (x y : Int) (txt : List Int) (font : Font_Info_t) (s : Sys) :
    Option Sys :=
  let s1 := emit s Event.CriticalEnter
  (PutText_run p s1.framebuf x y txt font).map fun st =>
    emit
      { framebuf := st.fb, displayFlip := s1.displayFlip, displayType := s1.displayType,
        trace := s1.trace ++ st.log.filterMap blitOf } Event.CriticalExit

/-- `Display_GetFramebuffer()` (lines 348-350). -/
def Display_GetFramebuffer (s : Sys) : Buf := s.framebuf

/-- `Display_SetContrast(contrast)` (lines 352-356). -/
def Display_SetContrast (contrast : Nat) (s : Sys) : Sys :=
  emit (emit (emit s Event.MutexLock) (Event.ssd (SSDCall.SetContrast contrast)))
    Event.MutexUnlock

end Traced

/-- A call of a public operation of `Display.c` that writes to the framebuffer
or the display state, with its arguments. -/
inductive Call where
  /-- `Display_Init()`. -/
  | Init (createOk : Bool) (devType : Nat) : Call
  /-- `Display_SetOn(isOn)`. -/
  | SetOn (isOn : Nat) : Call
  /-- `Display_SetPowerOn(isPowerOn)`. -/
  | SetPowerOn (isPowerOn : Nat) : Call
  /-- `Display_Flip()`. -/
  | Flip : Call
  /-- `Display_SetInverted(invert)`. -/
  | SetInverted (invert : Bool) : Call
  /-- `Display_Update()`. -/
  | Update : Call
  /-- `Display_Clear()`. -/
  | Clear : Call
  /-- `Display_PutPixels(x, y, bitmap, w, h)`. -/
  | PutPixels (x y : Int) (bitmap : Buf) (w h : Int) : Call
  /-- `Display_PutLine(x0, y0, x1, y1)`. -/
  | PutLine (x0 y0 x1 y1 : Int) : Call
  /-- `Display_PutText(x, y, txt, font)`. -/
  | PutText (x y : Int) (txt : List Int) (font : Font_Info_t) : Call
  /-- `Display_SetContrast(contrast)`. -/
  | SetContrast (contrast : Nat) : Call

/-- Run a public operation; `fuel` bounds the loop of `Display_PutLine`. -/
def Call.run (p : Panel) (fuel : Nat) : Call → Sys → Outcome Sys
  | Call.Init createOk devType, s =>
    match Traced.Display_Init p createOk devType s with
    | some s1 => Outcome.done s1
    | none => Outcome.fault
  | Call.SetOn isOn, s => Outcome.done (Traced.Display_SetOn isOn s)
  | Call.SetPowerOn v, s => Outcome.done (Traced.Display_SetPowerOn v s)
  | Call.Flip, s => Outcome.done (Traced.Display_Flip s)
  | Call.SetInverted b, s => Outcome.done (Traced.Display_SetInverted b s)
  | Call.Update, s => Outcome.done (Traced.Display_Update s)
  | Call.Clear, s =>
    match Traced.Display_Clear p s with
    | some s1 => Outcome.done s1
    | none => Outcome.fault
  | Call.PutPixels x y bitmap w h, s =>
    match Traced.Display_PutPixels p x y bitmap w h s with
    | some s1 => Outcome.done s1
    | none => Outcome.fault
  | Call.PutLine x0 y0 x1 y1, s => Traced.Display_PutLine p fuel x0 y0 x1 y1 s
  | Call.PutText x y txt font, s =>
    match Traced.Display_PutText p x y txt font s with
    | some s1 => Outcome.done s1
    | none => Outcome.fault
  | Call.SetContrast c, s => Outcome.done (Traced.Display_SetContrast c s)

/-- The mechanism the spec assigns to each operation: the blocking mutex guards
`PutPixels`, line drawing and the display-state toggles, the critical section
guards `Update`, `Clear` and `PutText`; initialization is assigned none. -/
def Call.mechanism : Call → Option Mechanism
  | Call.Init _ _ => none
  | Call.SetOn _ => some Mechanism.mutex
  | Call.SetPowerOn _ => some Mechanism.mutex
  | Call.Flip => some Mechanism.mutex
  | Call.SetInverted _ => some Mechanism.mutex
  | Call.Update => some Mechanism.critical
  | Call.Clear => some Mechanism.critical
  | Call.PutPixels _ _ _ _ _ => some Mechanism.mutex
  | Call.PutLine _ _ _ _ => some Mechanism.mutex
  | Call.PutText _ _ _ _ => some Mechanism.critical
  | Call.SetContrast _ => some Mechanism.mutex

/-! ## The byte accesses of the blitter -/

/-- A byte access of `Display_BitCopy`: a load or a store at an index of the
destination buffer, or a load at an index of the source buffer. -/
inductive Access where
  /-- Load of `dst[i]`. -/
  | dstRead (i : Nat) : Access
  /-- Store to `dst[i]`. -/
  | dstWrite (i : Nat) : Access
  /-- Load of `src[i]`. -/
  | srcRead (i : Nat) : Access
deriving DecidableEq, Repr

/-- The access lies in the destination byte range `[dlo, dhi)` or the source byte
range `[slo, shi)`. -/
def Access.within (dlo dhi slo shi : Nat) : Access → Prop
  | Access.dstRead i => dlo ≤ i ∧ i < dhi
  | Access.dstWrite i => dlo ≤ i ∧ i < dhi
  | Access.srcRead i => slo ≤ i ∧ i < shi

instance (dlo dhi slo shi : Nat) (a : Access) : Decidable (a.within dlo dhi slo shi) := by
  cases a <;> unfold Access.within <;> infer_instance

namespace Logged

/-- Load of `dst[i]`, logged. -/
def rdDst (dst : Buf) (i : Nat) (log : List Access) : Option (Nat × List Access) :=
  (rd dst i).map fun v => (v, log ++ [Access.dstRead i])

/-- Load of `src[i]`, logged. -/
def rdSrc (src : Buf) (i : Nat) (log : List Access) : Option (Nat × List Access) :=
  (rd src i).map fun v => (v, log ++ [Access.srcRead i])

/-- Store `dst[i] = v`, logged. -/
def wrDst (dst : Buf) (i v : Nat) (log : List Access) : Option (Buf × List Access) :=
  (wr dst i v).map fun b => (b, log ++ [Access.dstWrite i])

/-- Statement `dst[i] &= m`, logged. -/
def andAssign (mem : Buf × List Access) (i m : Nat) : Option (Buf × List Access) :=
  (rdDst mem.1 i mem.2).bind fun r => wrDst mem.1 i (r.1 &&& m) r.2

/-- Statement `dst[i] |= m`, logged. -/
def orAssign (mem : Buf × List Access) (i m : Nat) : Option (Buf × List Access) :=
  (rdDst mem.1 i mem.2).bind fun r => wrDst mem.1 i (r.1 ||| m) r.2

/-- Library call `memcpy(&dst[d], &src[s], n)`, logged. -/
def memcpy (src : Buf) : Nat → Buf × List Access → Nat → Nat → Option (Buf × List Access)
  | 0, mem, _, _ => some mem
  | n + 1, mem, d, s =>
    (rdSrc src s mem.2).bind fun r => (wrDst mem.1 d r.1 r.2).bind fun mem1 =>
      memcpy src n mem1 (d + 1) (s + 1)

/-- The loop of lines 201-212 of `Display_BitCopy`, logged. -/
def BitCopy_loop (src : Buf) (dstOffset dstOffsetRem bitMask1 bitMask2 : Nat) :
    Nat → Buf × List Access → Nat → Nat → Option ((Buf × List Access) × Nat × Nat)
  | 0, mem, d, s => some (mem, d, s)
  | n + 1, mem, d, s =>
    (andAssign mem d (lnot32 (bitMask1 <<< dstOffset))).bind fun mem1 =>
    (rdSrc src s mem1.2).bind fun r =>
    (orAssign (mem1.1, r.2) d ((r.1 &&& bitMask1) <<< dstOffset)).bind fun mem2 =>
    (andAssign mem2 (d + 1) (lnot32 (bitMask2 >>> dstOffsetRem))).bind fun mem3 =>
    (orAssign mem3 (d + 1) ((r.1 &&& bitMask2) >>> dstOffsetRem)).bind fun mem4 =>
    BitCopy_loop src dstOffset dstOffsetRem bitMask1 bitMask2 n mem4 (d + 1) (s + 1)

/-- Lines 234-237 of `Display_BitCopy`, logged. -/
def BitCopy_last (src : Buf) (dstOffset remSize : Nat) (mem : Buf × List Access) (d s : Nat) :
    Option (Buf × List Access) :=
  let bitMask1 := ((1 <<< remSize) - 1) % 256
  (andAssign mem d (lnot32 (bitMask1 <<< dstOffset))).bind fun mem1 =>
  (rdSrc src s mem1.2).bind fun r =>
  orAssign (mem1.1, r.2) d ((r.1 &&& bitMask1) <<< dstOffset)

/-- Lines 215-237 of `Display_BitCopy`, logged. -/
def BitCopy_tail (src : Buf) (dstOffset dstOffsetRem size : Nat) (mem : Buf × List Access)
    (d s : Nat) : Option (Buf × List Access) :=
  let remSize := size % 8
  if remSize = 0 then some mem
  else if remSize > dstOffsetRem then
    let remSize1 := (remSize - dstOffsetRem) % 256
    let bitMask2 := (((1 <<< remSize1) - 1) <<< dstOffsetRem) % 256
    (andAssign mem (d + 1) (lnot32 (bitMask2 >>> dstOffsetRem))).bind fun mem1 =>
    (rdSrc src s mem1.2).bind fun r =>
    (orAssign (mem1.1, r.2) (d + 1) ((r.1 &&& bitMask2) >>> dstOffsetRem)).bind fun mem2 =>
    BitCopy_last src dstOffset dstOffsetRem mem2 d s
  else BitCopy_last src dstOffset remSize mem d s

/-- `Display_BitCopy(&dst[d], &src[s], dstOffset, size)` with the list of its
byte accesses, in order. -/
def Display_BitCopy (dst : Buf) (d : Nat) (src : Buf) (s : Nat) (dstOffset size : Nat) :
    Option (Buf × List Access) :=
  let d := d + dstOffset / 8
  let dstOffset := dstOffset % 8
  if dstOffset = 0 ∧ size % 8 = 0 then memcpy src (size / 8) (dst, []) d s
  else
    let numFullBytes := size / 8
    let dstOffsetRem := (8 - dstOffset) % 256
    if dstOffset = 0 then
      (memcpy src numFullBytes (dst, []) d s).bind fun mem1 =>
      BitCopy_tail src dstOffset dstOffsetRem size mem1 (d + numFullBytes) (s + numFullBytes)
    else
      let bitMask1 := ((1 <<< dstOffsetRem) - 1) % 256
      let bitMask2 := lnot32 bitMask1 % 256
      (BitCopy_loop src dstOffset dstOffsetRem bitMask1 bitMask2 numFullBytes (dst, []) d s).bind
        fun r => BitCopy_tail src dstOffset dstOffsetRem size r.1 r.2.1 r.2.2

/-- The column loop of `Display_PutPixelsUnlocked` (lines 266-270) with the
accesses of each `Display_BitCopy` call: the list `logs` holds one access list
per column copied so far. -/
def PutPixels_loop (p : Panel) (x y : Int) (bitmap : Buf) (bm : Nat) (h colSize startRow : Int) :
    Nat → Int → Buf × List (List Access) → Option (Buf × List (List Access))
  | 0, _, st => some st
  | n + 1, curX, st =>
    (ptr st.1 (wrap32 (wrap32 (wrap32 (x + curX) * Int.tdiv p.DISPLAY_HEIGHT 8) + startRow))).bind
      fun d =>
    (ptr bitmap (bm + wrap32 (curX * colSize))).bind fun s =>
    (Display_BitCopy st.1 d bitmap s (toU32 (Int.tmod y 8)) (toU32 h)).bind fun r =>
    PutPixels_loop p x y bitmap bm h colSize startRow n (wrap32 (curX + 1))
      (r.1, st.2 ++ [r.2])

/-- `Display_PutPixelsUnlocked(x, y, &bitmap[bm], w, h)` with the byte accesses
of its column copies, one list per column. -/
def Display_PutPixelsUnlocked (p : Panel) (fb : Buf) (x y : Int) (bitmap : Buf) (bm : Nat)
    (w h : Int) : Option (Buf × List (List Access)) :=
  if x < 0 ∨ y < 0 ∨ w ≤ 0 ∨ h ≤ 0 ∨ wrap32 (x + w) > p.DISPLAY_WIDTH ∨
      wrap32 (y + h) > p.DISPLAY_HEIGHT then some (fb, [])
  else
    let colSize := Int.tdiv (wrap32 (h + 7)) 8
    let startRow := Int.tdiv y 8
    PutPixels_loop p x y bitmap bm h colSize startRow w.toNat 0 (fb, [])

end Logged

/-! ## The points of a line -/

/-- The `while(1)` loop of `Display_PutLine` (lines 286-300) as far as it decides
which points are handed to the blitter: the call of line 287 is recorded in the
list, the framebuffer is left out, since `x0`, `y0` and `err` never depend on
it.  Run for at most the given number of iterations. -/
def PutLine_points_loop (x1 y1 dx sx dy sy : Int) :
    Nat → List (Int × Int) → Int → Int → Int → Option (List (Int × Int))
  | 0, _, _, _, _ => none
  | fuel + 1, pts, x0, y0, err =>
    if x0 = x1 ∧ y0 = y1 then some (pts ++ [(x0, y0)])
    else
      let e2 := err
      let err1 := if e2 > wrap32 (-dx) then wrap32 (err - dy) else err
      let x0a := if e2 > wrap32 (-dx) then wrap32 (x0 + sx) else x0
      let err2 := if e2 < dy then wrap32 (err1 + dx) else err1
      let y0a := if e2 < dy then wrap32 (y0 + sy) else y0
      PutLine_points_loop x1 y1 dx sx dy sy fuel (pts ++ [(x0, y0)]) x0a y0a err2

/-- The points `Display_PutLine(x0, y0, x1, y1)` hands to the blitter, in order
(lines 279-300), its loop bounded by `fuel` iterations. -/
def PutLine_points (fuel : Nat) (x0 y0 x1 y1 : Int) : Option (List (Int × Int)) :=
  let dx := abs32 (wrap32 (x1 - x0))
  let sx : Int := if x0 < x1 then 1 else -1
  let dy := abs32 (wrap32 (y1 - y0))
  let sy : Int := if y0 < y1 then 1 else -1
  let err := Int.tdiv (if dx > dy then dx else wrap32 (-dy)) 2
  PutLine_points_loop x1 y1 dx sx dy sy fuel [] x0 y0 err

/-! ## Glyph placement -/

/-- Width of the glyph `Display_PutText` draws for the character `c`:
`font->charInfo[c - font->startChar].width` (lines 338, 342), and 0 when the
table has no such entry. -/
def glyphWidth (font : Font_Info_t) (c : Int) : Int :=
  match tableAt font.charInfo (wrap32 (c - font.startChar)) with
  | some ci => ci.width
  | none => 0

/-- The sum of the widths of the glyphs of a text, in the spec's words "sum of the
widths of glyphs". -/
def widthSum (font : Font_Info_t) (txt : List Int) : Int :=
  (txt.map (glyphWidth font)).sum

/-! ## Buffers and bits -/

theorem toByte_val (v : Nat) : (toByte v).val = v % 256 := rfl

theorem byteAt_lt (b : Buf) (i : Nat) : byteAt b i < 256 := by
  unfold byteAt
  cases h : b[i]? with
  | none => simp
  | some v => simp

theorem byteAt_of_le (b : Buf) (i : Nat) (h : b.length ≤ i) : byteAt b i = 0 := by
  unfold byteAt
  rw [List.getElem?_eq_none h]; rfl

theorem rd_of_lt (b : Buf) (i : Nat) (h : i < b.length) : rd b i = some (byteAt b i) := by
  unfold rd byteAt
  rw [List.getElem?_eq_getElem h]; rfl

theorem wr_of_lt (b : Buf) (i v : Nat) (h : i < b.length) :
    wr b i v = some (b.set i (toByte v)) := by
  unfold wr; rw [if_pos h]

theorem byteAt_set (b : Buf) (i k : Nat) (v : Byte) (h : i < b.length) :
    byteAt (b.set i v) k = if k = i then v.val else byteAt b k := by
  unfold byteAt
  by_cases hk : k = i
  · subst hk; simp [h]
  · rw [if_neg hk, List.getElem?_set_ne (Ne.symm hk)]

theorem andAssign_of_lt (b : Buf) (i m : Nat) (h : i < b.length) :
    andAssign b i m = some (b.set i (toByte (byteAt b i &&& m))) := by
  unfold andAssign; rw [rd_of_lt b i h]; exact wr_of_lt b i _ h

theorem orAssign_of_lt (b : Buf) (i m : Nat) (h : i < b.length) :
    orAssign b i m = some (b.set i (toByte (byteAt b i ||| m))) := by
  unfold orAssign; rw [rd_of_lt b i h]; exact wr_of_lt b i _ h

/-- Two buffers of equal length with equal bytes are equal. -/
theorem buf_ext (a b : Buf) (hl : a.length = b.length) (h : ∀ i, byteAt a i = byteAt b i) :
    a = b := by
  apply List.ext_getElem hl
  intro i h1 h2
  have := h i
  unfold byteAt at this
  rw [List.getElem?_eq_getElem h1, List.getElem?_eq_getElem h2] at this
  exact Fin.ext (by simpa using this)

theorem testBit_lnot32 (v i : Nat) : (lnot32 v).testBit i = xor (v.testBit i) (decide (i < 32)) := by
  unfold lnot32
  rw [Nat.testBit_xor, show (4294967295 : Nat) = 2 ^ 32 - 1 by norm_num, Nat.testBit_two_pow_sub_one]

theorem testBit_mod256 (v i : Nat) : (v % 256).testBit i = (decide (i < 8) && v.testBit i) := by
  rw [show (256 : Nat) = 2 ^ 8 by norm_num, Nat.testBit_mod_two_pow]

theorem testBit_mask (n i : Nat) : ((1 <<< n) - 1).testBit i = decide (i < n) := by
  rw [Nat.one_shiftLeft, Nat.testBit_two_pow_sub_one]

/-- The pair `dst[0] &= ~(mask << off); dst[0] |= (v & mask) << off` with the
mask of the `n` low bits moves bits `[0, n)` of `v` to bits `[off, off + n)`. -/
theorem testBit_lowCopy (old v off n i : Nat) (hi : i < 8) :
    ((((old &&& lnot32 ((((1 <<< n) - 1) % 256) <<< off)) % 256) |||
        ((v &&& (((1 <<< n) - 1) % 256)) <<< off)) % 256).testBit i
      = if off ≤ i ∧ i < off + n then v.testBit (i - off) else old.testBit i := by
  simp only [testBit_mod256, Nat.testBit_or, Nat.testBit_and, testBit_lnot32,
    Nat.testBit_shiftLeft, testBit_mask]
  have h32 : i < 32 := by omega
  by_cases h1 : off ≤ i
  · have h8 : i - off < 8 := by omega
    by_cases h2 : i < off + n
    · have hn : i - off < n := by omega
      simp [h1, h2, hi, h8, hn, h32]
    · have hn : ¬ i - off < n := by omega
      simp [h1, h2, hi, h8, hn, h32]
  · have h2 : ¬ (off ≤ i ∧ i < off + n) := fun h => h1 h.1
    simp [h1, hi, h32]

/-- The pair `dst[1] &= ~(mask >> rem); dst[1] |= (v & mask) >> rem` with a mask
of the bits `[rem, rem + n)` moves these bits of `v` to bits `[0, n)`. -/
theorem testBit_highCopy (old v rem n m i : Nat) (hi : i < 8)
    (hm : ∀ k, m.testBit k = decide (rem ≤ k ∧ k < rem + n)) :
    ((((old &&& lnot32 (m >>> rem)) % 256) ||| ((v &&& m) >>> rem)) % 256).testBit i
      = if i < n then v.testBit (rem + i) else old.testBit i := by
  simp only [testBit_mod256, Nat.testBit_or, Nat.testBit_and, testBit_lnot32,
    Nat.testBit_shiftRight, hm]
  have h32 : i < 32 := by omega
  by_cases h2 : i < n
  · have h3 : rem + i < rem + n := by omega
    simp [h2, hi, h32, h3]
  · have h3 : ¬ rem + i < rem + n := by omega
    simp [h2, hi, h32, h3]

theorem testBit_bitMask2 (rem k : Nat) (h : rem ≤ 8) :
    (lnot32 (((1 <<< rem) - 1) % 256) % 256).testBit k = decide (rem ≤ k ∧ k < rem + (8 - rem)) := by
  simp only [testBit_mod256, testBit_lnot32, testBit_mask]
  by_cases h1 : k < 8
  · have h32 : k < 32 := by omega
    by_cases h2 : k < rem
    · have h3 : ¬ rem ≤ k := by omega
      simp [h1, h2, h3, h32]
    · have h3 : rem ≤ k := by omega
      have h4 : k < rem + (8 - rem) := by omega
      simp [h1, h2, h3, h4, h32]
  · have h4 : ¬ k < rem + (8 - rem) := by omega
    simp [h1, h4]

theorem testBit_bitMask2_tail (rem n k : Nat) (h : rem + n ≤ 8) :
    ((((1 <<< n) - 1) <<< rem) % 256).testBit k = decide (rem ≤ k ∧ k < rem + n) := by
  simp only [testBit_mod256, Nat.testBit_shiftLeft, testBit_mask]
  by_cases h1 : k < 8 <;> by_cases h2 : rem ≤ k <;> simp [h1, h2] <;> omega


theorem bitAt_base (b : Buf) (base j : Nat) : bitAt b base j = bitAt b 0 (8 * base + j) := by
  unfold bitAt
  have h1 : 0 + (8 * base + j) / 8 = base + j / 8 := by omega
  have h2 : (8 * base + j) % 8 = j % 8 := by omega
  rw [h1, h2]

theorem bitAt_set (b : Buf) (i j : Nat) (v : Byte) (h : i < b.length) :
    bitAt (b.set i v) 0 j = if j / 8 = i then v.val.testBit (j % 8) else bitAt b 0 j := by
  unfold bitAt
  rw [byteAt_set b i _ v h, Nat.zero_add]
  split <;> rfl

/-- Byte-level effect of lines 234-237. -/
theorem BitCopy_last_eq (src dst : Buf) (off n d s : Nat) (hd : d < dst.length)
    (hs : s < src.length) :
    BitCopy_last src off n dst d s = some (dst.set d (toByte
      (((byteAt dst d &&& lnot32 ((((1 <<< n) - 1) % 256) <<< off)) % 256) |||
        ((byteAt src s &&& (((1 <<< n) - 1) % 256)) <<< off)))) := by
  unfold BitCopy_last
  simp only []
  rw [andAssign_of_lt _ _ _ hd, Option.some_bind, rd_of_lt _ _ hs, Option.some_bind,
    orAssign_of_lt _ _ _ (by simpa using hd), byteAt_set _ _ _ _ hd, if_pos rfl, List.set_set,
    toByte_val]

theorem BitCopy_last_spec (src dst : Buf) (off n d s : Nat) (hd : d < dst.length)
    (hs : s < src.length) (hn : off + n ≤ 8) :
    ∃ dst1, BitCopy_last src off n dst d s = some dst1 ∧ dst1.length = dst.length ∧
      ∀ j, bitAt dst1 0 j = if 8 * d + off ≤ j ∧ j < 8 * d + off + n
        then bitAt src 0 (8 * s + (j - (8 * d + off))) else bitAt dst 0 j := by
  refine ⟨_, BitCopy_last_eq src dst off n d s hd hs, by simp, ?_⟩
  intro j
  rw [bitAt_set _ _ _ _ hd]
  by_cases hj : j / 8 = d
  · rw [if_pos hj, toByte_val, testBit_lowCopy _ _ _ _ _ (Nat.mod_lt _ (by decide))]
    by_cases hc : off ≤ j % 8 ∧ j % 8 < off + n
    · rw [if_pos hc, if_pos (by omega)]
      unfold bitAt
      have e1 : 0 + (8 * s + (j - (8 * d + off))) / 8 = s := by omega
      have e2 : (8 * s + (j - (8 * d + off))) % 8 = j % 8 - off := by omega
      rw [e1, e2]
    · rw [if_neg hc, if_neg (by omega)]
      unfold bitAt
      rw [Nat.zero_add, hj]
  · rw [if_neg hj, if_neg (by omega)]


/-- Byte-level effect of the two statements on `dst[1]` (lines 207-208 and
227-228). -/
theorem highPair_eq (dst : Buf) (d m v rem : Nat) (hd : d + 1 < dst.length) :
    ((andAssign dst (d + 1) (lnot32 (m >>> rem))).bind fun dst1 =>
        orAssign dst1 (d + 1) ((v &&& m) >>> rem))
      = some (dst.set (d + 1) (toByte
          (((byteAt dst (d + 1) &&& lnot32 (m >>> rem)) % 256) ||| ((v &&& m) >>> rem)))) := by
  rw [andAssign_of_lt _ _ _ hd, Option.some_bind,
    orAssign_of_lt _ _ _ (by simpa using hd), byteAt_set _ _ _ _ hd, if_pos rfl, List.set_set,
    toByte_val]

theorem highPair_bit (dst : Buf) (d m v rem n j : Nat) (hd : d + 1 < dst.length)
    (hm : ∀ k, m.testBit k = decide (rem ≤ k ∧ k < rem + n)) :
    bitAt (dst.set (d + 1) (toByte
        (((byteAt dst (d + 1) &&& lnot32 (m >>> rem)) % 256) ||| ((v &&& m) >>> rem)))) 0 j
      = if j / 8 = d + 1 ∧ j % 8 < n then v.testBit (rem + j % 8) else bitAt dst 0 j := by
  rw [bitAt_set _ _ _ _ hd]
  by_cases hj : j / 8 = d + 1
  · rw [if_pos hj, toByte_val, testBit_highCopy _ _ _ n _ _ (Nat.mod_lt _ (by decide)) hm]
    by_cases hc : j % 8 < n
    · rw [if_pos hc, if_pos ⟨hj, hc⟩]
    · rw [if_neg hc, if_neg (fun h => hc h.2)]
      unfold bitAt
      rw [Nat.zero_add, hj]
  · rw [if_neg hj, if_neg (fun h => hj h.1)]

/-- One iteration of the loop of lines 201-212, at byte level. -/
theorem BitCopy_loop_succ (src dst : Buf) (off rem m1 m2 n d s : Nat) (hd : d + 1 < dst.length)
    (hs : s < src.length) :
    BitCopy_loop src off rem m1 m2 (n + 1) dst d s
      = BitCopy_loop src off rem m1 m2 n
          ((dst.set d (toByte (((byteAt dst d &&& lnot32 (m1 <<< off)) % 256) |||
              ((byteAt src s &&& m1) <<< off)))).set (d + 1) (toByte
            (((byteAt dst (d + 1) &&& lnot32 (m2 >>> rem)) % 256) |||
              ((byteAt src s &&& m2) >>> rem)))) (d + 1) (s + 1) := by
  have hd0 : d < dst.length := by omega
  rw [BitCopy_loop]
  simp [andAssign_of_lt, orAssign_of_lt, rd_of_lt, byteAt_set, hd0, hd, hs, toByte_val]

/-- One iteration of the loop of lines 201-212 copies the eight bits of
`src[0]` to the bits `[off, off + 8)` of `dst`. -/
theorem BitCopy_loop_step (src dst : Buf) (off n d s : Nat) (h0 : 0 < off) (h8 : off < 8)
    (hd : d + 1 < dst.length) (hs : s < src.length) :
    ∃ B, BitCopy_loop src off (8 - off) (((1 <<< (8 - off)) - 1) % 256)
          (lnot32 (((1 <<< (8 - off)) - 1) % 256) % 256) (n + 1) dst d s
        = BitCopy_loop src off (8 - off) (((1 <<< (8 - off)) - 1) % 256)
          (lnot32 (((1 <<< (8 - off)) - 1) % 256) % 256) n B (d + 1) (s + 1) ∧
      B.length = dst.length ∧
      ∀ j, bitAt B 0 j = if 8 * d + off ≤ j ∧ j < 8 * d + off + 8
        then bitAt src 0 (8 * s + (j - (8 * d + off))) else bitAt dst 0 j := by
  have hd0 : d < dst.length := by omega
  refine ⟨_, BitCopy_loop_succ src dst off (8 - off) _ _ n d s hd hs, by simp, ?_⟩
  intro j
  have hm : ∀ k, (lnot32 (((1 <<< (8 - off)) - 1) % 256) % 256).testBit k
      = decide (8 - off ≤ k ∧ k < 8 - off + off) := by
    intro k
    rw [testBit_bitMask2 (8 - off) k (by omega)]
    congr 1; apply propext; constructor <;> intro h <;> constructor <;> omega
  have hb := highPair_bit (dst.set d (toByte (((byteAt dst d &&&
      lnot32 ((((1 <<< (8 - off)) - 1) % 256) <<< off)) % 256) |||
        ((byteAt src s &&& (((1 <<< (8 - off)) - 1) % 256)) <<< off)))) d
      (lnot32 (((1 <<< (8 - off)) - 1) % 256) % 256) (byteAt src s) (8 - off) off j
      (by simpa using hd) hm
  rw [byteAt_set _ _ _ _ hd0, if_neg (by omega)] at hb
  rw [hb, bitAt_set _ _ _ _ hd0, toByte_val]
  by_cases c1 : j / 8 = d + 1 ∧ j % 8 < off
  · rw [if_pos c1, if_pos (by omega)]
    unfold bitAt
    have e1 : 0 + (8 * s + (j - (8 * d + off))) / 8 = s := by omega
    have e2 : (8 * s + (j - (8 * d + off))) % 8 = 8 - off + j % 8 := by omega
    rw [e1, e2]
  · rw [if_neg c1]
    by_cases c2 : j / 8 = d
    · rw [if_pos c2, testBit_lowCopy _ _ _ _ _ (Nat.mod_lt _ (by decide))]
      by_cases c3 : off ≤ j % 8 ∧ j % 8 < off + (8 - off)
      · rw [if_pos c3, if_pos (by omega)]
        unfold bitAt
        have e1 : 0 + (8 * s + (j - (8 * d + off))) / 8 = s := by omega
        have e2 : (8 * s + (j - (8 * d + off))) % 8 = j % 8 - off := by omega
        rw [e1, e2]
      · rw [if_neg c3, if_neg (by omega)]
        unfold bitAt
        rw [Nat.zero_add, c2]
    · rw [if_neg c2, if_neg (by omega)]

theorem BitCopy_loop_spec (src : Buf) (off : Nat) (h0 : 0 < off) (h8 : off < 8) :
    ∀ (n : Nat) (dst : Buf) (d s : Nat), (n ≠ 0 → d + n < dst.length) → s + n ≤ src.length →
      ∃ dst1, BitCopy_loop src off (8 - off) (((1 <<< (8 - off)) - 1) % 256)
          (lnot32 (((1 <<< (8 - off)) - 1) % 256) % 256) n dst d s = some (dst1, d + n, s + n) ∧
        dst1.length = dst.length ∧
        ∀ j, bitAt dst1 0 j = if 8 * d + off ≤ j ∧ j < 8 * d + off + 8 * n
          then bitAt src 0 (8 * s + (j - (8 * d + off))) else bitAt dst 0 j := by
  intro n
  induction n with
  | zero =>
    intro dst d s _ _
    refine ⟨dst, rfl, rfl, ?_⟩
    intro j
    rw [if_neg (by omega)]
  | succ n ih =>
    intro dst d s hd hs
    have hd1 : d + 1 < dst.length := by have := hd (by omega); omega
    have hs0 : s < src.length := by omega
    obtain ⟨B, eB, lB, bB⟩ := BitCopy_loop_step src dst off n d s h0 h8 hd1 hs0
    obtain ⟨dst1, e1, l1, b1⟩ := ih B (d + 1) (s + 1)
      (by intro hn; have := hd (by omega); omega) (by omega)
    refine ⟨dst1, ?_, by omega, ?_⟩
    · rw [eB, e1, show d + 1 + n = d + (n + 1) by omega, show s + 1 + n = s + (n + 1) by omega]
    · intro j
      rw [b1 j, bB j]
      by_cases c1 : 8 * (d + 1) + off ≤ j ∧ j < 8 * (d + 1) + off + 8 * n
      · rw [if_pos c1, if_pos (by omega)]
        congr 1; omega
      · rw [if_neg c1]
        by_cases c2 : 8 * d + off ≤ j ∧ j < 8 * d + off + 8
        · rw [if_pos c2, if_pos (by omega)]
        · rw [if_neg c2, if_neg (by omega)]

theorem memcpy_spec (src : Buf) :
    ∀ (n : Nat) (dst : Buf) (d s : Nat), d + n ≤ dst.length → s + n ≤ src.length →
      ∃ dst1, memcpy src n dst d s = some dst1 ∧ dst1.length = dst.length ∧
        ∀ k, byteAt dst1 k = if d ≤ k ∧ k < d + n then byteAt src (s + (k - d))
          else byteAt dst k := by
  intro n
  induction n with
  | zero =>
    intro dst d s _ _
    refine ⟨dst, rfl, rfl, ?_⟩
    intro k
    rw [if_neg (by omega)]
  | succ n ih =>
    intro dst d s hd hs
    have hd0 : d < dst.length := by omega
    have hs0 : s < src.length := by omega
    obtain ⟨dst1, e1, l1, b1⟩ := ih (dst.set d (toByte (byteAt src s))) (d + 1) (s + 1)
      (by simp only [List.length_set]; omega) (by omega)
    refine ⟨dst1, ?_, by simpa using l1, ?_⟩
    · rw [memcpy, rd_of_lt _ _ hs0, Option.some_bind, wr_of_lt _ _ _ hd0, Option.some_bind, e1]
    · intro k
      rw [b1 k, byteAt_set _ _ _ _ hd0, toByte_val, Nat.mod_eq_of_lt (byteAt_lt src s)]
      by_cases c1 : d + 1 ≤ k ∧ k < d + 1 + n
      · rw [if_pos c1, if_pos (by omega)]
        congr 1; omega
      · rw [if_neg c1]
        by_cases c2 : k = d
        · rw [if_pos c2, if_pos (by omega)]
          congr 1; omega
        · rw [if_neg c2, if_neg (by omega)]

theorem memcpy_bits (src : Buf) (n : Nat) (dst : Buf) (d s : Nat) (hd : d + n ≤ dst.length)
    (hs : s + n ≤ src.length) :
    ∃ dst1, memcpy src n dst d s = some dst1 ∧ dst1.length = dst.length ∧
      ∀ j, bitAt dst1 0 j = if 8 * d ≤ j ∧ j < 8 * d + 8 * n
        then bitAt src 0 (8 * s + (j - 8 * d)) else bitAt dst 0 j := by
  obtain ⟨dst1, e1, l1, b1⟩ := memcpy_spec src n dst d s hd hs
  refine ⟨dst1, e1, l1, ?_⟩
  intro j
  unfold bitAt
  rw [b1]
  by_cases c : 8 * d ≤ j ∧ j < 8 * d + 8 * n
  · rw [if_pos c, if_pos (by omega)]
    have e1 : s + (0 + j / 8 - d) = 0 + (8 * s + (j - 8 * d)) / 8 := by omega
    have e2 : (8 * s + (j - 8 * d)) % 8 = j % 8 := by omega
    rw [e1, e2]
  · rw [if_neg c, if_neg (by omega)]

theorem BitCopy_tail_spec (src dst : Buf) (off size d s : Nat) (h8 : off < 8)
    (hs : size % 8 ≠ 0 → s < src.length) (hd : size % 8 ≠ 0 → d < dst.length)
    (hd1 : off + size % 8 > 8 → d + 1 < dst.length) :
    ∃ dst1, BitCopy_tail src off ((8 - off) % 256) size dst d s = some dst1 ∧
      dst1.length = dst.length ∧
      ∀ j, bitAt dst1 0 j = if 8 * d + off ≤ j ∧ j < 8 * d + off + size % 8
        then bitAt src 0 (8 * s + (j - (8 * d + off))) else bitAt dst 0 j := by
  have hrem : (8 - off) % 256 = 8 - off := by omega
  rw [hrem]
  unfold BitCopy_tail
  simp only []
  by_cases hr : size % 8 = 0
  · rw [if_pos hr]
    refine ⟨dst, rfl, rfl, ?_⟩
    intro j
    rw [if_neg (by omega)]
  · rw [if_neg hr]
    have hs0 := hs hr
    have hd0 := hd hr
    by_cases hc : size % 8 > 8 - off
    · rw [if_pos hc]
      have hdd := hd1 (by omega)
      have hr1 : (size % 8 - (8 - off)) % 256 = size % 8 - (8 - off) := by omega
      rw [hr1]
      have hm := fun k => testBit_bitMask2_tail (8 - off) (size % 8 - (8 - off)) k (by omega)
      have hb := fun j => highPair_bit dst d _ (byteAt src s) (8 - off) (size % 8 - (8 - off)) j hdd hm
      obtain ⟨dst1, e1, l1, b1⟩ := BitCopy_last_spec src
        (dst.set (d + 1) (toByte (((byteAt dst (d + 1) &&&
          lnot32 ((((1 <<< (size % 8 - (8 - off)) - 1) <<< (8 - off)) % 256) >>> (8 - off))) % 256) |||
          ((byteAt src s &&& (((1 <<< (size % 8 - (8 - off)) - 1) <<< (8 - off)) % 256)) >>>
            (8 - off))))) off (8 - off) d s (by simpa using hd0) hs0 (by omega)
      refine ⟨dst1, ?_, by simpa using l1, ?_⟩
      · rw [← e1]
        simp [andAssign_of_lt, orAssign_of_lt, rd_of_lt, byteAt_set, hd0, hdd, hs0, toByte_val]
      · intro j
        rw [b1 j, hb j]
        by_cases c1 : 8 * d + off ≤ j ∧ j < 8 * d + off + (8 - off)
        · rw [if_pos c1, if_pos (by omega)]
        · rw [if_neg c1]
          by_cases c2 : j / 8 = d + 1 ∧ j % 8 < size % 8 - (8 - off)
          · rw [if_pos c2, if_pos (by omega)]
            unfold bitAt
            have e1 : 0 + (8 * s + (j - (8 * d + off))) / 8 = s := by omega
            have e2 : (8 * s + (j - (8 * d + off))) % 8 = 8 - off + j % 8 := by omega
            rw [e1, e2]
          · rw [if_neg c2, if_neg (by omega)]
    · rw [if_neg hc]
      exact BitCopy_last_spec src dst off (size % 8) d s hd0 hs0 (by omega)

/-- The bit copier in absolute bit positions of the destination and source
buffers. -/
theorem BitCopy_bits (dst src : Buf) (d s dstOffset size : Nat)
    (hdst : d + (dstOffset + size + 7) / 8 ≤ dst.length)
    (hsrc : s + (size + 7) / 8 ≤ src.length) :
    ∃ dst1, Display_BitCopy dst d src s dstOffset size = some dst1 ∧
      dst1.length = dst.length ∧
      ∀ j, bitAt dst1 0 j = if 8 * d + dstOffset ≤ j ∧ j < 8 * d + dstOffset + size
        then bitAt src 0 (8 * s + (j - (8 * d + dstOffset))) else bitAt dst 0 j := by
  unfold Display_BitCopy
  simp only []
  have h8 : dstOffset % 8 < 8 := Nat.mod_lt _ (by decide)
  by_cases c1 : dstOffset % 8 = 0 ∧ size % 8 = 0
  · rw [if_pos c1]
    obtain ⟨dst1, e1, l1, b1⟩ := memcpy_bits src (size / 8) dst (d + dstOffset / 8) s
      (by omega) (by omega)
    refine ⟨dst1, e1, l1, ?_⟩
    intro j
    rw [b1 j]
    by_cases c : 8 * (d + dstOffset / 8) ≤ j ∧ j < 8 * (d + dstOffset / 8) + 8 * (size / 8)
    · rw [if_pos c, if_pos (by omega)]
      congr 1; omega
    · rw [if_neg c, if_neg (by omega)]
  · rw [if_neg c1]
    by_cases c2 : dstOffset % 8 = 0
    · rw [if_pos c2]
      obtain ⟨dst1, e1, l1, b1⟩ := memcpy_bits src (size / 8) dst (d + dstOffset / 8) s
        (by omega) (by omega)
      obtain ⟨dst2, e2, l2, b2⟩ := BitCopy_tail_spec src dst1 (dstOffset % 8) size
        (d + dstOffset / 8 + size / 8) (s + size / 8) h8 (by intro; omega) (by intro; omega)
        (by intro; omega)
      refine ⟨dst2, ?_, by omega, ?_⟩
      · rw [e1, Option.some_bind, e2]
      · intro j
        rw [b2 j, b1 j]
        by_cases a1 : 8 * (d + dstOffset / 8 + size / 8) + dstOffset % 8 ≤ j ∧
            j < 8 * (d + dstOffset / 8 + size / 8) + dstOffset % 8 + size % 8
        · rw [if_pos a1, if_pos (by omega)]
          congr 1; omega
        · rw [if_neg a1]
          by_cases a2 : 8 * (d + dstOffset / 8) ≤ j ∧
              j < 8 * (d + dstOffset / 8) + 8 * (size / 8)
          · rw [if_pos a2, if_pos (by omega)]
            congr 1; omega
          · rw [if_neg a2, if_neg (by omega)]
    · rw [if_neg c2]
      have hrem : (8 - dstOffset % 8) % 256 = 8 - dstOffset % 8 := by omega
      obtain ⟨dst1, e1, l1, b1⟩ := BitCopy_loop_spec src (dstOffset % 8) (by omega) h8
        (size / 8) dst (d + dstOffset / 8) s (by intro; omega) (by omega)
      obtain ⟨dst2, e2, l2, b2⟩ := BitCopy_tail_spec src dst1 (dstOffset % 8) size
        (d + dstOffset / 8 + size / 8) (s + size / 8) h8 (by intro; omega) (by intro; omega)
        (by intro; omega)
      refine ⟨dst2, ?_, by omega, ?_⟩
      · rw [hrem] at e2 ⊢
        rw [e1, Option.some_bind]
        exact e2
      · intro j
        rw [b2 j, b1 j]
        by_cases a1 : 8 * (d + dstOffset / 8 + size / 8) + dstOffset % 8 ≤ j ∧
            j < 8 * (d + dstOffset / 8 + size / 8) + dstOffset % 8 + size % 8
        · rw [if_pos a1, if_pos (by omega)]
          congr 1; omega
        · rw [if_neg a1]
          by_cases a2 : 8 * (d + dstOffset / 8) + dstOffset % 8 ≤ j ∧
              j < 8 * (d + dstOffset / 8) + dstOffset % 8 + 8 * (size / 8)
          · rw [if_pos a2, if_pos (by omega)]
            congr 1; omega
          · rw [if_neg a2, if_neg (by omega)]

/-- C1: `Display_BitCopy` copies exactly the requested bit run.  For every
destination and source pointer, bit offset `dstOffset` and bit count `size`, when
the destination holds at least `ceil((dstOffset+size)/8)` bytes and the source at
least `ceil(size/8)` bytes, the call returns without a fault, keeps the size of
the buffer, bit `dstOffset + i` of the destination (byte `(dstOffset+i)/8`, bit
`(dstOffset+i)%8`) is bit `i` of the source for every `i < size`, every other
destination bit keeps its value, and so does every byte before the destination
pointer. -/
theorem BitCopy_copies_bit_run (dst src : Buf) (d s dstOffset size : Nat)
    (hdst : d + (dstOffset + size + 7) / 8 ≤ dst.length)
    (hsrc : s + (size + 7) / 8 ≤ src.length) :
    ∃ dst1, Display_BitCopy dst d src s dstOffset size = some dst1 ∧
      dst1.length = dst.length ∧
      (∀ i, i < size → bitAt dst1 d (dstOffset + i) = bitAt src s i) ∧
      (∀ j, ¬ (dstOffset ≤ j ∧ j < dstOffset + size) → bitAt dst1 d j = bitAt dst d j) ∧
      (∀ k, k < d → byteAt dst1 k = byteAt dst k) := by
  obtain ⟨dst1, e1, l1, b1⟩ := BitCopy_bits dst src d s dstOffset size hdst hsrc
  refine ⟨dst1, e1, l1, ?_, ?_, ?_⟩
  · intro i hi
    rw [bitAt_base dst1, bitAt_base src, b1, if_pos (by omega)]
    congr 1; omega
  · intro j hj
    rw [bitAt_base dst1, bitAt_base dst, b1, if_neg (by omega)]
  · intro k hk
    apply Nat.eq_of_testBit_eq
    intro i
    by_cases hi : i < 8
    · have h1 := b1 (8 * k + i)
      rw [if_neg (by omega)] at h1
      unfold bitAt at h1
      have e1 : 0 + (8 * k + i) / 8 = k := by omega
      have e2 : (8 * k + i) % 8 = i := by omega
      rw [e1, e2] at h1
      exact h1
    · have p8 : (256 : Nat) ≤ 2 ^ i := by
        calc (256 : Nat) = 2 ^ 8 := by norm_num
          _ ≤ 2 ^ i := Nat.pow_le_pow_right (by decide) (by omega)
      rw [Nat.testBit_lt_two_pow (Nat.lt_of_lt_of_le (byteAt_lt dst1 k) p8),
        Nat.testBit_lt_two_pow (Nat.lt_of_lt_of_le (byteAt_lt dst k) p8)]

theorem BitCopy_copies_bit_run_witness :
    ∃ dst1, Display_BitCopy [0xF0, 0x0F, 0xAA] 0 [0x55, 0xAA] 0 3 12 = some dst1 ∧
      dst1.length = [(0xF0 : Byte), 0x0F, 0xAA].length ∧
      (∀ i, i < 12 → bitAt dst1 0 (3 + i) = bitAt [0x55, 0xAA] 0 i) ∧
      (∀ j, ¬ (3 ≤ j ∧ j < 3 + 12) → bitAt dst1 0 j = bitAt [0xF0, 0x0F, 0xAA] 0 j) ∧
      (∀ k, k < 0 → byteAt dst1 k = byteAt [0xF0, 0x0F, 0xAA] k) :=
  BitCopy_copies_bit_run [0xF0, 0x0F, 0xAA] [0x55, 0xAA] 0 0 3 12 (by decide) (by decide)
/-! ## Machine integers -/

theorem wrap32_of_range (z : Int) (h1 : -2147483648 ≤ z) (h2 : z < 2147483648) :
    wrap32 z = z := by
  unfold wrap32; omega

theorem wrap32_natCast (n : Nat) (h : n < 2147483648) : wrap32 (n : Int) = n :=
  wrap32_of_range _ (by omega) (by omega)

theorem tdiv8_natCast (n : Nat) : Int.tdiv (n : Int) 8 = ((n / 8 : Nat) : Int) := by
  rw [Int.tdiv_eq_ediv (by omega) (by decide)]; omega

theorem tmod8_natCast (n : Nat) : Int.tmod (n : Int) 8 = ((n % 8 : Nat) : Int) := by
  rw [Int.tmod_eq_emod (by omega) (by decide)]; omega

theorem toU32_natCast (n : Nat) (h : n < 4294967296) : toU32 (n : Int) = n := by
  unfold toU32; omega

theorem ptr_natCast (b : Buf) (n : Nat) (h : n ≤ b.length) : ptr b (n : Int) = some n := by
  unfold ptr
  rw [if_pos ⟨by omega, by omega⟩]; simp

/-! ## Pixel blitter -/

/-- Position of a bit run inside one framebuffer column against a pixel. -/
theorem column_bit_iff (R a b Y h py : Nat) (hpy : py < 8 * R) (hY : Y + h ≤ 8 * R) :
    (8 * (a * R + Y / 8) + Y % 8 ≤ 8 * (b * R) + py ∧
      8 * (b * R) + py < 8 * (a * R + Y / 8) + Y % 8 + h) ↔ (b = a ∧ Y ≤ py ∧ py < Y + h) := by
  have h1 : b < a → b * R + R ≤ a * R := fun hlt => by
    calc b * R + R = (b + 1) * R := by ring
      _ ≤ a * R := Nat.mul_le_mul_right R hlt
  have h2 : a < b → a * R + R ≤ b * R := fun hlt => by
    calc a * R + R = (a + 1) * R := by ring
      _ ≤ b * R := Nat.mul_le_mul_right R hlt
  rcases Nat.lt_trichotomy b a with hlt | heq | hgt
  · have := h1 hlt
    constructor <;> intro hh <;> omega
  · subst heq
    constructor <;> intro hh <;> omega
  · have := h2 hgt
    constructor <;> intro hh <;> omega

theorem fbIndex_eq (X c R q : Nat) (h1 : X + c < 2147483648)
    (h2 : (X + c) * R + q < 2147483648) :
    wrap32 (wrap32 (wrap32 ((X : Int) + (c : Int)) * (R : Int)) + (q : Int))
      = (((X + c) * R + q : Nat) : Int) := by
  have h3 : (X + c) * R < 2147483648 := by omega
  rw [← Nat.cast_add, wrap32_natCast _ h1, ← Nat.cast_mul, wrap32_natCast _ h3,
    ← Nat.cast_add, wrap32_natCast _ h2]

theorem bmIndex_eq (bm c cs : Nat) (h : c * cs < 2147483648) :
    (bm : Int) + wrap32 ((c : Int) * (cs : Int)) = ((bm + c * cs : Nat) : Int) := by
  rw [← Nat.cast_mul, wrap32_natCast _ h, ← Nat.cast_add]

theorem wrap32_add_natCast (a b : Nat) (h : a + b < 2147483648) :
    wrap32 ((a : Int) + (b : Int)) = ((a + b : Nat) : Int) := by
  rw [← Nat.cast_add, wrap32_natCast _ h]

theorem wrap32_add_seven (a : Nat) (h : a + 7 < 2147483648) :
    wrap32 ((a : Int) + 7) = ((a + 7 : Nat) : Int) :=
  wrap32_add_natCast a 7 h

theorem wrap32_succ (c : Nat) (h : c + 1 < 2147483648) :
    wrap32 ((c : Int) + 1) = ((c + 1 : Nat) : Int) := by
  rw [wrap32_of_range _ (by omega) (by omega)]; simp

theorem PutPixels_loop_spec (p : Panel) (hp : p.ok) (bitmap : Buf) (bm X Y h : Nat)
    (hh : 0 < h) (hY : Y + h ≤ p.DISPLAY_HEIGHT) :
    ∀ (n c : Nat) (fb : Buf), X + c + n ≤ p.DISPLAY_WIDTH →
      fb.length = p.DISPLAY_WIDTH * (p.DISPLAY_HEIGHT / 8) →
      bm + (c + n) * ((h + 7) / 8) ≤ bitmap.length →
      ∃ fb1, PutPixels_loop p (X : Int) (Y : Int) bitmap bm (h : Int) (((h + 7) / 8 : Nat) : Int)
          ((Y / 8 : Nat) : Int) n (c : Int) fb = some fb1 ∧ fb1.length = fb.length ∧
        ∀ px py, py < p.DISPLAY_HEIGHT →
          bitAt fb1 (px * (p.DISPLAY_HEIGHT / 8)) py =
            if (X + c ≤ px ∧ px < X + c + n) ∧ Y ≤ py ∧ py < Y + h
            then bitAt bitmap (bm + (px - X) * ((h + 7) / 8)) (py - Y)
            else bitAt fb (px * (p.DISPLAY_HEIGHT / 8)) py := by
  obtain ⟨hp8, hpw, hph, hpi⟩ := hp
  have hR : p.DISPLAY_HEIGHT = 8 * (p.DISPLAY_HEIGHT / 8) := by omega
  have hcsR : (h + 7) / 8 ≤ p.DISPLAY_HEIGHT / 8 := by omega
  have hrun : Y / 8 + (Y % 8 + h + 7) / 8 ≤ p.DISPLAY_HEIGHT / 8 := by omega
  have hYR : Y / 8 < p.DISPLAY_HEIGHT / 8 := by omega
  have hh32 : h < 4294967296 := by omega
  have hY32 : Y % 8 < 4294967296 := by omega
  clear hp8
  intro n
  induction n with
  | zero =>
    intro c fb _ _ _
    refine ⟨fb, rfl, rfl, ?_⟩
    intro px py _
    rw [if_neg (by omega)]
  | succ n ih =>
    intro c fb hc hfb hbm
    have hcol : (X + c) * (p.DISPLAY_HEIGHT / 8) + p.DISPLAY_HEIGHT / 8
        ≤ p.DISPLAY_WIDTH * (p.DISPLAY_HEIGHT / 8) := by
      calc (X + c) * (p.DISPLAY_HEIGHT / 8) + p.DISPLAY_HEIGHT / 8
          = (X + c + 1) * (p.DISPLAY_HEIGHT / 8) := by ring
        _ ≤ p.DISPLAY_WIDTH * (p.DISPLAY_HEIGHT / 8) := Nat.mul_le_mul_right _ (by omega)
    have hsrc : c * ((h + 7) / 8) + (h + 7) / 8 ≤ (c + (n + 1)) * ((h + 7) / 8) := by
      calc c * ((h + 7) / 8) + (h + 7) / 8 = (c + 1) * ((h + 7) / 8) := by ring
        _ ≤ (c + (n + 1)) * ((h + 7) / 8) := Nat.mul_le_mul_right _ (by omega)
    have hcw : c * ((h + 7) / 8) < 2147483648 := by
      have : c * ((h + 7) / 8) ≤ p.DISPLAY_WIDTH * (p.DISPLAY_HEIGHT / 8) :=
        Nat.mul_le_mul (by omega) hcsR
      exact Nat.lt_of_le_of_lt this hpi
    have t1 : (X + c) * (p.DISPLAY_HEIGHT / 8) + Y / 8 + (Y % 8 + h + 7) / 8 ≤ fb.length := by
      rw [hfb]
      clear * - hcol hrun
      omega
    have t2 : bm + c * ((h + 7) / 8) + (h + 7) / 8 ≤ bitmap.length := by
      clear * - hsrc hbm
      omega
    have t3 : (X + c) * (p.DISPLAY_HEIGHT / 8) + Y / 8 < 2147483648 := by
      clear * - hcol hYR hpi
      omega
    have t4 : (X + c) * (p.DISPLAY_HEIGHT / 8) + Y / 8 ≤ fb.length := by
      clear * - t1
      omega
    have t5 : bm + c * ((h + 7) / 8) ≤ bitmap.length := by
      clear * - t2
      omega
    have t6 : bm + (c + 1 + n) * ((h + 7) / 8) ≤ bitmap.length := by
      rw [show c + 1 + n = c + (n + 1) by omega]; exact hbm
    have e1 := fbIndex_eq X c (p.DISPLAY_HEIGHT / 8) (Y / 8) (by omega) t3
    have e2 := bmIndex_eq bm c ((h + 7) / 8) hcw
    have e3 := wrap32_succ c (by omega)
    obtain ⟨fb1, c1, l1, b1⟩ := BitCopy_bits fb bitmap
      ((X + c) * (p.DISPLAY_HEIGHT / 8) + Y / 8) (bm + c * ((h + 7) / 8)) (Y % 8) h t1 t2
    have hstep : PutPixels_loop p (X : Int) (Y : Int) bitmap bm (h : Int)
        (((h + 7) / 8 : Nat) : Int) ((Y / 8 : Nat) : Int) (n + 1) (c : Int) fb
        = PutPixels_loop p (X : Int) (Y : Int) bitmap bm (h : Int)
        (((h + 7) / 8 : Nat) : Int) ((Y / 8 : Nat) : Int) n ((c + 1 : Nat) : Int) fb1 := by
      rw [PutPixels_loop, tdiv8_natCast, e1, ptr_natCast _ _ t4, Option.some_bind, e2,
        ptr_natCast _ _ t5, Option.some_bind, tmod8_natCast,
        toU32_natCast _ hY32, toU32_natCast _ hh32, c1, Option.some_bind, e3]
    have hc1 : X + (c + 1) + n ≤ p.DISPLAY_WIDTH := by
      clear * - hc
      omega
    obtain ⟨fb2, c2, l2, b2⟩ := ih (c + 1) fb1 hc1 (l1.trans hfb) t6
    have hpy8 : ∀ py, py < p.DISPLAY_HEIGHT → py < 8 * (p.DISPLAY_HEIGHT / 8) := by
      intro py hpy
      clear * - hpy hR
      omega
    have hY8 : Y + h ≤ 8 * (p.DISPLAY_HEIGHT / 8) := by
      clear * - hY hR
      omega
    clear e1 e2 e3 t1 t2 t3 t4 t5 t6 hcol hsrc hcw hpi hpw hph hh32 hY32 ih hrun hYR hcsR hR
    refine ⟨fb2, hstep.trans c2, l2.trans l1, ?_⟩
    intro px py hpy
    rw [b2 px py hpy, bitAt_base fb1, b1, ← bitAt_base fb]
    have key := column_bit_iff (p.DISPLAY_HEIGHT / 8) (X + c) px Y h py (hpy8 py hpy) hY8
    clear hpy8 hY8 b1 b2 c1 c2 l1 l2 hstep hbm hfb
    by_cases a1 : (X + (c + 1) ≤ px ∧ px < X + (c + 1) + n) ∧ Y ≤ py ∧ py < Y + h
    · rw [if_pos a1, if_pos (by clear key; omega)]
    · rw [if_neg a1]
      by_cases a2 : px = X + c ∧ Y ≤ py ∧ py < Y + h
      · rw [if_pos (key.mpr a2), if_pos (by clear key; omega),
          bitAt_base bitmap (bm + (px - X) * ((h + 7) / 8)) (py - Y)]
        obtain ⟨a3, a4, a5⟩ := a2
        subst a3
        congr 1
        have : X + c - X = c := by omega
        rw [this]
        clear * - a4 a5
        omega
      · rw [if_neg (fun hk => a2 (key.mp hk)), if_neg (by clear key; omega)]

theorem ceil8_of_dvd (n : Nat) (h : n % 8 = 0) : (n + 7) / 8 = n / 8 := by omega

/-- The blitter on a valid request, with natural number arguments. -/
theorem PutPixelsUnlocked_spec (p : Panel) (hp : p.ok) (fb bitmap : Buf) (bm X Y w h : Nat)
    (hfb : fb.length = DISPLAY_FRAMEBUFFER_SIZE p) (hw : 0 < w) (hh : 0 < h)
    (hX : X + w ≤ p.DISPLAY_WIDTH) (hY : Y + h ≤ p.DISPLAY_HEIGHT)
    (hbm : bm + w * ((h + 7) / 8) ≤ bitmap.length) :
    ∃ fb1, Display_PutPixelsUnlocked p fb (X : Int) (Y : Int) bitmap bm (w : Int) (h : Int)
        = some fb1 ∧ fb1.length = fb.length ∧
      ∀ px py, py < p.DISPLAY_HEIGHT →
        pixel p fb1 px py =
          if (X ≤ px ∧ px < X + w) ∧ Y ≤ py ∧ py < Y + h
          then bitAt bitmap (bm + (px - X) * ((h + 7) / 8)) (py - Y)
          else pixel p fb px py := by
  have hp1 := hp
  obtain ⟨hp8, hpw, hph, hpi⟩ := hp1
  have hfb1 : fb.length = p.DISPLAY_WIDTH * (p.DISPLAY_HEIGHT / 8) := by
    rw [hfb, DISPLAY_FRAMEBUFFER_SIZE, ceil8_of_dvd _ hp8]
  obtain ⟨fb1, e1, l1, b1⟩ := PutPixels_loop_spec p hp bitmap bm X Y h hh hY w 0 fb
    (by omega) hfb1 (by rw [Nat.zero_add]; exact hbm)
  refine ⟨fb1, ?_, l1, ?_⟩
  · unfold Display_PutPixelsUnlocked
    have g1 : X + w < 2147483648 := by omega
    have g2 : Y + h < 2147483648 := by omega
    have g3 : ¬ ((X : Int) < 0 ∨ (Y : Int) < 0 ∨ (w : Int) ≤ 0 ∨ (h : Int) ≤ 0 ∨
        ((X + w : Nat) : Int) > p.DISPLAY_WIDTH ∨ ((Y + h : Nat) : Int) > p.DISPLAY_HEIGHT) := by
      omega
    have g4 : h + 7 < 2147483648 := by omega
    rw [wrap32_add_natCast X w g1, wrap32_add_natCast Y h g2, if_neg g3]
    simp only []
    rw [wrap32_add_seven h g4]
    simp only [tdiv8_natCast, Int.toNat_ofNat]
    exact e1
  · intro px py hpy
    unfold pixel
    rw [ceil8_of_dvd _ hp8, b1 px py hpy]
    simp only [Nat.add_zero]

/-- A byte is determined by its eight bits. -/
theorem byteAt_eq_of_bits (a b : Buf) (i k : Nat)
    (h : ∀ t, t < 8 → (byteAt a i).testBit t = (byteAt b k).testBit t) :
    byteAt a i = byteAt b k := by
  apply Nat.eq_of_testBit_eq
  intro t
  by_cases ht : t < 8
  · exact h t ht
  · have p8 : (256 : Nat) ≤ 2 ^ t := by
      calc (256 : Nat) = 2 ^ 8 := by norm_num
        _ ≤ 2 ^ t := Nat.pow_le_pow_right (by decide) (by omega)
    rw [Nat.testBit_lt_two_pow (Nat.lt_of_lt_of_le (byteAt_lt a i) p8),
      Nat.testBit_lt_two_pow (Nat.lt_of_lt_of_le (byteAt_lt b k) p8)]

/-- Two framebuffers with the same pixels are the same byte array. -/
theorem fb_ext (p : Panel) (hp8 : p.DISPLAY_HEIGHT % 8 = 0) (a b : Buf)
    (ha : a.length = DISPLAY_FRAMEBUFFER_SIZE p) (hb : b.length = DISPLAY_FRAMEBUFFER_SIZE p)
    (h : ∀ px py, px < p.DISPLAY_WIDTH → py < p.DISPLAY_HEIGHT →
      pixel p a px py = pixel p b px py) : a = b := by
  apply buf_ext a b (ha.trans hb.symm)
  intro i
  by_cases hi : i < a.length
  · rw [ha, DISPLAY_FRAMEBUFFER_SIZE, ceil8_of_dvd _ hp8] at hi
    have hR : 0 < p.DISPLAY_HEIGHT / 8 := by
      rcases Nat.eq_zero_or_pos (p.DISPLAY_HEIGHT / 8) with h0 | h0
      · rw [h0] at hi; simp at hi
      · exact h0
    have hpx : i / (p.DISPLAY_HEIGHT / 8) < p.DISPLAY_WIDTH :=
      Nat.div_lt_of_lt_mul (by rw [Nat.mul_comm]; exact hi)
    have hr : i % (p.DISPLAY_HEIGHT / 8) < p.DISPLAY_HEIGHT / 8 := Nat.mod_lt _ hR
    have hsplit : i / (p.DISPLAY_HEIGHT / 8) * (p.DISPLAY_HEIGHT / 8) + i % (p.DISPLAY_HEIGHT / 8)
        = i := by
      rw [Nat.mul_comm]; exact Nat.div_add_mod i _
    apply byteAt_eq_of_bits
    intro t ht
    have h1 := h (i / (p.DISPLAY_HEIGHT / 8)) (8 * (i % (p.DISPLAY_HEIGHT / 8)) + t) hpx
      (by omega)
    unfold pixel bitAt at h1
    rw [ceil8_of_dvd _ hp8] at h1
    have e1 : (8 * (i % (p.DISPLAY_HEIGHT / 8)) + t) / 8 = i % (p.DISPLAY_HEIGHT / 8) := by omega
    have e2 : (8 * (i % (p.DISPLAY_HEIGHT / 8)) + t) % 8 = t := by omega
    rw [e1, e2, hsplit] at h1
    exact h1
  · rw [byteAt_of_le a i (by omega), byteAt_of_le b i (by omega)]

/-- C2: a valid `PutPixels` overlays the bitmap on the framebuffer pixel for
pixel.  On a panel whose height is a whole number of bytes, for `x ≥ 0`, `y ≥ 0`,
`w > 0`, `h > 0`, `x + w ≤ width`, `y + h ≤ height` and a bitmap of (at least)
`w * ceil(h/8)` bytes, the call returns without a fault, the framebuffer keeps
its size, pixel `(x + c, y + r)` equals bit `r` of bitmap column `c` for every
`c < w` and `r < h`, and every pixel of the panel outside the rectangle is
unchanged. -/
theorem PutPixels_overlays_bitmap (p : Panel) (hp : p.ok) (fb bitmap : Buf) (x y w h : Int)
    (hfb : fb.length = DISPLAY_FRAMEBUFFER_SIZE p)
    (hx : 0 ≤ x) (hy : 0 ≤ y) (hw : 0 < w) (hh : 0 < h)
    (hxw : x + w ≤ p.DISPLAY_WIDTH) (hyh : y + h ≤ p.DISPLAY_HEIGHT)
    (hbm : w.toNat * ((h.toNat + 7) / 8) ≤ bitmap.length) :
    ∃ fb1, Display_PutPixels p fb x y bitmap w h = some fb1 ∧ fb1.length = fb.length ∧
      (∀ c r : Nat, (c : Int) < w → (r : Int) < h →
        pixel p fb1 (x.toNat + c) (y.toNat + r) = bitmapBit bitmap h.toNat c r) ∧
      (∀ px py : Nat, px < p.DISPLAY_WIDTH → py < p.DISPLAY_HEIGHT →
        ¬ (x ≤ px ∧ (px : Int) < x + w ∧ y ≤ py ∧ (py : Int) < y + h) →
        pixel p fb1 px py = pixel p fb px py) := by
  lift x to ℕ using hx with X
  lift y to ℕ using hy with Y
  lift w to ℕ using (le_of_lt hw) with W
  lift h to ℕ using (le_of_lt hh) with H
  simp only [Int.toNat_ofNat] at hbm ⊢
  obtain ⟨fb1, e1, l1, b1⟩ := PutPixelsUnlocked_spec p hp fb bitmap 0 X Y W H hfb
    (by omega) (by omega) (by omega) (by omega) (by omega)
  refine ⟨fb1, e1, l1, ?_, ?_⟩
  · intro c r hc hr
    rw [b1 (X + c) (Y + r) (by omega), if_pos (by omega)]
    unfold bitmapBit
    have a1 : X + c - X = c := by omega
    have a2 : Y + r - Y = r := by omega
    rw [a1, a2, Nat.zero_add]
  · intro px py _ hpy hout
    rw [b1 px py hpy, if_neg (by omega)]

theorem PutPixels_overlays_bitmap_witness :
    ∃ fb1, Display_PutPixels ⟨4, 16⟩ (List.replicate 8 0) 1 6 [0xFF, 0x03] 1 10 = some fb1 ∧
      fb1.length = (List.replicate 8 (0 : Byte)).length ∧
      (∀ c r : Nat, (c : Int) < 1 → (r : Int) < 10 →
        pixel ⟨4, 16⟩ fb1 ((1 : Int).toNat + c) ((6 : Int).toNat + r)
          = bitmapBit [0xFF, 0x03] (10 : Int).toNat c r) ∧
      (∀ px py : Nat, px < (⟨4, 16⟩ : Panel).DISPLAY_WIDTH →
        py < (⟨4, 16⟩ : Panel).DISPLAY_HEIGHT →
        ¬ ((1 : Int) ≤ px ∧ (px : Int) < 1 + 1 ∧ (6 : Int) ≤ py ∧ (py : Int) < 6 + 10) →
        pixel ⟨4, 16⟩ fb1 px py = pixel ⟨4, 16⟩ (List.replicate 8 0) px py) :=
  PutPixels_overlays_bitmap ⟨4, 16⟩ (by decide) (List.replicate 8 0) [0xFF, 0x03] 1 6 1 10
    (by decide) (by decide) (by decide) (by decide) (by decide) (by decide) (by decide)
    (by decide)

/-- The sanity check drops every invalid request whose sums `x + w` and `y + h`
are representable as `int`. -/
theorem PutPixelsUnlocked_invalid_dropped (p : Panel) (fb bitmap : Buf) (bm : Nat)
    (x y w h : Int)
    (hxw : -2147483648 ≤ x + w ∧ x + w < 2147483648)
    (hyh : -2147483648 ≤ y + h ∧ y + h < 2147483648)
    (hbad : x < 0 ∨ y < 0 ∨ w ≤ 0 ∨ h ≤ 0 ∨ x + w > p.DISPLAY_WIDTH ∨ y + h > p.DISPLAY_HEIGHT) :
    Display_PutPixelsUnlocked p fb x y bitmap bm w h = some fb := by
  unfold Display_PutPixelsUnlocked
  rw [wrap32_of_range _ hxw.1 hxw.2, wrap32_of_range _ hyh.1 hyh.2, if_pos hbad]

/-- C3: the request `x = INT_MAX, y = 0, w = 1, h = 1` exceeds the panel bounds,
yet the sum `x + w` wraps to `INT_MIN`, the sanity check passes and the column
copy is started at `&Display_framebuf[-16]`, outside the framebuffer: the call
is not dropped. -/
theorem PutPixels_overflow_not_dropped :
    (2147483647 : Int) + 1 > (⟨64, 128⟩ : Panel).DISPLAY_WIDTH ∧
    wrap32 (wrap32 (wrap32 (2147483647 + 0) * Int.tdiv 128 8) + Int.tdiv 0 8) = -16 ∧
    Display_PutPixels ⟨64, 128⟩ (List.replicate 1024 0) 2147483647 0 [0xFF] 1 1 = none := by
  refine ⟨by decide, by decide, by decide⟩

theorem memset_spec (v : Nat) :
    ∀ (n : Nat) (dst : Buf) (d : Nat), d + n ≤ dst.length →
      ∃ dst1, memset v n dst d = some dst1 ∧ dst1.length = dst.length ∧
        ∀ k, byteAt dst1 k = if d ≤ k ∧ k < d + n then v % 256 else byteAt dst k := by
  intro n
  induction n with
  | zero =>
    intro dst d _
    refine ⟨dst, rfl, rfl, ?_⟩
    intro k
    rw [if_neg (by omega)]
  | succ n ih =>
    intro dst d hd
    have hd0 : d < dst.length := by omega
    obtain ⟨dst1, e1, l1, b1⟩ := ih (dst.set d (toByte v)) (d + 1)
      (by simp only [List.length_set]; omega)
    refine ⟨dst1, ?_, by simpa using l1, ?_⟩
    · rw [memset, wr_of_lt _ _ _ hd0, Option.some_bind, e1]
    · intro k
      rw [b1 k, byteAt_set _ _ _ _ hd0, toByte_val]
      by_cases c1 : d + 1 ≤ k ∧ k < d + 1 + n
      · rw [if_pos c1, if_pos (by omega)]
      · rw [if_neg c1]
        by_cases c2 : k = d
        · rw [if_pos c2, if_pos (by omega)]
        · rw [if_neg c2, if_neg (by omega)]

/-- C10: `Display_Clear` zeroes the whole framebuffer and keeps its size.  For
every framebuffer state (an array of `DISPLAY_FRAMEBUFFER_SIZE` bytes), the call
returns without a fault, the framebuffer still has `width * ceil(height/8)`
bytes, and every one of them is 0. -/
theorem Clear_zeroes_framebuffer (p : Panel) (fb : Buf)
    (hfb : fb.length = DISPLAY_FRAMEBUFFER_SIZE p) :
    ∃ fb1, Display_Clear p fb = some fb1 ∧
      fb1.length = p.DISPLAY_WIDTH * ((p.DISPLAY_HEIGHT + 7) / 8) ∧
      ∀ b, b ∈ fb1 → b = 0 := by
  obtain ⟨fb1, e1, l1, b1⟩ := memset_spec 0 (DISPLAY_FRAMEBUFFER_SIZE p) fb 0 (by omega)
  refine ⟨fb1, e1, by rw [l1, hfb]; rfl, ?_⟩
  intro b hb
  obtain ⟨i, hi, rfl⟩ := List.getElem_of_mem hb
  have h1 := b1 i
  rw [if_pos (by omega)] at h1
  unfold byteAt at h1
  rw [List.getElem?_eq_getElem hi] at h1
  exact Fin.ext (by simpa using h1)

theorem Clear_zeroes_framebuffer_witness :
    ∃ fb1, Display_Clear ⟨2, 12⟩ [1, 2, 3, 255] = some fb1 ∧
      fb1.length = (⟨2, 12⟩ : Panel).DISPLAY_WIDTH * (((⟨2, 12⟩ : Panel).DISPLAY_HEIGHT + 7) / 8) ∧
      ∀ b, b ∈ fb1 → b = 0 :=
  Clear_zeroes_framebuffer ⟨2, 12⟩ [1, 2, 3, 255] (by decide)

/-- Pixel form of a valid `PutPixels`, with integer arguments. -/
theorem PutPixels_pixels (p : Panel) (hp : p.ok) (fb bitmap : Buf) (x y w h : Int)
    (hfb : fb.length = DISPLAY_FRAMEBUFFER_SIZE p) (hv : ValidRequest p x y bitmap w h) :
    ∃ fb1, Display_PutPixels p fb x y bitmap w h = some fb1 ∧
      fb1.length = DISPLAY_FRAMEBUFFER_SIZE p ∧
      ∀ px py : Nat, py < p.DISPLAY_HEIGHT →
        pixel p fb1 px py =
          if (x ≤ px ∧ (px : Int) < x + w) ∧ y ≤ py ∧ (py : Int) < y + h
          then bitmapBit bitmap h.toNat (px - x.toNat) (py - y.toNat)
          else pixel p fb px py := by
  obtain ⟨hx, hy, hw, hh, hxw, hyh, hbm⟩ := hv
  lift x to ℕ using hx with X
  lift y to ℕ using hy with Y
  lift w to ℕ using (le_of_lt hw) with W
  lift h to ℕ using (le_of_lt hh) with H
  simp only [Int.toNat_ofNat] at hbm ⊢
  obtain ⟨fb1, e1, l1, b1⟩ := PutPixelsUnlocked_spec p hp fb bitmap 0 X Y W H hfb
    (by omega) (by omega) (by omega) (by omega) (by omega)
  refine ⟨fb1, e1, l1.trans hfb, ?_⟩
  intro px py hpy
  rw [b1 px py hpy]
  unfold bitmapBit
  by_cases c : (X ≤ px ∧ px < X + W) ∧ Y ≤ py ∧ py < Y + H
  · rw [if_pos c, if_pos (by omega), Nat.zero_add]
  · rw [if_neg c, if_neg (by omega)]

/-- C9: non-overlapping `PutPixels` calls commute.  For every framebuffer and
any two valid requests whose rectangles are disjoint, both orders of the two
calls return without a fault and yield the same framebuffer, and that
framebuffer shows both bitmaps. -/
theorem PutPixels_disjoint_commute (p : Panel) (hp : p.ok) (fb bmA bmB : Buf)
    (x1 y1 w1 h1 x2 y2 w2 h2 : Int)
    (hfb : fb.length = DISPLAY_FRAMEBUFFER_SIZE p)
    (hA : ValidRequest p x1 y1 bmA w1 h1) (hB : ValidRequest p x2 y2 bmB w2 h2)
    (hdisj : x1 + w1 ≤ x2 ∨ x2 + w2 ≤ x1 ∨ y1 + h1 ≤ y2 ∨ y2 + h2 ≤ y1) :
    ∃ fb2,
      ((Display_PutPixels p fb x1 y1 bmA w1 h1).bind fun f =>
        Display_PutPixels p f x2 y2 bmB w2 h2) = some fb2 ∧
      ((Display_PutPixels p fb x2 y2 bmB w2 h2).bind fun f =>
        Display_PutPixels p f x1 y1 bmA w1 h1) = some fb2 ∧
      (∀ c r : Nat, (c : Int) < w1 → (r : Int) < h1 →
        pixel p fb2 (x1.toNat + c) (y1.toNat + r) = bitmapBit bmA h1.toNat c r) ∧
      (∀ c r : Nat, (c : Int) < w2 → (r : Int) < h2 →
        pixel p fb2 (x2.toNat + c) (y2.toNat + r) = bitmapBit bmB h2.toNat c r) := by
  obtain ⟨fa, ea, la, ba⟩ := PutPixels_pixels p hp fb bmA x1 y1 w1 h1 hfb hA
  obtain ⟨fab, eab, lab, bab⟩ := PutPixels_pixels p hp fa bmB x2 y2 w2 h2 la hB
  obtain ⟨fb', eb, lb, bb⟩ := PutPixels_pixels p hp fb bmB x2 y2 w2 h2 hfb hB
  obtain ⟨fba, eba, lba, bba⟩ := PutPixels_pixels p hp fb' bmA x1 y1 w1 h1 lb hA
  have heq : fba = fab := by
    apply fb_ext p hp.1 fba fab lba lab
    intro px py _ hpy
    rw [bba px py hpy, bab px py hpy, ba px py hpy, bb px py hpy]
    by_cases c1 : (x1 ≤ px ∧ (px : Int) < x1 + w1) ∧ y1 ≤ py ∧ (py : Int) < y1 + h1
    · have c2 : ¬ ((x2 ≤ px ∧ (px : Int) < x2 + w2) ∧ y2 ≤ py ∧ (py : Int) < y2 + h2) := by
        omega
      simp only [if_pos c1, if_neg c2]
    · simp only [if_neg c1]
  obtain ⟨hx1, hy1, hw1, hh1, hxw1, hyh1, _⟩ := hA
  obtain ⟨hx2, hy2, hw2, hh2, hxw2, hyh2, _⟩ := hB
  refine ⟨fab, ?_, ?_, ?_, ?_⟩
  · rw [ea, Option.some_bind, eab]
  · rw [eb, Option.some_bind, eba, heq]
  · intro c r hc hr
    rw [bab _ _ (by omega), if_neg (by omega), ba _ _ (by omega), if_pos (by omega)]
    congr 1 <;> omega
  · intro c r hc hr
    rw [bab _ _ (by omega), if_pos (by omega)]
    congr 1 <;> omega

theorem PutPixels_disjoint_commute_witness :
    ∃ fb2,
      ((Display_PutPixels ⟨4, 16⟩ (List.replicate 8 0) 1 2 [0x0F] 1 4).bind fun f =>
        Display_PutPixels ⟨4, 16⟩ f 1 6 [0xFF, 0x03] 1 10) = some fb2 ∧
      ((Display_PutPixels ⟨4, 16⟩ (List.replicate 8 0) 1 6 [0xFF, 0x03] 1 10).bind fun f =>
        Display_PutPixels ⟨4, 16⟩ f 1 2 [0x0F] 1 4) = some fb2 ∧
      (∀ c r : Nat, (c : Int) < 1 → (r : Int) < 4 →
        pixel ⟨4, 16⟩ fb2 ((1 : Int).toNat + c) ((2 : Int).toNat + r)
          = bitmapBit [0x0F] (4 : Int).toNat c r) ∧
      (∀ c r : Nat, (c : Int) < 1 → (r : Int) < 10 →
        pixel ⟨4, 16⟩ fb2 ((1 : Int).toNat + c) ((6 : Int).toNat + r)
          = bitmapBit [0xFF, 0x03] (10 : Int).toNat c r) :=
  PutPixels_disjoint_commute ⟨4, 16⟩ (by decide) (List.replicate 8 0) [0x0F] [0xFF, 0x03]
    1 2 1 4 1 6 1 10 (by decide) (by decide) (by decide) (by decide)

/-! ## Line rasterizer -/

/-- The blitter call of the line loop on a point of the panel sets that pixel and
no other. -/
theorem plot_spec (p : Panel) (hp : p.ok) (fb : Buf)
    (hfb : fb.length = DISPLAY_FRAMEBUFFER_SIZE p) (x0 y0 : Int)
    (hx : 0 ≤ x0 ∧ x0 < p.DISPLAY_WIDTH) (hy : 0 ≤ y0 ∧ y0 < p.DISPLAY_HEIGHT) :
    ∃ fb1, Display_PutPixelsUnlocked p fb x0 y0 [0xFF] 0 1 1 = some fb1 ∧
      fb1.length = DISPLAY_FRAMEBUFFER_SIZE p ∧
      ∀ px py : Nat, py < p.DISPLAY_HEIGHT →
        pixel p fb1 px py = (decide ((px : Int) = x0 ∧ (py : Int) = y0) || pixel p fb px py) := by
  obtain ⟨hx0, hx1⟩ := hx
  obtain ⟨hy0, hy1⟩ := hy
  lift x0 to ℕ using hx0 with X
  lift y0 to ℕ using hy0 with Y
  obtain ⟨fb1, e1, l1, b1⟩ := PutPixelsUnlocked_spec p hp fb [0xFF] 0 X Y 1 1 hfb
    (by omega) (by omega) (by omega) (by omega) (by decide)
  simp only [Nat.cast_one] at e1
  refine ⟨fb1, e1, l1.trans hfb, ?_⟩
  intro px py hpy
  rw [b1 px py hpy]
  by_cases c : px = X ∧ py = Y
  · obtain ⟨rfl, rfl⟩ := c
    rw [if_pos (by omega)]
    simp only [Nat.sub_self, and_self, decide_True, Bool.true_or]
    decide
  · rw [if_neg (by omega)]
    have : ¬ ((px : Int) = X ∧ (py : Int) = Y) := by omega
    simp only [this, decide_False, Bool.false_or]

/-- C5: a degenerate line is one pixel.  For every point `(x, y)` of the panel,
`PutLine(x, y, x, y)` stops in its first iteration (any positive bound on the
iterations suffices), plots the single point `(x, y)`, sets that pixel and
leaves every other pixel of the framebuffer unchanged. -/
theorem PutLine_degenerate (p : Panel) (hp : p.ok) (fb : Buf)
    (hfb : fb.length = DISPLAY_FRAMEBUFFER_SIZE p) (x y : Int)
    (hx : 0 ≤ x ∧ x < p.DISPLAY_WIDTH) (hy : 0 ≤ y ∧ y < p.DISPLAY_HEIGHT) (fuel : Nat) :
    ∃ fb1, Display_PutLine p (fuel + 1) fb x y x y = Outcome.done (fb1, [(x, y)]) ∧
      fb1.length = fb.length ∧
      pixel p fb1 x.toNat y.toNat = true ∧
      ∀ px py : Nat, px < p.DISPLAY_WIDTH → py < p.DISPLAY_HEIGHT →
        ¬ ((px : Int) = x ∧ (py : Int) = y) → pixel p fb1 px py = pixel p fb px py := by
  obtain ⟨fb1, e1, l1, b1⟩ := plot_spec p hp fb hfb x y hx hy
  refine ⟨fb1, ?_, l1.trans hfb.symm, ?_, ?_⟩
  · unfold Display_PutLine
    simp only []
    rw [PutLine_loop, e1]
    simp
  · rw [b1 _ _ (by omega)]
    have : ((x.toNat : Int) = x ∧ (y.toNat : Int) = y) := by omega
    simp only [this, and_self, decide_True, Bool.true_or]
  · intro px py _ hpy hne
    rw [b1 px py hpy]
    simp only [hne, decide_False, Bool.false_or]

theorem PutLine_degenerate_witness :
    ∃ fb1, Display_PutLine ⟨8, 8⟩ (0 + 1) (List.replicate 8 0) 3 5 3 5
        = Outcome.done (fb1, [(3, 5)]) ∧
      fb1.length = (List.replicate 8 (0 : Byte)).length ∧
      pixel ⟨8, 8⟩ fb1 (3 : Int).toNat (5 : Int).toNat = true ∧
      ∀ px py : Nat, px < (⟨8, 8⟩ : Panel).DISPLAY_WIDTH → py < (⟨8, 8⟩ : Panel).DISPLAY_HEIGHT →
        ¬ ((px : Int) = 3 ∧ (py : Int) = 5) →
        pixel ⟨8, 8⟩ fb1 px py = pixel ⟨8, 8⟩ (List.replicate 8 0) px py :=
  PutLine_degenerate ⟨8, 8⟩ (by decide) (List.replicate 8 0) (by decide) 3 5
    (by decide) (by decide) 0

theorem int_mul_nonneg_of_gt (r d : Int) (hd : 0 < d) (h : -d < r * d) : 0 ≤ r := by
  by_contra hneg
  have h1 : r ≤ -1 := by omega
  have h2 : r * d ≤ -1 * d := Int.mul_le_mul_of_nonneg_right h1 (le_of_lt hd)
  omega

theorem int_mul_nonpos_of_lt (r d : Int) (hd : 0 < d) (h : r * d < d) : r ≤ 0 := by
  by_contra hpos
  have h1 : 1 ≤ r := by omega
  have h2 : 1 * d ≤ r * d := Int.mul_le_mul_of_nonneg_right h1 (le_of_lt hd)
  omega

theorem wrap32_neg (d : Int) (h0 : 0 ≤ d) (h1 : d < 2147483648) : wrap32 (-d) = -d :=
  wrap32_of_range _ (by omega) (by omega)

theorem wrap32_wrap32_add (a b : Int) : wrap32 (wrap32 a + b) = wrap32 (a + b) := by
  unfold wrap32; omega

theorem getLast_cons_of_getLast (a b : Int × Int) (l : List (Int × Int))
    (h : l.getLast? = some b) : (a :: l).getLast? = some b := by
  cases l with
  | nil => simp at h
  | cons c l => rw [List.getLast?_cons_cons]; exact h

/-- One iteration of the line loop that does not stop: the point is plotted and
the loop goes on from the next state. -/
theorem PutLine_loop_step (p : Panel) (hp : p.ok) (x1 y1 dx sx dy sy : Int) (fuel : Nat)
    (fb : Buf) (pts : List (Int × Int)) (x0 y0 err : Int)
    (hfb : fb.length = DISPLAY_FRAMEBUFFER_SIZE p)
    (hx : 0 ≤ x0 ∧ x0 < p.DISPLAY_WIDTH) (hy : 0 ≤ y0 ∧ y0 < p.DISPLAY_HEIGHT)
    (hne : ¬ (x0 = x1 ∧ y0 = y1)) :
    ∃ fb1, fb1.length = DISPLAY_FRAMEBUFFER_SIZE p ∧
      (∀ px py : Nat, py < p.DISPLAY_HEIGHT →
        pixel p fb1 px py = (decide ((px : Int) = x0 ∧ (py : Int) = y0) || pixel p fb px py)) ∧
      PutLine_loop p x1 y1 dx sx dy sy (fuel + 1) fb pts x0 y0 err
        = PutLine_loop p x1 y1 dx sx dy sy fuel fb1 (pts ++ [(x0, y0)])
            (if err > wrap32 (-dx) then wrap32 (x0 + sx) else x0)
            (if err < dy then wrap32 (y0 + sy) else y0)
            (if err < dy then wrap32 ((if err > wrap32 (-dx) then wrap32 (err - dy) else err) + dx)
              else (if err > wrap32 (-dx) then wrap32 (err - dy) else err)) := by
  obtain ⟨fb1, e1, l1, b1⟩ := plot_spec p hp fb hfb x0 y0 hx hy
  refine ⟨fb1, l1, b1, ?_⟩
  rw [PutLine_loop, e1]
  simp only [if_neg hne]

/-- The iteration of the line loop at the end point: the point is plotted and the
loop stops. -/
theorem PutLine_loop_stop (p : Panel) (hp : p.ok) (x1 y1 dx sx dy sy : Int) (fuel : Nat)
    (fb : Buf) (pts : List (Int × Int)) (err : Int)
    (hfb : fb.length = DISPLAY_FRAMEBUFFER_SIZE p)
    (hx : 0 ≤ x1 ∧ x1 < p.DISPLAY_WIDTH) (hy : 0 ≤ y1 ∧ y1 < p.DISPLAY_HEIGHT) :
    ∃ fb1, fb1.length = DISPLAY_FRAMEBUFFER_SIZE p ∧
      (∀ px py : Nat, py < p.DISPLAY_HEIGHT →
        pixel p fb1 px py = (decide ((px : Int) = x1 ∧ (py : Int) = y1) || pixel p fb px py)) ∧
      PutLine_loop p x1 y1 dx sx dy sy (fuel + 1) fb pts x1 y1 err
        = Outcome.done (fb1, pts ++ [(x1, y1)]) := by
  obtain ⟨fb1, e1, l1, b1⟩ := plot_spec p hp fb hfb x1 y1 hx hy
  refine ⟨fb1, l1, b1, ?_⟩
  rw [PutLine_loop, e1]
  simp

/-- Membership of a pixel in a list of plotted points, one point at a time. -/
theorem decide_mem_cons (q a : Int × Int) (l : List (Int × Int)) :
    decide (q ∈ a :: l) = (decide (q.1 = a.1 ∧ q.2 = a.2) || decide (q ∈ l)) := by
  by_cases h : q = a
  · subst h; simp
  · have h2 : ¬ (q.1 = a.1 ∧ q.2 = a.2) := fun hh => h (Prod.ext hh.1 hh.2)
    simp [h, h2]

/-- The line loop on a line whose `x` extent exceeds its `y` extent: with
`ra` columns and `rb` rows left to the end point and the error term in
`[0, dx)`, the loop stops at the end point within `ra + 1` iterations. -/
theorem PutLine_loop_xmajor (p : Panel) (hp : p.ok) (x1 y1 dx sx dy sy e0 : Int)
    (hdx : dy < dx) (hdy : 0 ≤ dy) (hdxr : dx < 2147483648)
    (hsx : sx = 1 ∨ sx = -1)
    (he0 : 0 ≤ e0 ∧ e0 < dx)
    (hxin : ∀ t : Int, 0 ≤ t → t ≤ dx →
      0 ≤ x1 - sx * t ∧ x1 - sx * t < p.DISPLAY_WIDTH)
    (hyin : ∀ t : Int, 0 ≤ t → t ≤ dy →
      0 ≤ y1 - sy * t ∧ y1 - sy * t < p.DISPLAY_HEIGHT) :
    ∀ (ra k : Nat) (rb : Int) (fb : Buf) (pts : List (Int × Int)) (x0 y0 err : Int),
      fb.length = DISPLAY_FRAMEBUFFER_SIZE p → (ra : Int) ≤ dx → rb ≤ dy →
      0 ≤ err → err < dx → err = e0 + ra * dy - rb * dx →
      x0 = x1 - sx * ra → y0 = y1 - sy * rb →
      ∃ fb1 pts1, PutLine_loop p x1 y1 dx sx dy sy (ra + 1 + k) fb pts x0 y0 err
          = Outcome.done (fb1, pts ++ pts1) ∧
        fb1.length = DISPLAY_FRAMEBUFFER_SIZE p ∧
        pts1.head? = some (x0, y0) ∧ pts1.getLast? = some (x1, y1) ∧
        pts1.length = ra + 1 ∧
        ∀ px py : Nat, py < p.DISPLAY_HEIGHT →
          pixel p fb1 px py
            = (decide (((px : Int), (py : Int)) ∈ pts1) || pixel p fb px py) := by
  have hW : p.DISPLAY_WIDTH < 2147483648 := hp.2.1
  have hH : p.DISPLAY_HEIGHT < 2147483648 := hp.2.2.1
  have hdx0 : 0 < dx := by omega
  intro ra
  induction ra with
  | zero =>
    intro k rb fb pts x0 y0 err hfb _ hrb herr0 herr1 herr hx0 hy0
    have hz : ((0 : Nat) : Int) * dy = 0 := by simp
    rw [hz] at herr
    have hrbz : rb = 0 := by
      have h1 := int_mul_nonneg_of_gt rb dx hdx0 (by omega)
      have h2 := int_mul_nonpos_of_lt rb dx hdx0 (by omega)
      omega
    have hx0' : x0 = x1 := by rw [hx0]; simp
    have hy0' : y0 = y1 := by rw [hy0, hrbz]; simp
    subst hx0' hy0'
    have hxp := hxin 0 (le_refl 0) (le_of_lt hdx0)
    have hyp := hyin 0 (le_refl 0) hdy
    simp only [mul_zero, sub_zero] at hxp hyp
    obtain ⟨fb1, l1, b1, e1⟩ := PutLine_loop_stop p hp x0 y0 dx sx dy sy (0 + k) fb pts err
      hfb hxp hyp
    refine ⟨fb1, [(x0, y0)], ?_, l1, rfl, rfl, rfl, ?_⟩
    · rw [show 0 + 1 + k = 0 + k + 1 by omega]; exact e1
    · intro px py hpy
      rw [b1 px py hpy, decide_mem_cons]
      simp
  | succ ra ih =>
    intro k rb fb pts x0 y0 err hfb hra hrb herr0 herr1 herr hx0 hy0
    have hprod : dy ≤ ((ra + 1 : Nat) : Int) * dy := by
      have : (1 : Int) * dy ≤ ((ra + 1 : Nat) : Int) * dy :=
        Int.mul_le_mul_of_nonneg_right (by omega) hdy
      omega
    have hsplit : ((ra + 1 : Nat) : Int) * dy = (ra : Int) * dy + dy := by push_cast; ring
    have hrb0 : 0 ≤ rb := int_mul_nonneg_of_gt rb dx hdx0 (by omega)
    have hxp := hxin ((ra + 1 : Nat) : Int) (by omega) hra
    have hyp := hyin rb hrb0 hrb
    rw [← hx0] at hxp
    rw [← hy0] at hyp
    have hxn := hxin (ra : Int) (by omega) (by omega)
    have hxstep : x0 + sx = x1 - sx * (ra : Int) := by rw [hx0]; push_cast; ring
    have hne : ¬ (x0 = x1 ∧ y0 = y1) := by
      intro hh
      have h1 := hh.1
      rw [hx0] at h1
      rcases hsx with rfl | rfl <;> omega
    obtain ⟨fb1, l1, b1, e1⟩ := PutLine_loop_step p hp x1 y1 dx sx dy sy (ra + 1 + k) fb pts
      x0 y0 err hfb hxp hyp hne
    have hgt : err > -dx := by omega
    rw [show ra + 1 + 1 + k = ra + 1 + k + 1 by omega, e1, wrap32_neg dx (le_of_lt hdx0) hdxr]
    simp only [if_pos hgt]
    rw [wrap32_of_range (x0 + sx) (by rw [hxstep]; omega) (by rw [hxstep]; omega),
      wrap32_of_range (err - dy) (by omega) (by omega)]
    by_cases hlt : err < dy
    · have hrbm : (rb - 1) * dx = rb * dx - dx := by ring
      have hrb1 : 0 ≤ rb - 1 := int_mul_nonneg_of_gt (rb - 1) dx hdx0 (by omega)
      have hyn := hyin (rb - 1) hrb1 (by omega)
      have hystep : y0 + sy = y1 - sy * (rb - 1) := by rw [hy0]; ring
      simp only [if_pos hlt]
      rw [wrap32_of_range (err - dy + dx) (by omega) (by omega),
        wrap32_of_range (y0 + sy) (by rw [hystep]; omega) (by rw [hystep]; omega)]
      obtain ⟨fb2, pts2, e2, l2, hd2, hl2, hn2, b2⟩ := ih k (rb - 1) fb1 (pts ++ [(x0, y0)])
        (x0 + sx) (y0 + sy) (err - dy + dx) l1 (by omega) (by omega) (by omega) (by omega)
        (by omega) hxstep hystep
      refine ⟨fb2, (x0, y0) :: pts2, ?_, l2, rfl, getLast_cons_of_getLast _ _ _ hl2,
        by simp [hn2], ?_⟩
      · rw [e2, List.append_assoc, List.singleton_append]
      · intro px py hpy
        rw [b2 px py hpy, b1 px py hpy, decide_mem_cons, ← Bool.or_assoc]
        congr 1
        exact Bool.or_comm _ _
    · simp only [if_neg hlt]
      obtain ⟨fb2, pts2, e2, l2, hd2, hl2, hn2, b2⟩ := ih k rb fb1 (pts ++ [(x0, y0)])
        (x0 + sx) y0 (err - dy) l1 (by omega) hrb (by omega) (by omega)
        (by omega) hxstep hy0
      refine ⟨fb2, (x0, y0) :: pts2, ?_, l2, rfl, getLast_cons_of_getLast _ _ _ hl2,
        by simp [hn2], ?_⟩
      · rw [e2, List.append_assoc, List.singleton_append]
      · intro px py hpy
        rw [b2 px py hpy, b1 px py hpy, decide_mem_cons, ← Bool.or_assoc]
        congr 1
        exact Bool.or_comm _ _

/-- The line loop on a line whose `y` extent is at least its `x` extent: with
`ra` columns and `rb` rows left to the end point and the error term in
`(-dy, 0]`, the loop stops at the end point within `rb + 1` iterations. -/
theorem PutLine_loop_ymajor (p : Panel) (hp : p.ok) (x1 y1 dx sx dy sy e0 : Int)
    (hdx : 0 ≤ dx) (hdxy : dx ≤ dy) (hdy0 : 0 < dy) (hdyr : dy < 2147483648)
    (hsy : sy = 1 ∨ sy = -1)
    (he0 : -dy < e0 ∧ e0 ≤ 0)
    (hxin : ∀ t : Int, 0 ≤ t → t ≤ dx →
      0 ≤ x1 - sx * t ∧ x1 - sx * t < p.DISPLAY_WIDTH)
    (hyin : ∀ t : Int, 0 ≤ t → t ≤ dy →
      0 ≤ y1 - sy * t ∧ y1 - sy * t < p.DISPLAY_HEIGHT) :
    ∀ (rb k : Nat) (ra : Int) (fb : Buf) (pts : List (Int × Int)) (x0 y0 err : Int),
      fb.length = DISPLAY_FRAMEBUFFER_SIZE p → ra ≤ dx → (rb : Int) ≤ dy →
      -dy < err → err ≤ 0 → err = e0 + ra * dy - rb * dx →
      x0 = x1 - sx * ra → y0 = y1 - sy * rb →
      ∃ fb1 pts1, PutLine_loop p x1 y1 dx sx dy sy (rb + 1 + k) fb pts x0 y0 err
          = Outcome.done (fb1, pts ++ pts1) ∧
        fb1.length = DISPLAY_FRAMEBUFFER_SIZE p ∧
        pts1.head? = some (x0, y0) ∧ pts1.getLast? = some (x1, y1) ∧
        pts1.length = rb + 1 ∧
        ∀ px py : Nat, py < p.DISPLAY_HEIGHT →
          pixel p fb1 px py
            = (decide (((px : Int), (py : Int)) ∈ pts1) || pixel p fb px py) := by
  have hW : p.DISPLAY_WIDTH < 2147483648 := hp.2.1
  have hH : p.DISPLAY_HEIGHT < 2147483648 := hp.2.2.1
  intro rb
  induction rb with
  | zero =>
    intro k ra fb pts x0 y0 err hfb hra _ herr0 herr1 herr hx0 hy0
    have hz : ((0 : Nat) : Int) * dx = 0 := by simp
    rw [hz] at herr
    have hraz : ra = 0 := by
      have h1 := int_mul_nonneg_of_gt ra dy hdy0 (by omega)
      have h2 := int_mul_nonpos_of_lt ra dy hdy0 (by omega)
      omega
    have hx0' : x0 = x1 := by rw [hx0, hraz]; simp
    have hy0' : y0 = y1 := by rw [hy0]; simp
    subst hx0' hy0'
    have hxp := hxin 0 (le_refl 0) hdx
    have hyp := hyin 0 (le_refl 0) (le_of_lt hdy0)
    simp only [mul_zero, sub_zero] at hxp hyp
    obtain ⟨fb1, l1, b1, e1⟩ := PutLine_loop_stop p hp x0 y0 dx sx dy sy (0 + k) fb pts err
      hfb hxp hyp
    refine ⟨fb1, [(x0, y0)], ?_, l1, rfl, rfl, rfl, ?_⟩
    · rw [show 0 + 1 + k = 0 + k + 1 by omega]; exact e1
    · intro px py hpy
      rw [b1 px py hpy, decide_mem_cons]
      simp
  | succ rb ih =>
    intro k ra fb pts x0 y0 err hfb hra hrb herr0 herr1 herr hx0 hy0
    have hprod : dx ≤ ((rb + 1 : Nat) : Int) * dx := by
      have : (1 : Int) * dx ≤ ((rb + 1 : Nat) : Int) * dx :=
        Int.mul_le_mul_of_nonneg_right (by omega) hdx
      omega
    have hsplit : ((rb + 1 : Nat) : Int) * dx = (rb : Int) * dx + dx := by push_cast; ring
    have hra0 : 0 ≤ ra := int_mul_nonneg_of_gt ra dy hdy0 (by omega)
    have hxp := hxin ra hra0 hra
    have hyp := hyin ((rb + 1 : Nat) : Int) (by omega) hrb
    rw [← hx0] at hxp
    rw [← hy0] at hyp
    have hyn := hyin (rb : Int) (by omega) (by omega)
    have hystep : y0 + sy = y1 - sy * (rb : Int) := by rw [hy0]; push_cast; ring
    have hne : ¬ (x0 = x1 ∧ y0 = y1) := by
      intro hh
      have h1 := hh.2
      rw [hy0] at h1
      rcases hsy with rfl | rfl <;> omega
    obtain ⟨fb1, l1, b1, e1⟩ := PutLine_loop_step p hp x1 y1 dx sx dy sy (rb + 1 + k) fb pts
      x0 y0 err hfb hxp hyp hne
    have hlt : err < dy := by omega
    rw [show rb + 1 + 1 + k = rb + 1 + k + 1 by omega, e1, wrap32_neg dx hdx (by omega)]
    simp only [if_pos hlt]
    rw [wrap32_of_range (y0 + sy) (by rw [hystep]; omega) (by rw [hystep]; omega)]
    by_cases hgt : err > -dx
    · have hram : (ra - 1) * dy = ra * dy - dy := by ring
      have hra1 : 0 ≤ ra - 1 := int_mul_nonneg_of_gt (ra - 1) dy hdy0 (by omega)
      have hxn := hxin (ra - 1) hra1 (by omega)
      have hxstep : x0 + sx = x1 - sx * (ra - 1) := by rw [hx0]; ring
      simp only [if_pos hgt]
      rw [wrap32_wrap32_add, wrap32_of_range (err - dy + dx) (by omega) (by omega),
        wrap32_of_range (x0 + sx) (by rw [hxstep]; omega) (by rw [hxstep]; omega)]
      obtain ⟨fb2, pts2, e2, l2, hd2, hl2, hn2, b2⟩ := ih k (ra - 1) fb1 (pts ++ [(x0, y0)])
        (x0 + sx) (y0 + sy) (err - dy + dx) l1 (by omega) (by omega) (by omega) (by omega)
        (by omega) hxstep hystep
      refine ⟨fb2, (x0, y0) :: pts2, ?_, l2, rfl, getLast_cons_of_getLast _ _ _ hl2,
        by simp [hn2], ?_⟩
      · rw [e2, List.append_assoc, List.singleton_append]
      · intro px py hpy
        rw [b2 px py hpy, b1 px py hpy, decide_mem_cons, ← Bool.or_assoc]
        congr 1
        exact Bool.or_comm _ _
    · simp only [if_neg hgt]
      rw [wrap32_of_range (err + dx) (by omega) (by omega)]
      obtain ⟨fb2, pts2, e2, l2, hd2, hl2, hn2, b2⟩ := ih k ra fb1 (pts ++ [(x0, y0)])
        x0 (y0 + sy) (err + dx) l1 hra (by omega) (by omega) (by omega)
        (by omega) hx0 hystep
      refine ⟨fb2, (x0, y0) :: pts2, ?_, l2, rfl, getLast_cons_of_getLast _ _ _ hl2,
        by simp [hn2], ?_⟩
      · rw [e2, List.append_assoc, List.singleton_append]
      · intro px py hpy
        rw [b2 px py hpy, b1 px py hpy, decide_mem_cons, ← Bool.or_assoc]
        congr 1
        exact Bool.or_comm _ _

/-- More iterations do not change the result of a line loop that has stopped. -/
theorem PutLine_loop_mono (p : Panel) (x1 y1 dx sx dy sy : Int) (k : Nat) :
    ∀ (fuel : Nat) (fb : Buf) (pts : List (Int × Int)) (x0 y0 err : Int)
      (r : Buf × List (Int × Int)),
      PutLine_loop p x1 y1 dx sx dy sy fuel fb pts x0 y0 err = Outcome.done r →
      PutLine_loop p x1 y1 dx sx dy sy (fuel + k) fb pts x0 y0 err = Outcome.done r := by
  intro fuel
  induction fuel with
  | zero =>
    intro fb pts x0 y0 err r h
    simp [PutLine_loop] at h
  | succ fuel ih =>
    intro fb pts x0 y0 err r h
    rw [show fuel + 1 + k = fuel + k + 1 by omega]
    rw [PutLine_loop] at h ⊢
    cases hpp : Display_PutPixelsUnlocked p fb x0 y0 [0xFF] 0 1 1 with
    | none => rw [hpp] at h; simp at h
    | some fb1 =>
      rw [hpp] at h
      simp only [] at h ⊢
      by_cases hend : x0 = x1 ∧ y0 = y1
      · rw [if_pos hend] at h ⊢
        exact h
      · rw [if_neg hend] at h ⊢
        exact ih _ _ _ _ _ _ h

/-- The setup of `Display_PutLine` along one axis, for two coordinates on the
panel: the extent `d = abs(b - a)` and the step `s` lead from `a` to `b` inside
the panel. -/
theorem line_axis (a b W : Int) (ha : 0 ≤ a ∧ a < W) (hb : 0 ≤ b ∧ b < W)
    (hW : W < 2147483648) :
    0 ≤ abs32 (wrap32 (b - a)) ∧ abs32 (wrap32 (b - a)) < 2147483648 ∧
    ((if a < b then (1 : Int) else -1) = 1 ∨ (if a < b then (1 : Int) else -1) = -1) ∧
    a = b - (if a < b then (1 : Int) else -1) * abs32 (wrap32 (b - a)) ∧
    ∀ t : Int, 0 ≤ t → t ≤ abs32 (wrap32 (b - a)) →
      0 ≤ b - (if a < b then (1 : Int) else -1) * t ∧
      b - (if a < b then (1 : Int) else -1) * t < W := by
  rw [wrap32_of_range (b - a) (by omega) (by omega)]
  unfold abs32
  by_cases h : a < b
  · rw [if_neg (by omega), wrap32_of_range (b - a) (by omega) (by omega)]
    simp only [if_pos h]
    refine ⟨by omega, by omega, by simp, by omega, ?_⟩
    intro t ht0 ht1
    omega
  · rw [wrap32_of_range _ (by split <;> omega) (by split <;> omega)]
    simp only [if_neg h]
    by_cases h2 : b - a < 0
    · simp only [if_pos h2]
      refine ⟨by omega, by omega, by simp, by omega, ?_⟩
      intro t ht0 ht1
      omega
    · simp only [if_neg h2]
      refine ⟨by omega, by omega, by simp, by omega, ?_⟩
      intro t ht0 ht1
      omega

/-- The line loop started as `Display_PutLine` starts it, for any extents and
steps that lead from the start point to the end point inside the panel. -/
theorem PutLine_loop_run (p : Panel) (hp : p.ok) (fb : Buf)
    (hfb : fb.length = DISPLAY_FRAMEBUFFER_SIZE p) (x0 y0 x1 y1 dx sx dy sy : Int)
    (hdx : 0 ≤ dx) (hdy : 0 ≤ dy) (hdxr : dx < 2147483648) (hdyr : dy < 2147483648)
    (hsx : sx = 1 ∨ sx = -1) (hsy : sy = 1 ∨ sy = -1)
    (hx0 : x0 = x1 - sx * dx) (hy0 : y0 = y1 - sy * dy)
    (hxin : ∀ t : Int, 0 ≤ t → t ≤ dx →
      0 ≤ x1 - sx * t ∧ x1 - sx * t < p.DISPLAY_WIDTH)
    (hyin : ∀ t : Int, 0 ≤ t → t ≤ dy →
      0 ≤ y1 - sy * t ∧ y1 - sy * t < p.DISPLAY_HEIGHT) :
    ∃ fb1 pts, PutLine_loop p x1 y1 dx sx dy sy (dx.toNat + dy.toNat + 1) fb [] x0 y0
          (Int.tdiv (if dx > dy then dx else wrap32 (-dy)) 2) = Outcome.done (fb1, pts) ∧
      fb1.length = DISPLAY_FRAMEBUFFER_SIZE p ∧
      pts.head? = some (x0, y0) ∧ pts.getLast? = some (x1, y1) ∧
      ∀ px py : Nat, py < p.DISPLAY_HEIGHT →
        pixel p fb1 px py = (decide (((px : Int), (py : Int)) ∈ pts) || pixel p fb px py) := by
  have hra : ((dx.toNat : Nat) : Int) = dx := Int.toNat_of_nonneg hdx
  have hrb : ((dy.toNat : Nat) : Int) = dy := Int.toNat_of_nonneg hdy
  by_cases hmaj : dx > dy
  · rw [if_pos hmaj, Int.tdiv_eq_ediv hdx (by decide)]
    obtain ⟨fb1, pts1, e1, l1, hd1, hl1, _, b1⟩ := PutLine_loop_xmajor p hp x1 y1 dx sx dy sy
      (dx / 2) hmaj hdy hdxr hsx ⟨by omega, by omega⟩ hxin hyin dx.toNat dy.toNat dy fb []
      x0 y0 (dx / 2) hfb (by omega) (le_refl dy) (by omega) (by omega)
      (by rw [hra]; ring) (by rw [hra]; exact hx0) hy0
    refine ⟨fb1, pts1, ?_, l1, hd1, hl1, b1⟩
    rw [show dx.toNat + dy.toNat + 1 = dx.toNat + 1 + dy.toNat by omega, e1, List.nil_append]
  · rw [if_neg hmaj, wrap32_neg dy hdy hdyr, Int.neg_tdiv, Int.tdiv_eq_ediv hdy (by decide)]
    by_cases hdy0 : 0 < dy
    · obtain ⟨fb1, pts1, e1, l1, hd1, hl1, _, b1⟩ := PutLine_loop_ymajor p hp x1 y1 dx sx dy sy
        (-(dy / 2)) hdx (by omega) hdy0 hdyr hsy ⟨by omega, by omega⟩ hxin hyin dy.toNat
        dx.toNat dx fb [] x0 y0 (-(dy / 2)) hfb (le_refl dx) (by omega) (by omega) (by omega)
        (by rw [hrb]; ring) hx0 (by rw [hrb]; exact hy0)
      refine ⟨fb1, pts1, ?_, l1, hd1, hl1, b1⟩
      rw [show dx.toNat + dy.toNat + 1 = dy.toNat + 1 + dx.toNat by omega, e1, List.nil_append]
    · have hdy1 : dy = 0 := by omega
      have hdx1 : dx = 0 := by omega
      subst hdy1 hdx1
      simp only [mul_zero, sub_zero] at hx0 hy0
      subst hx0 hy0
      have hxp := hxin 0 (le_refl 0) (le_refl 0)
      have hyp := hyin 0 (le_refl 0) (le_refl 0)
      simp only [mul_zero, sub_zero] at hxp hyp
      obtain ⟨fb1, l1, b1, e1⟩ := PutLine_loop_stop p hp x0 y0 0 sx 0 sy 0 fb []
        (-(0 / 2)) hfb hxp hyp
      refine ⟨fb1, [(x0, y0)], e1, l1, rfl, rfl, ?_⟩
      intro px py hpy
      rw [b1 px py hpy, decide_mem_cons]
      simp

/-- C4: `PutLine` terminates and draws both endpoints.  For every pair of
endpoints on the panel the Bresenham loop stops after finitely many iterations
(every bound from `N` on gives the same finished run, without a fault), the
first point plotted is `(x0, y0)`, the last is `(x1, y1)`, and both pixels are
set in the resulting framebuffer. -/
theorem PutLine_terminates_endpoints (p : Panel) (hp : p.ok) (fb : Buf)
    (hfb : fb.length = DISPLAY_FRAMEBUFFER_SIZE p) (x0 y0 x1 y1 : Int)
    (hx0 : 0 ≤ x0 ∧ x0 < p.DISPLAY_WIDTH) (hy0 : 0 ≤ y0 ∧ y0 < p.DISPLAY_HEIGHT)
    (hx1 : 0 ≤ x1 ∧ x1 < p.DISPLAY_WIDTH) (hy1 : 0 ≤ y1 ∧ y1 < p.DISPLAY_HEIGHT) :
    ∃ (N : Nat) (fb1 : Buf) (pts : List (Int × Int)),
      (∀ fuel, N ≤ fuel →
        Display_PutLine p fuel fb x0 y0 x1 y1 = Outcome.done (fb1, pts)) ∧
      pts.head? = some (x0, y0) ∧ pts.getLast? = some (x1, y1) ∧
      pixel p fb1 x0.toNat y0.toNat = true ∧ pixel p fb1 x1.toNat y1.toNat = true := by
  have hW : (p.DISPLAY_WIDTH : Int) < 2147483648 := by have := hp.2.1; omega
  have hH : (p.DISPLAY_HEIGHT : Int) < 2147483648 := by have := hp.2.2.1; omega
  obtain ⟨ax1, ax2, ax3, ax4, ax5⟩ := line_axis x0 x1 p.DISPLAY_WIDTH hx0 hx1 hW
  obtain ⟨ay1, ay2, ay3, ay4, ay5⟩ := line_axis y0 y1 p.DISPLAY_HEIGHT hy0 hy1 hH
  obtain ⟨fb1, pts, e1, l1, hd1, hl1, b1⟩ := PutLine_loop_run p hp fb hfb x0 y0 x1 y1 _ _ _ _
    ax1 ay1 ax2 ay2 ax3 ay3 ax4 ay4 ax5 ay5
  refine ⟨(abs32 (wrap32 (x1 - x0))).toNat + (abs32 (wrap32 (y1 - y0))).toNat + 1, fb1, pts,
    ?_, hd1, hl1, ?_, ?_⟩
  · intro fuel hfuel
    obtain ⟨k, rfl⟩ := Nat.exists_eq_add_of_le hfuel
    unfold Display_PutLine
    exact PutLine_loop_mono p _ _ _ _ _ _ k _ _ _ _ _ _ _ e1
  · rw [b1 _ _ (by omega)]
    have hm : ((x0.toNat : Int), (y0.toNat : Int)) ∈ pts := by
      rw [Int.toNat_of_nonneg hx0.1, Int.toNat_of_nonneg hy0.1]
      exact List.mem_of_mem_head? hd1
    rw [decide_eq_true hm, Bool.true_or]
  · rw [b1 _ _ (by omega)]
    have hm : ((x1.toNat : Int), (y1.toNat : Int)) ∈ pts := by
      rw [Int.toNat_of_nonneg hx1.1, Int.toNat_of_nonneg hy1.1]
      exact List.mem_of_mem_getLast? hl1
    rw [decide_eq_true hm, Bool.true_or]

theorem PutLine_terminates_endpoints_witness :
    ∃ (N : Nat) (fb1 : Buf) (pts : List (Int × Int)),
      (∀ fuel, N ≤ fuel →
        Display_PutLine ⟨8, 16⟩ fuel (List.replicate 16 0) 0 0 7 15 = Outcome.done (fb1, pts)) ∧
      pts.head? = some (0, 0) ∧ pts.getLast? = some (7, 15) ∧
      pixel ⟨8, 16⟩ fb1 (0 : Int).toNat (0 : Int).toNat = true ∧
      pixel ⟨8, 16⟩ fb1 (7 : Int).toNat (15 : Int).toNat = true :=
  PutLine_terminates_endpoints ⟨8, 16⟩ (by decide) (List.replicate 16 0) (by decide) 0 0 7 15
    (by decide) (by decide) (by decide) (by decide)

/-! ## Text renderer -/

/-- The log does not influence the cursor and the framebuffer. -/
theorem PutText_loop_core (p : Panel) (font : Font_Info_t) (x : Int) :
    ∀ (txt : List Int) (st st' : TextState), st.core = st'.core →
      (PutText_loop p font x txt st).map TextState.core
        = (PutText_loop p font x txt st').map TextState.core := by
  intro txt
  induction txt with
  | nil =>
    intro st st' h
    simp [PutText_loop, h]
  | cons c cs ih =>
    intro st st' h
    obtain ⟨cx, y, fb, l⟩ := st
    obtain ⟨cx', y', fb', l'⟩ := st'
    simp only [TextState.core, Prod.mk.injEq] at h
    obtain ⟨rfl, rfl, rfl⟩ := h
    rw [PutText_loop, PutText_loop]
    by_cases h1 : c = 10
    · rw [if_pos h1, if_pos h1]
      exact ih _ _ rfl
    · rw [if_neg h1, if_neg h1]
      by_cases h2 : c = 32
      · rw [if_pos h2, if_pos h2]
        exact ih _ _ rfl
      · rw [if_neg h2, if_neg h2]
        by_cases h3 : c < font.startChar ∨ c > font.endChar
        · rw [if_pos h3, if_pos h3]
          exact ih _ _ rfl
        · rw [if_neg h3, if_neg h3]
          simp only []
          cases tableAt font.charInfo (wrap32 (c - font.startChar)) with
          | none => rfl
          | some ci =>
            simp only [Option.some_bind]
            cases ptr font.data ci.offset with
            | none => rfl
            | some o =>
              simp only [Option.some_bind]
              cases Display_PutPixelsUnlocked p fb
                (if decide (x ≠ cx ∧ font.kerning ≠ 0) = true then wrap32 (cx + font.kerning)
                  else cx) y font.data o ci.width font.height with
              | none => rfl
              | some fb1 =>
                simp only [Option.some_bind]
                exact ih _ _ rfl

theorem PutText_loop_fb (p : Panel) (font : Font_Info_t) (x : Int) (txt : List Int)
    (st st' : TextState) (h : st.core = st'.core) :
    (PutText_loop p font x txt st).map TextState.fb
      = (PutText_loop p font x txt st').map TextState.fb := by
  have h1 := congrArg (Option.map fun c : Int × Int × Buf => c.2.2)
    (PutText_loop_core p font x txt st st' h)
  simpa [Option.map_map, Function.comp, TextState.core] using h1

/-- The loop over a concatenated text is the loop over its first part followed
by the loop over its second part. -/
theorem PutText_loop_append (p : Panel) (font : Font_Info_t) (x : Int) (t : List Int) :
    ∀ (s : List Int) (st : TextState),
      PutText_loop p font x (s ++ t) st
        = (PutText_loop p font x s st).bind (PutText_loop p font x t) := by
  intro s
  induction s with
  | nil => intro st; simp [PutText_loop]
  | cons c cs ih =>
    intro st
    rw [List.cons_append, PutText_loop, PutText_loop]
    by_cases h1 : c = 10
    · rw [if_pos h1, if_pos h1]; exact ih _
    · rw [if_neg h1, if_neg h1]
      by_cases h2 : c = 32
      · rw [if_pos h2, if_pos h2]; exact ih _
      · rw [if_neg h2, if_neg h2]
        by_cases h3 : c < font.startChar ∨ c > font.endChar
        · rw [if_pos h3, if_pos h3]; exact ih _
        · rw [if_neg h3, if_neg h3]
          simp only []
          cases tableAt font.charInfo (wrap32 (c - font.startChar)) with
          | none => rfl
          | some ci =>
            simp only [Option.some_bind]
            cases ptr font.data ci.offset with
            | none => rfl
            | some o =>
              simp only [Option.some_bind]
              cases Display_PutPixelsUnlocked p st.fb
                (if decide (x ≠ st.curX ∧ font.kerning ≠ 0) = true
                  then wrap32 (st.curX + font.kerning) else st.curX)
                st.y font.data o ci.width font.height with
              | none => rfl
              | some fb1 =>
                simp only [Option.some_bind]
                exact ih _

/-- The vertical cursor after a text: one font height down per newline. -/
theorem PutText_loop_y (p : Panel) (font : Font_Info_t) (x : Int) :
    ∀ (s : List Int) (st st1 : TextState), PutText_loop p font x s st = some st1 →
      ∀ (y0 : Int) (n : Nat), st.y = lineY font y0 n →
        st1.y = lineY font y0 (n + s.count 10) := by
  intro s
  induction s with
  | nil =>
    intro st st1 h y0 n hy
    simp only [PutText_loop, Option.some.injEq] at h
    subst h
    simpa using hy
  | cons c cs ih =>
    intro st st1 h y0 n hy
    rw [PutText_loop] at h
    by_cases h1 : c = 10
    · rw [if_pos h1] at h
      have := ih _ _ h y0 (n + 1) (by simp only [lineY, hy])
      rw [this, h1, List.count_cons_self]
      congr 1; omega
    · have hc : (c :: cs).count 10 = cs.count 10 := List.count_cons_of_ne (Ne.symm h1) _
      rw [hc]
      rw [if_neg h1] at h
      by_cases h2 : c = 32
      · rw [if_pos h2] at h; exact ih _ _ h y0 n hy
      · rw [if_neg h2] at h
        by_cases h3 : c < font.startChar ∨ c > font.endChar
        · rw [if_pos h3] at h; exact ih _ _ h y0 n hy
        · rw [if_neg h3] at h
          simp only [Option.bind_eq_some] at h
          obtain ⟨ci, _, o, _, fb1, _, h⟩ := h
          exact ih _ _ h y0 n hy

/-- C6 as stated fails when the text before the newline has a newline of its
own: on a 2x24 panel, `PutText(0, 0, "\n" ++ "\n" ++ "A")` draws the glyph two
font heights down, while `PutText(0, 0, "\n")` followed by
`PutText(0, 0 + font.height, "A")` draws it one font height down. -/
theorem PutText_newline_split_fails :
    Display_PutText ⟨2, 24⟩ (List.replicate 6 0) 0 0 ([10] ++ [10] ++ [65])
        ⟨65, 65, 8, 1, 3, [⟨1, 0⟩], [0xFF]⟩
      ≠ (Display_PutText ⟨2, 24⟩ (List.replicate 6 0) 0 0 [10]
          ⟨65, 65, 8, 1, 3, [⟨1, 0⟩], [0xFF]⟩).bind fun fb1 =>
        Display_PutText ⟨2, 24⟩ fb1 0
          (0 + (⟨65, 65, 8, 1, 3, [⟨1, 0⟩], [0xFF]⟩ : Font_Info_t).height) [65]
          ⟨65, 65, 8, 1, 3, [⟨1, 0⟩], [0xFF]⟩ := by
  decide

/-- C6, amended: a newline restarts the text at the call's initial `x`, one font
height below the line the text had reached.  For every font, `x`, `y` and all
strings `s` and `t`, `PutText(x, y, s ++ "\n" ++ t)` produces the same
framebuffer (or the same fault) as `PutText(x, y, s)` followed by
`PutText(x, y', t)`, where `y'` is `y` advanced by `font.height` once for the
newline and once for every newline of `s`; the newline itself draws nothing. -/
theorem PutText_newline_split (p : Panel) (fb : Buf) (x y : Int) (s t : List Int)
    (font : Font_Info_t) :
    Display_PutText p fb x y (s ++ [10] ++ t) font
      = (Display_PutText p fb x y s font).bind fun fb1 =>
        Display_PutText p fb1 x (lineY font y (s.count 10 + 1)) t font := by
  unfold Display_PutText PutText_run
  rw [List.append_assoc, PutText_loop_append]
  cases hs : PutText_loop p font x s { curX := x, y := y, fb := fb, log := [] } with
  | none => rfl
  | some st1 =>
    have hy := PutText_loop_y p font x s _ st1 hs y 0 rfl
    rw [Nat.zero_add] at hy
    simp only [Option.some_bind, Option.map_some', List.singleton_append]
    rw [PutText_loop, if_pos rfl]
    apply PutText_loop_fb
    simp only [TextState.core, lineY, hy]

/-- C8: characters the font does not cover are skipped entirely.  For every
font, `x`, `y` and text, `PutText(x, y, text)` produces the same framebuffer (or
the same fault) as `PutText(x, y, text')`, where `text'` is `text` without the
characters that are neither `'\n'` nor `' '` and lie outside
`[font.startChar, font.endChar]`. -/
theorem PutText_skips_uncovered (p : Panel) (fb : Buf) (x y : Int) (txt : List Int)
    (font : Font_Info_t) :
    Display_PutText p fb x y txt font
      = Display_PutText p fb x y
          (txt.filter fun c =>
            decide (¬ (c ≠ 10 ∧ c ≠ 32 ∧ (c < font.startChar ∨ c > font.endChar)))) font := by
  unfold Display_PutText PutText_run
  generalize ({ curX := x, y := y, fb := fb, log := [] } : TextState) = st
  suffices h : ∀ (txt : List Int) (st st' : TextState), st.core = st'.core →
      (PutText_loop p font x txt st).map TextState.fb
        = (PutText_loop p font x (txt.filter fun c =>
            decide (¬ (c ≠ 10 ∧ c ≠ 32 ∧ (c < font.startChar ∨ c > font.endChar)))) st').map
          TextState.fb from h txt st st rfl
  intro txt
  induction txt with
  | nil =>
    intro st st' h
    exact PutText_loop_fb p font x [] st st' h
  | cons c cs ih =>
    intro st st' h
    by_cases hk : c ≠ 10 ∧ c ≠ 32 ∧ (c < font.startChar ∨ c > font.endChar)
    · rw [List.filter_cons, if_neg (by rw [decide_eq_true_eq]; exact not_not.mpr hk), PutText_loop, if_neg hk.1,
        if_neg hk.2.1, if_pos hk.2.2]
      exact ih _ _ h
    · rw [List.filter_cons, if_pos (decide_eq_true hk)]
      obtain ⟨cx, y, fb, l⟩ := st
      obtain ⟨cx', y', fb', l'⟩ := st'
      simp only [TextState.core, Prod.mk.injEq] at h
      obtain ⟨rfl, rfl, rfl⟩ := h
      rw [PutText_loop, PutText_loop]
      by_cases h1 : c = 10
      · rw [if_pos h1, if_pos h1]
        exact ih _ _ rfl
      · rw [if_neg h1, if_neg h1]
        by_cases h2 : c = 32
        · rw [if_pos h2, if_pos h2]
          exact ih _ _ rfl
        · rw [if_neg h2, if_neg h2]
          have h3 : ¬ (c < font.startChar ∨ c > font.endChar) := fun h3 => hk ⟨h1, h2, h3⟩
          rw [if_neg h3, if_neg h3]
          simp only []
          cases tableAt font.charInfo (wrap32 (c - font.startChar)) with
          | none => rfl
          | some ci =>
            simp only [Option.some_bind]
            cases ptr font.data ci.offset with
            | none => rfl
            | some o =>
              simp only [Option.some_bind]
              cases Display_PutPixelsUnlocked p fb
                (if decide (x ≠ cx ∧ font.kerning ≠ 0) = true then wrap32 (cx + font.kerning)
                  else cx) y font.data o ci.width font.height with
              | none => rfl
              | some fb1 =>
                simp only [Option.some_bind]
                exact ih _ _ rfl

/-- The claim C7 as stated fails for a glyph after a leading space: on the text
`" A"` the cursor has left `x` when `A` is reached, the kerning is added (the
glyph is drawn at `0 + 3 + 1`), and `A` is the first glyph drawn on its line. -/
theorem PutText_kerns_first_glyph_after_space :
    (⟨65, 65, 8, 1, 3, [⟨1, 0⟩], [0xFF]⟩ : Font_Info_t).kerning ≠ 0 ∧
    (PutText_run ⟨8, 8⟩ (List.replicate 8 0) 0 0 [32, 65]
        ⟨65, 65, 8, 1, 3, [⟨1, 0⟩], [0xFF]⟩).map
        (fun st => (st.log[1]?, firstGlyphOnLine st.log 1))
      = some (some (TextEvent.glyph 3 true 4 0 0 0 1 8), true) := by
  decide

theorem KerningRule_snoc (font : Font_Info_t) (x : Int) (log : List TextEvent) (e : TextEvent)
    (hg : KerningRule font x log)
    (he : ∀ (cur : Int) (kerned : Bool) (gx gy ci : Int) (off : Nat) (w h : Int),
      e = TextEvent.glyph cur kerned gx gy ci off w h →
      (kerned = true ↔ cur ≠ x) ∧
      gx = (if cur ≠ x then wrap32 (cur + font.kerning) else cur) ∧
      ((log = [] ∨ log.getLast? = some TextEvent.newline) → kerned = false)) :
    KerningRule font x (log ++ [e]) := by
  intro k cur kerned gx gy ci off w h hk
  by_cases h1 : k < log.length
  · rw [List.getElem?_append_left h1] at hk
    obtain ⟨a1, a2, a3⟩ := hg k cur kerned gx gy ci off w h hk
    refine ⟨a1, a2, ?_⟩
    intro hp
    apply a3
    rcases hp with hp | hp
    · exact Or.inl hp
    · rw [List.getElem?_append_left (by omega)] at hp
      exact Or.inr hp
  · by_cases h2 : k = log.length
    · subst h2
      rw [List.getElem?_append_right (le_refl _), Nat.sub_self] at hk
      simp only [List.getElem?_cons_zero, Option.some.injEq] at hk
      obtain ⟨a1, a2, a3⟩ := he cur kerned gx gy ci off w h hk
      refine ⟨a1, a2, ?_⟩
      intro hp
      apply a3
      rcases hp with hp | hp
      · exact Or.inl (List.length_eq_zero.mp hp)
      · by_cases h3 : log.length = 0
        · exact Or.inl (List.length_eq_zero.mp h3)
        · rw [List.getElem?_append_left (by omega)] at hp
          rw [List.getLast?_eq_getElem?]
          exact Or.inr hp
    · rw [List.getElem?_append_right (by omega)] at hk
      have : k - log.length ≠ 0 := by omega
      obtain ⟨m, hm⟩ := Nat.exists_eq_succ_of_ne_zero this
      rw [hm] at hk
      simp at hk

theorem PutText_loop_kerning (p : Panel) (font : Font_Info_t) (x : Int)
    (hker : font.kerning ≠ 0) :
    ∀ (txt : List Int) (st st1 : TextState), PutText_loop p font x txt st = some st1 →
      ((st.log = [] ∨ st.log.getLast? = some TextEvent.newline) → st.curX = x) →
      KerningRule font x st.log →
      KerningRule font x st1.log ∧ st1.log.length = st.log.length + txt.length := by
  intro txt
  induction txt with
  | nil =>
    intro st st1 h _ hg
    simp only [PutText_loop, Option.some.injEq] at h
    subst h
    exact ⟨hg, rfl⟩
  | cons c cs ih =>
    intro st st1 h hinv hg
    rw [PutText_loop] at h
    have hlen : ∀ e : TextEvent, (st.log ++ [e]).length + cs.length
        = st.log.length + (c :: cs).length := by
      intro e; simp only [List.length_append, List.length_cons, List.length_nil]; omega
    have hnotnil : ∀ e : TextEvent, ¬ (st.log ++ [e] = []) := by
      intro e; simp
    by_cases h1 : c = 10
    · rw [if_pos h1] at h
      obtain ⟨r1, r2⟩ := ih _ _ h (fun _ => rfl)
        (KerningRule_snoc font x st.log _ hg (by intro _ _ _ _ _ _ _ _ he; cases he))
      exact ⟨r1, r2.trans (hlen _)⟩
    · rw [if_neg h1] at h
      by_cases h2 : c = 32
      · rw [if_pos h2] at h
        obtain ⟨r1, r2⟩ := ih _ _ h
          (by
            intro hp
            rcases hp with hp | hp
            · exact absurd hp (hnotnil _)
            · simp at hp)
          (KerningRule_snoc font x st.log _ hg (by intro _ _ _ _ _ _ _ _ he; cases he))
        exact ⟨r1, r2.trans (hlen _)⟩
      · rw [if_neg h2] at h
        by_cases h3 : c < font.startChar ∨ c > font.endChar
        · rw [if_pos h3] at h
          obtain ⟨r1, r2⟩ := ih _ _ h
            (by
              intro hp
              rcases hp with hp | hp
              · exact absurd hp (hnotnil _)
              · simp at hp)
            (KerningRule_snoc font x st.log _ hg (by intro _ _ _ _ _ _ _ _ he; cases he))
          exact ⟨r1, r2.trans (hlen _)⟩
        · rw [if_neg h3] at h
          simp only [Option.bind_eq_some] at h
          obtain ⟨ci, _, o, _, fb1, _, h⟩ := h
          obtain ⟨r1, r2⟩ := ih _ _ h
            (by
              intro hp
              rcases hp with hp | hp
              · exact absurd hp (hnotnil _)
              · simp at hp)
            (KerningRule_snoc font x st.log _ hg (by
              intro cur kerned gx gy ci2 off w h2 he
              simp only [TextEvent.glyph.injEq] at he
              obtain ⟨e1, e2, e3, _⟩ := he
              subst e1
              have hkd : (kerned = true ↔ st.curX ≠ x) := by
                rw [← e2, decide_eq_true_eq]
                constructor
                · intro hh; exact fun hc => hh.1 hc.symm
                · intro hh; exact ⟨fun hc => hh hc.symm, hker⟩
              refine ⟨hkd, ?_, ?_⟩
              · rw [← e3]
                by_cases hc : st.curX ≠ x
                · have : decide (x ≠ st.curX ∧ font.kerning ≠ 0) = true :=
                    decide_eq_true ⟨fun hh => hc hh.symm, hker⟩
                  rw [if_pos this, if_pos hc]
                · have : ¬ (decide (x ≠ st.curX ∧ font.kerning ≠ 0) = true) := by
                    rw [decide_eq_true_eq]
                    exact fun hh => hh.1 (not_not.mp hc).symm
                  rw [if_neg this, if_neg hc]
              · intro hp
                have hx := hinv hp
                cases hkk : kerned with
                | false => rfl
                | true => exact absurd hx (hkd.mp hkk)))
          exact ⟨r1, r2.trans (hlen _)⟩

/-- C7, amended: the kerning is inserted before a glyph exactly when the cursor
has left the call's initial `x`.  For every text and every font with
`font.kerning != 0`, in a run of `PutText` that returns, the log holds one event
per character of the text, and for every glyph of the log: `font.kerning` was
added to the horizontal cursor before the draw exactly when the cursor `cur`
differed from `x`; the glyph was drawn at the cursor so advanced; and a glyph
whose character starts the text or directly follows a newline got no kerning. -/
theorem PutText_kerning_rule (p : Panel) (fb : Buf) (x y : Int) (txt : List Int)
    (font : Font_Info_t) (st : TextState) (hker : font.kerning ≠ 0)
    (hrun : PutText_run p fb x y txt font = some st) :
    st.log.length = txt.length ∧
    ∀ (k : Nat) (cur : Int) (kerned : Bool) (gx gy ci : Int) (off : Nat) (w h : Int),
      st.log[k]? = some (TextEvent.glyph cur kerned gx gy ci off w h) →
      (kerned = true ↔ cur ≠ x) ∧
      gx = (if cur ≠ x then wrap32 (cur + font.kerning) else cur) ∧
      ((k = 0 ∨ st.log[k - 1]? = some TextEvent.newline) → kerned = false) := by
  obtain ⟨r1, r2⟩ := PutText_loop_kerning p font x hker txt _ st hrun (fun _ => rfl)
    (by intro k _ _ _ _ _ _ _ _ hk; simp at hk)
  exact ⟨by simpa using r2, r1⟩

theorem PutText_kerning_rule_witness :
    (TextState.mk 10 0 [0, 0, 0, 0, 255, 0, 0, 0, 0, 255, 0, 0, 0, 0, 0, 0]
      [TextEvent.space, TextEvent.glyph 3 true 4 0 0 0 1 8, TextEvent.space,
        TextEvent.glyph 8 true 9 0 0 0 1 8]).log.length = [(32 : Int), 65, 32, 65].length ∧
    ∀ (k : Nat) (cur : Int) (kerned : Bool) (gx gy ci : Int) (off : Nat) (w h : Int),
      (TextState.mk 10 0 [0, 0, 0, 0, 255, 0, 0, 0, 0, 255, 0, 0, 0, 0, 0, 0]
        [TextEvent.space, TextEvent.glyph 3 true 4 0 0 0 1 8, TextEvent.space,
          TextEvent.glyph 8 true 9 0 0 0 1 8]).log[k]?
        = some (TextEvent.glyph cur kerned gx gy ci off w h) →
      (kerned = true ↔ cur ≠ 0) ∧
      gx = (if cur ≠ 0 then
        wrap32 (cur + (Font_Info_t.mk 65 65 8 1 3 [⟨1, 0⟩] [0xFF]).kerning) else cur) ∧
      ((k = 0 ∨ (TextState.mk 10 0 [0, 0, 0, 0, 255, 0, 0, 0, 0, 255, 0, 0, 0, 0, 0, 0]
        [TextEvent.space, TextEvent.glyph 3 true 4 0 0 0 1 8, TextEvent.space,
          TextEvent.glyph 8 true 9 0 0 0 1 8]).log[k - 1]?
        = some TextEvent.newline) → kerned = false) :=
  PutText_kerning_rule ⟨16, 8⟩ (List.replicate 16 0) 0 0 [32, 65, 32, 65]
    (Font_Info_t.mk 65 65 8 1 3 [⟨1, 0⟩] [0xFF]) _ (by decide) (by decide)

/-! ## Exclusion mechanisms -/

theorem emit_trace (s : Sys) (e : Event) : (Traced.emit s e).trace = s.trace ++ [e] := rfl

theorem GuardedBy_no_unguarded (m : Mechanism) (tr : List Event) (h : GuardedBy m tr) :
    unguardedMutation false tr = false := by
  obtain ⟨body, rfl, hb⟩ := h
  have hacq : m.acquire.acquires.isSome = true := by cases m <;> rfl
  have hrel : m.release.acquires.isSome = false ∧ m.release.releases.isSome = true := by
    cases m <;> exact ⟨rfl, rfl⟩
  have hbody : ∀ (l : List Event), (∀ e, e ∈ l → e.acquires = none ∧ e.releases = none) →
      unguardedMutation true (l ++ [m.release]) = false := by
    intro l
    induction l with
    | nil =>
      intro _
      simp [unguardedMutation, hrel.1, hrel.2]
    | cons e es ih =>
      intro hl
      have he := hl e (List.mem_cons_self _ _)
      have hes := ih (fun e' h' => hl e' (List.mem_cons_of_mem _ h'))
      simp [unguardedMutation, he.1, he.2, hes]
  simp only [List.singleton_append, List.cons_append, unguardedMutation, hacq, if_true]
  exact hbody body hb

theorem GuardedBy_single (m : Mechanism) (e : Event) (h1 : e.acquires = none)
    (h2 : e.releases = none) : GuardedBy m [m.acquire, e, m.release] :=
  ⟨[e], rfl, fun e' he' => by
    rw [List.mem_singleton] at he'
    subst he'
    exact ⟨h1, h2⟩⟩

/-- C11 as stated fails for `Display_Init`: the initialization clears the
framebuffer, sets the display type and initialises the controller while neither
mechanism is held, and its trace has no acquire and no release. -/
theorem Init_mutates_unguarded :
    Call.run ⟨2, 16⟩ 0 (Call.Init true 3) ⟨[1, 2, 3, 4], 0, 0, []⟩
      = Outcome.done ⟨[0, 0, 0, 0], 0, 3,
          [Event.MutexCreate, Event.setType, Event.clear, Event.ssd SSDCall.Init]⟩ ∧
    unguardedMutation false
      [Event.MutexCreate, Event.setType, Event.clear, Event.ssd SSDCall.Init] = true ∧
    ∀ m, ¬ GuardedBy m
      [Event.MutexCreate, Event.setType, Event.clear, Event.ssd SSDCall.Init] := by
  refine ⟨by decide, by decide, ?_⟩
  intro m ⟨body, hb, _⟩
  cases m <;> simp [Mechanism.acquire] at hb

/-- C11, amended: every public operation other than `Display_Init` is
serialized by exactly one of the two exclusion mechanisms.  For every state and
all arguments, when the operation returns, the events it added to the trace are
the acquire of its mechanism (the mutex for `PutPixels`, `PutLine`, `SetOn`,
`SetPowerOn`, `Flip`, `SetInverted`, `SetContrast`; the critical section for
`Update`, `Clear`, `PutText`), then mutations and controller calls only, then the
release of the same mechanism, once; no mutation or controller call happens
while neither mechanism is held. -/
theorem operations_serialized (p : Panel) (fuel : Nat) (c : Call) (m : Mechanism)
    (s s1 : Sys) (hm : c.mechanism = some m) (hrun : c.run p fuel s = Outcome.done s1) :
    ∃ tr, s1.trace = s.trace ++ tr ∧ GuardedBy m tr ∧ unguardedMutation false tr = false := by
  suffices h : ∃ tr, s1.trace = s.trace ++ tr ∧ GuardedBy m tr by
    obtain ⟨tr, h1, h2⟩ := h
    exact ⟨tr, h1, h2, GuardedBy_no_unguarded m tr h2⟩
  cases c with
  | Init createOk devType => simp [Call.mechanism] at hm
  | SetOn isOn =>
    simp only [Call.mechanism, Option.some.injEq] at hm
    simp only [Call.run, Outcome.done.injEq] at hrun
    subst hm hrun
    exact ⟨_, by simp [Traced.Display_SetOn, emit_trace, List.append_assoc, Mechanism.acquire, Mechanism.release],
      GuardedBy_single Mechanism.mutex (Event.ssd (SSDCall.SetOn isOn)) rfl rfl⟩
  | SetPowerOn v =>
    simp only [Call.mechanism, Option.some.injEq] at hm
    simp only [Call.run, Outcome.done.injEq] at hrun
    subst hm hrun
    exact ⟨_, by simp [Traced.Display_SetPowerOn, emit_trace, List.append_assoc, Mechanism.acquire, Mechanism.release],
      GuardedBy_single Mechanism.mutex (Event.ssd (SSDCall.SetPowerOn v)) rfl rfl⟩
  | Flip =>
    simp only [Call.mechanism, Option.some.injEq] at hm
    simp only [Call.run, Outcome.done.injEq] at hrun
    subst hm hrun
    refine ⟨[Event.MutexLock, Event.flipFlag, Event.ssd (SSDCall.SetOn 0),
      Event.ssd SSDCall.Flip, Event.ssd (SSDCall.Update s.framebuf),
      Event.ssd (SSDCall.SetOn 1), Event.MutexUnlock], ?_, ?_⟩
    · simp [Traced.Display_Flip, Traced.emit, List.append_assoc]
    · refine ⟨[Event.flipFlag, Event.ssd (SSDCall.SetOn 0), Event.ssd SSDCall.Flip,
        Event.ssd (SSDCall.Update s.framebuf), Event.ssd (SSDCall.SetOn 1)], rfl, ?_⟩
      intro e he
      simp only [List.mem_cons, List.mem_singleton, List.not_mem_nil, or_false] at he
      rcases he with rfl | rfl | rfl | rfl | rfl <;> exact ⟨rfl, rfl⟩
  | SetInverted b =>
    simp only [Call.mechanism, Option.some.injEq] at hm
    simp only [Call.run, Outcome.done.injEq] at hrun
    subst hm hrun
    exact ⟨_, by simp [Traced.Display_SetInverted, emit_trace, List.append_assoc, Mechanism.acquire, Mechanism.release],
      GuardedBy_single Mechanism.mutex (Event.ssd (SSDCall.SetInverted b)) rfl rfl⟩
  | Update =>
    simp only [Call.mechanism, Option.some.injEq] at hm
    simp only [Call.run, Outcome.done.injEq] at hrun
    subst hm hrun
    exact ⟨_, by simp [Traced.Display_Update, Traced.emit, List.append_assoc,
      Mechanism.acquire, Mechanism.release],
      GuardedBy_single Mechanism.critical (Event.ssd (SSDCall.Update s.framebuf)) rfl rfl⟩
  | Clear =>
    simp only [Call.mechanism, Option.some.injEq] at hm
    subst hm
    simp only [Call.run, Traced.Display_Clear] at hrun
    cases hcl : Display_ClearUnlocked p (Traced.emit s Event.CriticalEnter).framebuf with
    | none => rw [hcl] at hrun; simp at hrun
    | some fb1 =>
      rw [hcl] at hrun
      simp only [Option.map_some', Outcome.done.injEq] at hrun
      subst hrun
      exact ⟨_, by simp [Traced.emit, Traced.setFb, List.append_assoc, Mechanism.acquire,
        Mechanism.release],
        GuardedBy_single Mechanism.critical Event.clear rfl rfl⟩
  | PutPixels x y bitmap w h =>
    simp only [Call.mechanism, Option.some.injEq] at hm
    subst hm
    simp only [Call.run, Traced.Display_PutPixels] at hrun
    cases hpp : Display_PutPixelsUnlocked p (Traced.emit s Event.MutexLock).framebuf x y
        bitmap 0 w h with
    | none => rw [hpp] at hrun; simp at hrun
    | some fb1 =>
      rw [hpp] at hrun
      simp only [Option.map_some', Outcome.done.injEq] at hrun
      subst hrun
      exact ⟨_, by simp [Traced.emit, Traced.setFb, List.append_assoc, Mechanism.acquire,
        Mechanism.release],
        GuardedBy_single Mechanism.mutex (Event.blit x y w h) rfl rfl⟩
  | PutLine x0 y0 x1 y1 =>
    simp only [Call.mechanism, Option.some.injEq] at hm
    subst hm
    simp only [Call.run, Traced.Display_PutLine] at hrun
    cases hpl : Display.Display_PutLine p fuel (Traced.emit s Event.MutexLock).framebuf
        x0 y0 x1 y1 with
    | fault => rw [hpl] at hrun; simp at hrun
    | running => rw [hpl] at hrun; simp at hrun
    | done r =>
      obtain ⟨fb1, pts⟩ := r
      rw [hpl] at hrun
      simp only [Outcome.done.injEq] at hrun
      subst hrun
      refine ⟨[Event.MutexLock] ++ (pts.map fun q => Event.blit q.1 q.2 1 1)
        ++ [Event.MutexUnlock], by simp [Traced.emit, List.append_assoc], _, rfl, ?_⟩
      intro e he
      obtain ⟨q, _, rfl⟩ := List.mem_map.mp he
      exact ⟨rfl, rfl⟩
  | PutText x y txt font =>
    simp only [Call.mechanism, Option.some.injEq] at hm
    subst hm
    simp only [Call.run, Traced.Display_PutText] at hrun
    cases hpt : PutText_run p (Traced.emit s Event.CriticalEnter).framebuf x y txt font with
    | none => rw [hpt] at hrun; simp at hrun
    | some st =>
      rw [hpt] at hrun
      simp only [Option.map_some', Outcome.done.injEq] at hrun
      subst hrun
      refine ⟨[Event.CriticalEnter] ++ st.log.filterMap Traced.blitOf
        ++ [Event.CriticalExit], by simp [Traced.emit, List.append_assoc], _, rfl, ?_⟩
      intro e he
      obtain ⟨te, _, hte⟩ := List.mem_filterMap.mp he
      cases te <;> simp [Traced.blitOf] at hte
      subst hte
      exact ⟨rfl, rfl⟩
  | SetContrast v =>
    simp only [Call.mechanism, Option.some.injEq] at hm
    simp only [Call.run, Outcome.done.injEq] at hrun
    subst hm hrun
    exact ⟨_, by simp [Traced.Display_SetContrast, emit_trace, List.append_assoc, Mechanism.acquire, Mechanism.release],
      GuardedBy_single Mechanism.mutex (Event.ssd (SSDCall.SetContrast v)) rfl rfl⟩

theorem operations_serialized_witness :
    ∃ tr, (Sys.mk [3, 2, 15, 4] 0 0
        [Event.MutexLock, Event.blit 0 0 1 1, Event.blit 0 1 1 1, Event.blit 1 2 1 1,
         Event.blit 1 3 1 1, Event.MutexUnlock]).trace = (Sys.mk [1, 2, 3, 4] 0 0 []).trace ++ tr ∧
      GuardedBy Mechanism.mutex tr ∧ unguardedMutation false tr = false :=
  operations_serialized ⟨2, 16⟩ 10 (Call.PutLine 0 0 1 3) Mechanism.mutex
    (Sys.mk [1, 2, 3, 4] 0 0 []) _ (by decide) (by decide)

/-- C12: `Display_Flip` performs its documented sequence.  For every state
whose orientation flag holds 0 or 1, the call inverts the flag (`IsFlipped`
after the call is the negation of `IsFlipped` before, and two calls restore the
flag), issues to the display controller exactly the calls panel off, orientation
change, transmit of the whole current framebuffer, panel on, in this order and
all between mutex lock and unlock, and leaves the framebuffer unchanged. -/
theorem Flip_sequence (s : Sys) (hflag : s.displayFlip ≤ 1) :
    Traced.Display_IsFlipped (Traced.Display_Flip s) = !Traced.Display_IsFlipped s ∧
    (Traced.Display_Flip (Traced.Display_Flip s)).displayFlip = s.displayFlip ∧
    (Traced.Display_Flip s).trace = s.trace ++
      [Event.MutexLock, Event.flipFlag, Event.ssd (SSDCall.SetOn 0), Event.ssd SSDCall.Flip,
       Event.ssd (SSDCall.Update s.framebuf), Event.ssd (SSDCall.SetOn 1),
       Event.MutexUnlock] ∧
    (Traced.Display_Flip s).framebuf = s.framebuf := by
  have hcases : s.displayFlip = 0 ∨ s.displayFlip = 1 := by omega
  refine ⟨?_, ?_, ?_, rfl⟩
  · rcases hcases with h | h <;>
      simp [Traced.Display_IsFlipped, Traced.Display_Flip, Traced.emit, h]
  · rcases hcases with h | h <;> simp [Traced.Display_Flip, Traced.emit, h]
  · simp [Traced.Display_Flip, Traced.emit, List.append_assoc]

theorem Flip_sequence_witness :
    Traced.Display_IsFlipped (Traced.Display_Flip (Sys.mk [1, 2, 3, 4] 1 0 []))
      = !Traced.Display_IsFlipped (Sys.mk [1, 2, 3, 4] 1 0 []) ∧
    (Traced.Display_Flip (Traced.Display_Flip (Sys.mk [1, 2, 3, 4] 1 0 []))).displayFlip
      = (Sys.mk [1, 2, 3, 4] 1 0 []).displayFlip ∧
    (Traced.Display_Flip (Sys.mk [1, 2, 3, 4] 1 0 [])).trace
      = (Sys.mk [1, 2, 3, 4] 1 0 []).trace ++
      [Event.MutexLock, Event.flipFlag, Event.ssd (SSDCall.SetOn 0), Event.ssd SSDCall.Flip,
       Event.ssd (SSDCall.Update (Sys.mk [1, 2, 3, 4] 1 0 []).framebuf),
       Event.ssd (SSDCall.SetOn 1), Event.MutexUnlock] ∧
    (Traced.Display_Flip (Sys.mk [1, 2, 3, 4] 1 0 [])).framebuf
      = (Sys.mk [1, 2, 3, 4] 1 0 []).framebuf :=
  Flip_sequence (Sys.mk [1, 2, 3, 4] 1 0 []) (by decide)

/-- C17: `PutPixels` overwrites rather than merges, so the last write wins.  For
every framebuffer, every valid geometry and any two bitmaps `A` and `B` of that
size, `PutPixels(x, y, A, w, h)` followed by `PutPixels(x, y, B, w, h)` yields
the same framebuffer as `PutPixels(x, y, B, w, h)` alone, without a fault; in
particular `PutPixels` is idempotent. -/
theorem PutPixels_last_write_wins (p : Panel) (hp : p.ok) (fb bmA bmB : Buf)
    (x y w h : Int) (hfb : fb.length = DISPLAY_FRAMEBUFFER_SIZE p)
    (hA : ValidRequest p x y bmA w h) (hB : ValidRequest p x y bmB w h) :
    ∃ fb1, Display_PutPixels p fb x y bmB w h = some fb1 ∧
      ((Display_PutPixels p fb x y bmA w h).bind fun f =>
        Display_PutPixels p f x y bmB w h) = some fb1 ∧
      ((Display_PutPixels p fb x y bmB w h).bind fun f =>
        Display_PutPixels p f x y bmB w h) = some fb1 := by
  obtain ⟨fb1, e1, l1, b1⟩ := PutPixels_pixels p hp fb bmB x y w h hfb hB
  have key : ∀ (bm : Buf), ValidRequest p x y bm w h →
      ((Display_PutPixels p fb x y bm w h).bind fun f =>
        Display_PutPixels p f x y bmB w h) = some fb1 := by
    intro bm hbm
    obtain ⟨fa, ea, la, ba⟩ := PutPixels_pixels p hp fb bm x y w h hfb hbm
    obtain ⟨fab, eab, lab, bab⟩ := PutPixels_pixels p hp fa bmB x y w h la hB
    rw [ea, Option.some_bind, eab]
    congr 1
    apply fb_ext p hp.1 fab fb1 lab l1
    intro px py _ hpy
    rw [bab px py hpy, b1 px py hpy, ba px py hpy]
    by_cases c1 : (x ≤ px ∧ (px : Int) < x + w) ∧ y ≤ py ∧ (py : Int) < y + h
    · simp only [if_pos c1]
    · simp only [if_neg c1]
  exact ⟨fb1, e1, key bmA hA, key bmB hB⟩

theorem PutPixels_last_write_wins_witness :
    ∃ fb1, Display_PutPixels ⟨4, 16⟩ (List.replicate 8 0xAA) 1 6 [0x55, 0x02] 1 10 = some fb1 ∧
      ((Display_PutPixels ⟨4, 16⟩ (List.replicate 8 0xAA) 1 6 [0xFF, 0x03] 1 10).bind fun f =>
        Display_PutPixels ⟨4, 16⟩ f 1 6 [0x55, 0x02] 1 10) = some fb1 ∧
      ((Display_PutPixels ⟨4, 16⟩ (List.replicate 8 0xAA) 1 6 [0x55, 0x02] 1 10).bind fun f =>
        Display_PutPixels ⟨4, 16⟩ f 1 6 [0x55, 0x02] 1 10) = some fb1 :=
  PutPixels_last_write_wins ⟨4, 16⟩ (by decide) (List.replicate 8 0xAA) [0xFF, 0x03]
    [0x55, 0x02] 1 6 1 10 (by decide) (by decide) (by decide)

/-! ## The byte accesses of the blitter -/

theorem within_mono (dlo dhi slo shi dlo1 dhi1 slo1 shi1 : Nat) (a : Access)
    (h : a.within dlo dhi slo shi) (h1 : dlo1 ≤ dlo) (h2 : dhi ≤ dhi1) (h3 : slo1 ≤ slo)
    (h4 : shi ≤ shi1) : a.within dlo1 dhi1 slo1 shi1 := by
  cases a <;> simp only [Access.within] at h ⊢ <;> omega

theorem logged_andAssign (dst : Buf) (log : List Access) (i m : Nat) :
    Logged.andAssign (dst, log) i m
      = (andAssign dst i m).map fun b => (b, log ++ [Access.dstRead i, Access.dstWrite i]) := by
  unfold Logged.andAssign andAssign Logged.rdDst Logged.wrDst
  cases rd dst i with
  | none => rfl
  | some v =>
    simp only [Option.map_some', Option.some_bind]
    cases wr dst i (v &&& m) with
    | none => rfl
    | some b => simp

theorem logged_orAssign (dst : Buf) (log : List Access) (i m : Nat) :
    Logged.orAssign (dst, log) i m
      = (orAssign dst i m).map fun b => (b, log ++ [Access.dstRead i, Access.dstWrite i]) := by
  unfold Logged.orAssign orAssign Logged.rdDst Logged.wrDst
  cases rd dst i with
  | none => rfl
  | some v =>
    simp only [Option.map_some', Option.some_bind]
    cases wr dst i (v ||| m) with
    | none => rfl
    | some b => simp

theorem logged_memcpy (src : Buf) :
    ∀ (n d s : Nat), ∃ acc : List Access,
      (∀ a, a ∈ acc → a.within d (d + n) s (s + n)) ∧
      ∀ (dst : Buf) (log : List Access),
        Logged.memcpy src n (dst, log) d s
          = (memcpy src n dst d s).map fun b => (b, log ++ acc) := by
  intro n
  induction n with
  | zero =>
    intro d s
    exact ⟨[], by simp, by intro dst log; simp [Logged.memcpy, memcpy]⟩
  | succ n ih =>
    intro d s
    obtain ⟨acc, hacc, heq⟩ := ih (d + 1) (s + 1)
    refine ⟨[Access.srcRead s, Access.dstWrite d] ++ acc, ?_, ?_⟩
    · intro a ha
      rcases List.mem_append.mp ha with h | h
      · simp only [List.mem_cons, List.mem_singleton, List.not_mem_nil, or_false] at h
        rcases h with rfl | rfl <;> simp only [Access.within] <;> omega
      · exact within_mono _ _ _ _ _ _ _ _ a (hacc a h) (by omega) (by omega) (by omega)
          (by omega)
    · intro dst log
      rw [Logged.memcpy, memcpy]
      unfold Logged.rdSrc Logged.wrDst
      cases rd src s with
      | none => rfl
      | some v =>
        simp only [Option.map_some', Option.some_bind]
        cases wr dst d v with
        | none => rfl
        | some b =>
          simp only [Option.map_some', Option.some_bind]
          rw [heq]
          simp [List.append_assoc]

theorem logged_rdSrc (src : Buf) (s : Nat) (log : List Access) :
    Logged.rdSrc src s log = (rd src s).map fun v => (v, log ++ [Access.srcRead s]) := rfl

/-- The accesses of one run of lines 234-237. -/
theorem logged_BitCopy_last (src : Buf) (off n d s : Nat) (dst : Buf) (log : List Access) :
    Logged.BitCopy_last src off n (dst, log) d s
      = (BitCopy_last src off n dst d s).map fun b =>
          (b, log ++ [Access.dstRead d, Access.dstWrite d, Access.srcRead s,
            Access.dstRead d, Access.dstWrite d]) := by
  unfold Logged.BitCopy_last BitCopy_last
  simp only [logged_andAssign]
  cases andAssign dst d (lnot32 ((((1 <<< n) - 1) % 256) <<< off)) with
  | none => rfl
  | some b1 =>
    simp only [Option.map_some', Option.some_bind, logged_rdSrc]
    cases rd src s with
    | none => rfl
    | some v =>
      simp only [Option.map_some', Option.some_bind, logged_orAssign]
      cases orAssign b1 d ((v &&& (((1 <<< n) - 1) % 256)) <<< off) with
      | none => rfl
      | some b2 => simp [List.append_assoc]

/-- The accesses of the loop of lines 201-212: bytes `d .. d + n` of the
destination and bytes `s .. s + n - 1` of the source. -/
theorem logged_BitCopy_loop (src : Buf) (off rem m1 m2 : Nat) :
    ∀ (n d s : Nat), ∃ acc : List Access,
      (∀ a, a ∈ acc → a.within d (d + n + 1) s (s + n)) ∧ (n = 0 → acc = []) ∧
      ∀ (dst : Buf) (log : List Access),
        Logged.BitCopy_loop src off rem m1 m2 n (dst, log) d s
          = (BitCopy_loop src off rem m1 m2 n dst d s).map fun r =>
              ((r.1, log ++ acc), r.2.1, r.2.2) := by
  intro n
  induction n with
  | zero =>
    intro d s
    exact ⟨[], by simp, fun _ => rfl, by intro dst log; simp [Logged.BitCopy_loop, BitCopy_loop]⟩
  | succ n ih =>
    intro d s
    obtain ⟨acc, hacc, _, heq⟩ := ih (d + 1) (s + 1)
    refine ⟨[Access.dstRead d, Access.dstWrite d, Access.srcRead s, Access.dstRead d,
      Access.dstWrite d, Access.dstRead (d + 1), Access.dstWrite (d + 1),
      Access.dstRead (d + 1), Access.dstWrite (d + 1)] ++ acc, ?_, by simp, ?_⟩
    · intro a ha
      rcases List.mem_append.mp ha with h | h
      · simp only [List.mem_cons, List.mem_singleton, List.not_mem_nil, or_false] at h
        rcases h with rfl | rfl | rfl | rfl | rfl | rfl | rfl | rfl | rfl <;>
          simp only [Access.within] <;> omega
      · exact within_mono _ _ _ _ _ _ _ _ a (hacc a h) (by omega) (by omega) (by omega)
          (by omega)
    · intro dst log
      rw [Logged.BitCopy_loop, BitCopy_loop]
      simp only [logged_andAssign]
      cases andAssign dst d (lnot32 (m1 <<< off)) with
      | none => rfl
      | some b1 =>
        simp only [Option.map_some', Option.some_bind, logged_rdSrc]
        cases rd src s with
        | none => rfl
        | some v =>
          simp only [Option.map_some', Option.some_bind, logged_orAssign]
          cases orAssign b1 d ((v &&& m1) <<< off) with
          | none => rfl
          | some b2 =>
            simp only [Option.map_some', Option.some_bind, logged_andAssign]
            cases andAssign b2 (d + 1) (lnot32 (m2 >>> rem)) with
            | none => rfl
            | some b3 =>
              simp only [Option.map_some', Option.some_bind, logged_orAssign]
              cases orAssign b3 (d + 1) ((v &&& m2) >>> rem) with
              | none => rfl
              | some b4 =>
                simp only [Option.map_some', Option.some_bind]
                rw [heq]
                simp [List.append_assoc]

/-- The accesses of lines 215-237: byte `d` of the destination, byte `d + 1` too
when the trailing bits cross a byte boundary, and byte `s` of the source. -/
theorem logged_BitCopy_tail (src : Buf) (off rem size d s : Nat) :
    ∃ acc : List Access,
      (∀ a, a ∈ acc → a.within d (d + (if size % 8 > rem then 2 else 1)) s (s + 1)) ∧
      (size % 8 = 0 → acc = []) ∧
      ∀ (dst : Buf) (log : List Access),
        Logged.BitCopy_tail src off rem size (dst, log) d s
          = (BitCopy_tail src off rem size dst d s).map fun b => (b, log ++ acc) := by
  by_cases hr : size % 8 = 0
  · refine ⟨[], by simp, fun _ => rfl, ?_⟩
    intro dst log
    simp [Logged.BitCopy_tail, BitCopy_tail, hr]
  · by_cases hc : size % 8 > rem
    · refine ⟨[Access.dstRead (d + 1), Access.dstWrite (d + 1), Access.srcRead s,
        Access.dstRead (d + 1), Access.dstWrite (d + 1), Access.dstRead d, Access.dstWrite d,
        Access.srcRead s, Access.dstRead d, Access.dstWrite d], ?_, fun h => absurd h hr, ?_⟩
      · intro a h
        rw [if_pos hc]
        simp only [List.mem_cons, List.mem_singleton, List.not_mem_nil, or_false] at h
        rcases h with rfl | rfl | rfl | rfl | rfl | rfl | rfl | rfl | rfl | rfl <;>
          simp only [Access.within] <;> omega
      · intro dst log
        unfold Logged.BitCopy_tail BitCopy_tail
        simp only [if_neg hr, if_pos hc, logged_andAssign]
        cases andAssign dst (d + 1) (lnot32
            (((((1 <<< ((size % 8 - rem) % 256)) - 1) <<< rem) % 256) >>> rem)) with
        | none => rfl
        | some b1 =>
          simp only [Option.map_some', Option.some_bind, logged_rdSrc]
          cases rd src s with
          | none => rfl
          | some v =>
            simp only [Option.map_some', Option.some_bind, logged_orAssign]
            cases orAssign b1 (d + 1) ((v &&&
                ((((1 <<< ((size % 8 - rem) % 256)) - 1) <<< rem) % 256)) >>> rem) with
            | none => rfl
            | some b2 =>
              simp only [Option.map_some', Option.some_bind, logged_BitCopy_last]
              cases BitCopy_last src off rem b2 d s with
              | none => rfl
              | some b3 => simp [List.append_assoc]
    · refine ⟨[Access.dstRead d, Access.dstWrite d, Access.srcRead s,
        Access.dstRead d, Access.dstWrite d], ?_, fun h => absurd h hr, ?_⟩
      · intro a h
        rw [if_neg hc]
        simp only [List.mem_cons, List.mem_singleton, List.not_mem_nil, or_false] at h
        rcases h with rfl | rfl | rfl | rfl | rfl <;> simp only [Access.within] <;> omega
      · intro dst log
        unfold Logged.BitCopy_tail BitCopy_tail
        simp only [if_neg hr, if_neg hc, logged_BitCopy_last]

/-- The loop of lines 201-212 advances both pointers by the number of bytes. -/
theorem BitCopy_loop_ptrs (src : Buf) (off rem m1 m2 : Nat) :
    ∀ (n : Nat) (dst : Buf) (d s : Nat) (r : Buf × Nat × Nat),
      BitCopy_loop src off rem m1 m2 n dst d s = some r → r.2.1 = d + n ∧ r.2.2 = s + n := by
  intro n
  induction n with
  | zero =>
    intro dst d s r h
    simp only [BitCopy_loop, Option.some.injEq] at h
    subst h
    exact ⟨rfl, rfl⟩
  | succ n ih =>
    intro dst d s r h
    rw [BitCopy_loop] at h
    simp only [Option.bind_eq_some] at h
    obtain ⟨b1, _, v, _, b2, _, b3, _, b4, _, h⟩ := h
    obtain ⟨h1, h2⟩ := ih _ _ _ _ h
    exact ⟨by omega, by omega⟩

/-- The accesses of `Display_BitCopy` depend on the pointers, the offset and the
size only; they lie in the destination bytes that hold the bit run and in the
first `ceil(size/8)` source bytes.  The logged copy is the copy. -/
theorem logged_BitCopy (src : Buf) (d s dstOffset size : Nat) :
    ∃ acc : List Access,
      (∀ a, a ∈ acc → a.within (d + dstOffset / 8) (d + (dstOffset + size + 7) / 8) s
        (s + (size + 7) / 8)) ∧
      ∀ dst : Buf, Logged.Display_BitCopy dst d src s dstOffset size
        = (Display_BitCopy dst d src s dstOffset size).map fun b => (b, acc) := by
  by_cases c1 : dstOffset % 8 = 0 ∧ size % 8 = 0
  · obtain ⟨acc, hacc, heq⟩ := logged_memcpy src (size / 8) (d + dstOffset / 8) s
    refine ⟨acc, ?_, ?_⟩
    · intro a ha
      exact within_mono _ _ _ _ _ _ _ _ a (hacc a ha) (by omega) (by omega) (by omega)
        (by omega)
    · intro dst
      unfold Logged.Display_BitCopy Display_BitCopy
      simp only [if_pos c1, heq, List.nil_append]
  · by_cases c2 : dstOffset % 8 = 0
    · obtain ⟨acc1, hacc1, heq1⟩ := logged_memcpy src (size / 8) (d + dstOffset / 8) s
      obtain ⟨acc2, hacc2, _, heq2⟩ := logged_BitCopy_tail src (dstOffset % 8)
        ((8 - dstOffset % 8) % 256) size (d + dstOffset / 8 + size / 8) (s + size / 8)
      have hno : ¬ (size % 8 > (8 - dstOffset % 8) % 256) := by omega
      rw [if_neg hno] at hacc2
      refine ⟨acc1 ++ acc2, ?_, ?_⟩
      · intro a ha
        rcases List.mem_append.mp ha with h | h
        · exact within_mono _ _ _ _ _ _ _ _ a (hacc1 a h) (by omega) (by omega) (by omega)
            (by omega)
        · exact within_mono _ _ _ _ _ _ _ _ a (hacc2 a h) (by omega) (by omega) (by omega)
            (by omega)
      · intro dst
        unfold Logged.Display_BitCopy Display_BitCopy
        simp only [if_neg c1, if_pos c2, heq1, List.nil_append]
        cases memcpy src (size / 8) dst (d + dstOffset / 8) s with
        | none => rfl
        | some b => simp only [Option.map_some', Option.some_bind, heq2]
    · obtain ⟨acc1, hacc1, hnil1, heq1⟩ := logged_BitCopy_loop src (dstOffset % 8)
        ((8 - dstOffset % 8) % 256) (((1 <<< ((8 - dstOffset % 8) % 256)) - 1) % 256)
        (lnot32 (((1 <<< ((8 - dstOffset % 8) % 256)) - 1) % 256) % 256) (size / 8)
        (d + dstOffset / 8) s
      obtain ⟨acc2, hacc2, hnil2, heq2⟩ := logged_BitCopy_tail src (dstOffset % 8)
        ((8 - dstOffset % 8) % 256) size (d + dstOffset / 8 + size / 8) (s + size / 8)
      refine ⟨acc1 ++ acc2, ?_, ?_⟩
      · intro a ha
        rcases List.mem_append.mp ha with h | h
        · by_cases hn : size / 8 = 0
          · rw [hnil1 hn] at h; simp at h
          · exact within_mono _ _ _ _ _ _ _ _ a (hacc1 a h) (by omega) (by omega) (by omega)
              (by omega)
        · by_cases hr : size % 8 = 0
          · rw [hnil2 hr] at h; simp at h
          · by_cases hc : size % 8 > (8 - dstOffset % 8) % 256
            · rw [if_pos hc] at hacc2
              exact within_mono _ _ _ _ _ _ _ _ a (hacc2 a h) (by omega) (by omega) (by omega)
                (by omega)
            · rw [if_neg hc] at hacc2
              exact within_mono _ _ _ _ _ _ _ _ a (hacc2 a h) (by omega) (by omega) (by omega)
                (by omega)
      · intro dst
        unfold Logged.Display_BitCopy Display_BitCopy
        simp only [if_neg c1, if_neg c2, heq1, List.nil_append]
        cases hl : BitCopy_loop src (dstOffset % 8) ((8 - dstOffset % 8) % 256)
            (((1 <<< ((8 - dstOffset % 8) % 256)) - 1) % 256)
            (lnot32 (((1 <<< ((8 - dstOffset % 8) % 256)) - 1) % 256) % 256) (size / 8) dst
            (d + dstOffset / 8) s with
        | none => rfl
        | some r =>
          simp only [Option.map_some', Option.some_bind]
          have hr := BitCopy_loop_ptrs src (dstOffset % 8) ((8 - dstOffset % 8) % 256)
            (((1 <<< ((8 - dstOffset % 8) % 256)) - 1) % 256)
            (lnot32 (((1 <<< ((8 - dstOffset % 8) % 256)) - 1) % 256) % 256) (size / 8) dst
            (d + dstOffset / 8) s r hl
          rw [hr.1, hr.2, heq2]

theorem ptr_some (b : Buf) (i : Int) (d : Nat) (h : ptr b i = some d) : (d : Int) = i := by
  unfold ptr at h
  by_cases hc : 0 ≤ i ∧ i ≤ b.length
  · rw [if_pos hc] at h
    simp only [Option.some.injEq] at h
    omega
  · rw [if_neg hc] at h
    simp at h

/-- The logged column loop is the column loop. -/
theorem logged_PutPixels_loop_agree (p : Panel) (x y : Int) (bitmap : Buf) (bm : Nat)
    (h colSize startRow : Int) :
    ∀ (n : Nat) (curX : Int) (fb : Buf) (logs : List (List Access)),
      (Logged.PutPixels_loop p x y bitmap bm h colSize startRow n curX (fb, logs)).map Prod.fst
        = PutPixels_loop p x y bitmap bm h colSize startRow n curX fb := by
  intro n
  induction n with
  | zero => intro curX fb logs; rfl
  | succ n ih =>
    intro curX fb logs
    rw [Logged.PutPixels_loop, PutPixels_loop]
    simp only []
    cases ptr fb (wrap32 (wrap32 (wrap32 (x + curX) * Int.tdiv p.DISPLAY_HEIGHT 8) + startRow)) with
    | none => rfl
    | some d =>
      simp only [Option.some_bind]
      cases ptr bitmap (bm + wrap32 (curX * colSize)) with
      | none => rfl
      | some s =>
        simp only [Option.some_bind]
        obtain ⟨acc, _, heq⟩ := logged_BitCopy bitmap d s (toU32 (Int.tmod y 8)) (toU32 h)
        rw [heq]
        cases Display_BitCopy fb d bitmap s (toU32 (Int.tmod y 8)) (toU32 h) with
        | none => rfl
        | some b =>
          simp only [Option.map_some', Option.some_bind]
          exact ih _ _ _

/-- The logged blitter is the blitter. -/
theorem logged_PutPixelsUnlocked_agree (p : Panel) (fb : Buf) (x y : Int) (bitmap : Buf)
    (bm : Nat) (w h : Int) :
    (Logged.Display_PutPixelsUnlocked p fb x y bitmap bm w h).map Prod.fst
      = Display_PutPixelsUnlocked p fb x y bitmap bm w h := by
  unfold Logged.Display_PutPixelsUnlocked Display_PutPixelsUnlocked
  by_cases hc : x < 0 ∨ y < 0 ∨ w ≤ 0 ∨ h ≤ 0 ∨ wrap32 (x + w) > p.DISPLAY_WIDTH ∨
      wrap32 (y + h) > p.DISPLAY_HEIGHT
  · rw [if_pos hc, if_pos hc]; rfl
  · rw [if_neg hc, if_neg hc]
    exact logged_PutPixels_loop_agree p x y bitmap bm h _ _ _ _ _ _

/-- On a valid request the accesses of every column copy stay in the byte run
of that framebuffer column and in the bytes of that bitmap column. -/
theorem logged_PutPixels_loop_spec (p : Panel) (hp : p.ok) (bitmap : Buf) (bm X Y h : Nat)
    (hh : 0 < h) (hY : Y + h ≤ p.DISPLAY_HEIGHT) :
    ∀ (n c : Nat) (fb : Buf) (logs : List (List Access)) (fb1 : Buf)
      (logs1 : List (List Access)), X + c + n ≤ p.DISPLAY_WIDTH →
      fb.length = p.DISPLAY_WIDTH * (p.DISPLAY_HEIGHT / 8) →
      bm + (c + n) * ((h + 7) / 8) ≤ bitmap.length →
      Logged.PutPixels_loop p (X : Int) (Y : Int) bitmap bm (h : Int)
        (((h + 7) / 8 : Nat) : Int) ((Y / 8 : Nat) : Int) n (c : Int) (fb, logs)
        = some (fb1, logs1) →
      ∃ cols : List (List Access), logs1 = logs ++ cols ∧ cols.length = n ∧
        ∀ (k : Nat) (l : List Access), cols[k]? = some l → ∀ a, a ∈ l →
          a.within ((X + c + k) * (p.DISPLAY_HEIGHT / 8))
            ((X + c + k + 1) * (p.DISPLAY_HEIGHT / 8))
            (bm + (c + k) * ((h + 7) / 8)) (bm + (c + k + 1) * ((h + 7) / 8)) := by
  obtain ⟨hp8, hpw, hph, hpi⟩ := hp
  have hcsR : (h + 7) / 8 ≤ p.DISPLAY_HEIGHT / 8 := by omega
  have hrun : Y / 8 + (Y % 8 + h + 7) / 8 ≤ p.DISPLAY_HEIGHT / 8 := by omega
  have hYR : Y / 8 < p.DISPLAY_HEIGHT / 8 := by omega
  have hh32 : h < 4294967296 := by omega
  have hY32 : Y % 8 < 4294967296 := by omega
  clear hp8
  intro n
  induction n with
  | zero =>
    intro c fb logs fb1 logs1 _ _ _ hrun1
    simp only [Logged.PutPixels_loop, Option.some.injEq, Prod.mk.injEq] at hrun1
    exact ⟨[], by simp [hrun1.2], rfl, by intro k l hk; simp at hk⟩
  | succ n ih =>
    intro c fb logs fb1 logs1 hc hfb hbm hrun1
    have hcol : (X + c) * (p.DISPLAY_HEIGHT / 8) + p.DISPLAY_HEIGHT / 8
        = (X + c + 1) * (p.DISPLAY_HEIGHT / 8) := by ring
    have hcolw : (X + c + 1) * (p.DISPLAY_HEIGHT / 8)
        ≤ p.DISPLAY_WIDTH * (p.DISPLAY_HEIGHT / 8) := Nat.mul_le_mul_right _ (by omega)
    have hsrc1 : c * ((h + 7) / 8) + (h + 7) / 8 = (c + 1) * ((h + 7) / 8) := by ring
    have hsrc : (c + 1) * ((h + 7) / 8) ≤ (c + (n + 1)) * ((h + 7) / 8) :=
      Nat.mul_le_mul_right _ (by omega)
    have hcw : c * ((h + 7) / 8) < 2147483648 := by
      have : c * ((h + 7) / 8) ≤ p.DISPLAY_WIDTH * (p.DISPLAY_HEIGHT / 8) :=
        Nat.mul_le_mul (by omega) hcsR
      exact Nat.lt_of_le_of_lt this hpi
    have t1 : (X + c) * (p.DISPLAY_HEIGHT / 8) + Y / 8 + (Y % 8 + h + 7) / 8 ≤ fb.length := by
      rw [hfb]
      clear * - hcol hcolw hrun
      omega
    have t2 : bm + c * ((h + 7) / 8) + (h + 7) / 8 ≤ bitmap.length := by
      clear * - hsrc hsrc1 hbm
      omega
    have t3 : (X + c) * (p.DISPLAY_HEIGHT / 8) + Y / 8 < 2147483648 := by
      clear * - hcol hcolw hYR hpi
      omega
    have t6 : bm + (c + 1 + n) * ((h + 7) / 8) ≤ bitmap.length := by
      rw [show c + 1 + n = c + (n + 1) by omega]; exact hbm
    have e1 := fbIndex_eq X c (p.DISPLAY_HEIGHT / 8) (Y / 8) (by omega) t3
    have e2 := bmIndex_eq bm c ((h + 7) / 8) hcw
    have e3 := wrap32_succ c (by omega)
    rw [Logged.PutPixels_loop] at hrun1
    simp only [Option.bind_eq_some] at hrun1
    obtain ⟨d, hd, s, hs, r, hr, hrec⟩ := hrun1
    rw [tdiv8_natCast, e1] at hd
    rw [e2] at hs
    have hd1 : d = (X + c) * (p.DISPLAY_HEIGHT / 8) + Y / 8 :=
      Int.ofNat.inj (ptr_some _ _ _ hd)
    have hs1 : s = bm + c * ((h + 7) / 8) := Int.ofNat.inj (ptr_some _ _ _ hs)
    rw [tmod8_natCast, toU32_natCast _ hY32, toU32_natCast _ hh32] at hr
    rw [e3] at hrec
    clear e1 e2 e3 hd hs
    subst hd1 hs1
    obtain ⟨acc, hacc, heq⟩ := logged_BitCopy bitmap ((X + c) * (p.DISPLAY_HEIGHT / 8) + Y / 8)
      (bm + c * ((h + 7) / 8)) (Y % 8) h
    obtain ⟨dst1, c1, l1, _⟩ := BitCopy_bits fb bitmap
      ((X + c) * (p.DISPLAY_HEIGHT / 8) + Y / 8) (bm + c * ((h + 7) / 8)) (Y % 8) h t1 t2
    rw [heq, c1] at hr
    simp only [Option.map_some', Option.some.injEq] at hr
    subst hr
    obtain ⟨cols, hc1, hc2, hc3⟩ := ih (c + 1) dst1 (logs ++ [acc]) fb1 logs1 (by omega)
      (l1.trans hfb) t6 hrec
    refine ⟨acc :: cols, by rw [hc1, List.append_assoc, List.singleton_append],
      by simp [hc2], ?_⟩
    intro k l hk a ha
    cases k with
    | zero =>
      simp only [List.getElem?_cons_zero, Option.some.injEq] at hk
      subst hk
      have hw := hacc a ha
      simp only [Nat.add_zero]
      refine within_mono _ _ _ _ _ _ _ _ a hw ?_ ?_ ?_ ?_
      · clear * -
        omega
      · clear * - hrun hcol
        omega
      · clear * -
        omega
      · clear * - hsrc1
        omega
    | succ k =>
      simp only [List.getElem?_cons_succ] at hk
      have hw := hc3 k l hk a ha
      rw [show X + (c + 1) + k = X + c + (k + 1) by omega,
        show c + 1 + k = c + (k + 1) by omega] at hw
      exact hw

/-- C13: the sanity check of the blitter is sufficient for in-bounds access.  For
every `PutPixels` call that passes the check on a panel whose height is a multiple
of 8, the call returns without a memory fault, it copies `w` columns, and every
framebuffer byte index read or written while copying column `c` lies in that
column's own byte run `[(x+c)*(height/8), (x+c+1)*(height/8))`, which is inside the
framebuffer, while every bitmap byte index read is below `w * ceil(h/8)`. -/
theorem PutPixels_accesses_in_bounds (p : Panel) (hp : p.ok) (fb bitmap : Buf)
    (x y w h : Int) (hfb : fb.length = DISPLAY_FRAMEBUFFER_SIZE p)
    (hv : ValidRequest p x y bitmap w h) :
    ∃ (fb1 : Buf) (logs : List (List Access)),
      Logged.Display_PutPixelsUnlocked p fb x y bitmap 0 w h = some (fb1, logs) ∧
      Display_PutPixels p fb x y bitmap w h = some fb1 ∧
      logs.length = w.toNat ∧
      ∀ (c : Nat) (l : List Access), logs[c]? = some l →
        (x.toNat + c + 1) * (p.DISPLAY_HEIGHT / 8) ≤ fb.length ∧
        ∀ a, a ∈ l →
          a.within ((x.toNat + c) * (p.DISPLAY_HEIGHT / 8))
            ((x.toNat + c + 1) * (p.DISPLAY_HEIGHT / 8))
            0 (w.toNat * ((h.toNat + 7) / 8)) := by
  obtain ⟨hx, hy, hw, hh, hxw, hyh, hbm⟩ := hv
  lift x to ℕ using hx with X
  lift y to ℕ using hy with Y
  lift w to ℕ using (le_of_lt hw) with W
  lift h to ℕ using (le_of_lt hh) with H
  simp only [Int.toNat_ofNat] at hbm ⊢
  have hfb1 : fb.length = p.DISPLAY_WIDTH * (p.DISPLAY_HEIGHT / 8) := by
    rw [hfb, DISPLAY_FRAMEBUFFER_SIZE, ceil8_of_dvd _ hp.1]
  obtain ⟨fb1, e1, l1, _⟩ := PutPixelsUnlocked_spec p hp fb bitmap 0 X Y W H hfb
    (by omega) (by omega) (by omega) (by omega) (by omega)
  have hag := logged_PutPixelsUnlocked_agree p fb (X : Int) (Y : Int) bitmap 0 (W : Int) (H : Int)
  rw [e1] at hag
  cases hr : Logged.Display_PutPixelsUnlocked p fb (X : Int) (Y : Int) bitmap 0 (W : Int)
      (H : Int) with
  | none => rw [hr] at hag; simp at hag
  | some r =>
    obtain ⟨fb2, logs⟩ := r
    rw [hr] at hag
    simp only [Option.map_some', Option.some.injEq] at hag
    subst hag
    have hr1 := hr
    unfold Logged.Display_PutPixelsUnlocked at hr1
    have g1 : X + W < 2147483648 := by have := hp.2.1; omega
    have g2 : Y + H < 2147483648 := by have := hp.2.2.1; omega
    have g3 : ¬ ((X : Int) < 0 ∨ (Y : Int) < 0 ∨ (W : Int) ≤ 0 ∨ (H : Int) ≤ 0 ∨
        ((X + W : Nat) : Int) > p.DISPLAY_WIDTH ∨ ((Y + H : Nat) : Int) > p.DISPLAY_HEIGHT) := by
      omega
    have g4 : H + 7 < 2147483648 := by have := hp.2.2.1; have := hp.1; omega
    rw [wrap32_add_natCast X W g1, wrap32_add_natCast Y H g2, if_neg g3,
      wrap32_add_seven H g4, tdiv8_natCast, tdiv8_natCast, Int.toNat_ofNat] at hr1
    obtain ⟨cols, hc1, hc2, hc3⟩ := logged_PutPixels_loop_spec p hp bitmap 0 X Y H (by omega)
      (by omega) W 0 fb [] fb2 logs (by omega) hfb1 (by rw [Nat.zero_add, Nat.zero_add]; exact hbm)
      hr1
    rw [List.nil_append] at hc1
    subst hc1
    refine ⟨fb2, logs, rfl, e1, hc2, ?_⟩
    intro c l hcl
    have hcW : c < W := by
      have := (List.getElem?_eq_some.mp hcl).1
      omega
    have hcolw : (X + c + 1) * (p.DISPLAY_HEIGHT / 8)
        ≤ p.DISPLAY_WIDTH * (p.DISPLAY_HEIGHT / 8) := Nat.mul_le_mul_right _ (by omega)
    have hsrc : (c + 1) * ((H + 7) / 8) ≤ W * ((H + 7) / 8) := Nat.mul_le_mul_right _ (by omega)
    refine ⟨by rw [hfb1]; exact hcolw, ?_⟩
    intro a ha
    have hw1 := hc3 c l hcl a ha
    rw [Nat.add_zero, Nat.zero_add, Nat.zero_add, Nat.zero_add] at hw1
    exact within_mono _ _ _ _ _ _ _ _ a hw1 (le_refl _) (le_refl _) (Nat.zero_le _) hsrc

theorem PutPixels_accesses_in_bounds_witness :
    ∃ (fb1 : Buf) (logs : List (List Access)),
      Logged.Display_PutPixelsUnlocked ⟨4, 16⟩ (List.replicate 8 0) 1 6 [0xFF, 0x03, 1, 2] 0 2 10
        = some (fb1, logs) ∧
      Display_PutPixels ⟨4, 16⟩ (List.replicate 8 0) 1 6 [0xFF, 0x03, 1, 2] 2 10 = some fb1 ∧
      logs.length = (2 : Int).toNat ∧
      ∀ (c : Nat) (l : List Access), logs[c]? = some l →
        ((1 : Int).toNat + c + 1) * ((⟨4, 16⟩ : Panel).DISPLAY_HEIGHT / 8)
          ≤ (List.replicate 8 (0 : Byte)).length ∧
        ∀ a, a ∈ l →
          a.within (((1 : Int).toNat + c) * ((⟨4, 16⟩ : Panel).DISPLAY_HEIGHT / 8))
            (((1 : Int).toNat + c + 1) * ((⟨4, 16⟩ : Panel).DISPLAY_HEIGHT / 8))
            0 ((2 : Int).toNat * (((10 : Int).toNat + 7) / 8)) :=
  PutPixels_accesses_in_bounds ⟨4, 16⟩ (by decide) (List.replicate 8 0) [0xFF, 0x03, 1, 2]
    1 6 2 10 (by decide) (by decide)

/-! ## The shape of a line -/

/-- A finished run of the line loop plotted the points of `PutLine_points_loop`. -/
theorem PutLine_loop_points (p : Panel) (x1 y1 dx sx dy sy : Int) :
    ∀ (fuel : Nat) (fb : Buf) (pts : List (Int × Int)) (x0 y0 err : Int) (fb1 : Buf)
      (pts1 : List (Int × Int)),
      PutLine_loop p x1 y1 dx sx dy sy fuel fb pts x0 y0 err = Outcome.done (fb1, pts1) →
      PutLine_points_loop x1 y1 dx sx dy sy fuel pts x0 y0 err = some pts1 := by
  intro fuel
  induction fuel with
  | zero =>
    intro fb pts x0 y0 err fb1 pts1 h
    simp [PutLine_loop] at h
  | succ fuel ih =>
    intro fb pts x0 y0 err fb1 pts1 h
    rw [PutLine_loop] at h
    rw [PutLine_points_loop]
    cases hb : Display_PutPixelsUnlocked p fb x0 y0 [0xFF] 0 1 1 with
    | none => rw [hb] at h; simp at h
    | some fb2 =>
      rw [hb] at h
      simp only [] at h
      by_cases hc : x0 = x1 ∧ y0 = y1
      · rw [if_pos hc] at h ⊢
        simp only [Outcome.done.injEq, Prod.mk.injEq] at h
        rw [h.2]
      · rw [if_neg hc] at h ⊢
        exact ih _ _ _ _ _ _ _ h

/-- A finished `Display_PutLine` plotted the points of `PutLine_points`. -/
theorem PutLine_points_of_done (p : Panel) (fuel : Nat) (fb : Buf) (x0 y0 x1 y1 : Int)
    (fb1 : Buf) (pts : List (Int × Int))
    (h : Display_PutLine p fuel fb x0 y0 x1 y1 = Outcome.done (fb1, pts)) :
    PutLine_points fuel x0 y0 x1 y1 = some pts :=
  PutLine_loop_points p _ _ _ _ _ _ fuel fb [] x0 y0 _ fb1 pts h

theorem points_loop_step (x1 y1 dx sx dy sy : Int) (fuel : Nat)
    (pts : List (Int × Int)) (x0 y0 err : Int) (hne : ¬ (x0 = x1 ∧ y0 = y1)) :
    PutLine_points_loop x1 y1 dx sx dy sy (fuel + 1) pts x0 y0 err
      = PutLine_points_loop x1 y1 dx sx dy sy fuel (pts ++ [(x0, y0)])
          (if err > wrap32 (-dx) then wrap32 (x0 + sx) else x0)
          (if err < dy then wrap32 (y0 + sy) else y0)
          (if err < dy then wrap32 ((if err > wrap32 (-dx) then wrap32 (err - dy) else err) + dx)
            else (if err > wrap32 (-dx) then wrap32 (err - dy) else err)) := by
  rw [PutLine_points_loop]
  simp only [if_neg hne]

theorem points_loop_stop (x1 y1 dx sx dy sy : Int) (fuel : Nat)
    (pts : List (Int × Int)) (err : Int) :
    PutLine_points_loop x1 y1 dx sx dy sy (fuel + 1) pts x1 y1 err
      = some (pts ++ [(x1, y1)]) := by
  rw [PutLine_points_loop]
  simp

/-- Shape of a list of points that starts at `(x0, y0)`: the `i`-th point has
`x` coordinate `x0 + sx * i`, its `y` coordinate is one of `y1 - sy * t` with
`0 ≤ t ≤ rb`, and from one point to the next `y` stays or moves by `sy`. -/
theorem shape_cons (x0 y0 y1 sx sy rb : Int) (ya : Int) (pts2 : List (Int × Int))
    (hrb0 : 0 ≤ rb) (hy0 : y0 = y1 - sy * rb) (rb2 : Int) (hrb2 : rb2 ≤ rb)
    (hya : ya = y0 ∨ ya = y0 + sy)
    (hd2 : pts2.head? = some (x0 + sx, ya))
    (h1 : ∀ (i : Nat) (q : Int × Int), pts2[i]? = some q →
      q.1 = x0 + sx + sx * i ∧ ∃ t : Int, 0 ≤ t ∧ t ≤ rb2 ∧ q.2 = y1 - sy * t)
    (h2 : ∀ (i : Nat) (q q' : Int × Int), pts2[i]? = some q → pts2[i + 1]? = some q' →
      q'.2 = q.2 ∨ q'.2 = q.2 + sy) :
    (∀ (i : Nat) (q : Int × Int), ((x0, y0) :: pts2)[i]? = some q →
      q.1 = x0 + sx * i ∧ ∃ t : Int, 0 ≤ t ∧ t ≤ rb ∧ q.2 = y1 - sy * t) ∧
    (∀ (i : Nat) (q q' : Int × Int), ((x0, y0) :: pts2)[i]? = some q →
      ((x0, y0) :: pts2)[i + 1]? = some q' → q'.2 = q.2 ∨ q'.2 = q.2 + sy) := by
  constructor
  · intro i q hq
    cases i with
    | zero =>
      simp only [List.getElem?_cons_zero, Option.some.injEq] at hq
      subst hq
      exact ⟨by simp, rb, hrb0, le_refl _, hy0⟩
    | succ i =>
      simp only [List.getElem?_cons_succ] at hq
      obtain ⟨e1, t, ht0, ht1, e2⟩ := h1 i q hq
      refine ⟨?_, t, ht0, le_trans ht1 hrb2, e2⟩
      rw [e1]; push_cast; ring
  · intro i q q' hq hq'
    cases i with
    | zero =>
      simp only [List.getElem?_cons_zero, Option.some.injEq] at hq
      simp only [List.getElem?_cons_succ] at hq'
      rw [← List.head?_eq_getElem?, hd2] at hq'
      simp only [Option.some.injEq] at hq'
      subst hq hq'
      exact hya
    | succ i =>
      simp only [List.getElem?_cons_succ] at hq hq'
      exact h2 i q q' hq hq'

/-- The points of a line whose `x` extent exceeds its `y` extent: with `ra`
columns and `rb` rows left to the end point and the error term in `[0, dx)`, the
loop stops at the end point after `ra + 1` points, one per column. -/
theorem points_xmajor (x1 y1 dx sx dy sy e0 : Int)
    (hdx : dy < dx) (hdy : 0 ≤ dy) (hdxr : dx < 2147483648)
    (hsx : sx = 1 ∨ sx = -1)
    (he0 : 0 ≤ e0 ∧ e0 < dx)
    (hxin : ∀ t : Int, 0 ≤ t → t ≤ dx →
      -2147483648 ≤ x1 - sx * t ∧ x1 - sx * t < 2147483648)
    (hyin : ∀ t : Int, 0 ≤ t → t ≤ dy →
      -2147483648 ≤ y1 - sy * t ∧ y1 - sy * t < 2147483648) :
    ∀ (ra k : Nat) (rb : Int) (pts : List (Int × Int)) (x0 y0 err : Int),
      (ra : Int) ≤ dx → rb ≤ dy →
      0 ≤ err → err < dx → err = e0 + ra * dy - rb * dx →
      x0 = x1 - sx * ra → y0 = y1 - sy * rb →
      ∃ pts1, PutLine_points_loop x1 y1 dx sx dy sy (ra + 1 + k) pts x0 y0 err
          = some (pts ++ pts1) ∧
        pts1.head? = some (x0, y0) ∧ pts1.getLast? = some (x1, y1) ∧
        pts1.length = ra + 1 ∧
        (∀ (i : Nat) (q : Int × Int), pts1[i]? = some q →
          q.1 = x0 + sx * i ∧ ∃ t : Int, 0 ≤ t ∧ t ≤ rb ∧ q.2 = y1 - sy * t) ∧
        (∀ (i : Nat) (q q' : Int × Int), pts1[i]? = some q → pts1[i + 1]? = some q' →
          q'.2 = q.2 ∨ q'.2 = q.2 + sy) := by
  have hdx0 : 0 < dx := by omega
  intro ra
  induction ra with
  | zero =>
    intro k rb pts x0 y0 err _ hrb herr0 herr1 herr hx0 hy0
    have hz : ((0 : Nat) : Int) * dy = 0 := by simp
    rw [hz] at herr
    have hrbz : rb = 0 := by
      have h1 := int_mul_nonneg_of_gt rb dx hdx0 (by omega)
      have h2 := int_mul_nonpos_of_lt rb dx hdx0 (by omega)
      omega
    have hx0' : x0 = x1 := by rw [hx0]; simp
    have hy0' : y0 = y1 := by rw [hy0, hrbz]; simp
    subst hx0' hy0' hrbz
    refine ⟨[(x0, y0)], ?_, rfl, rfl, rfl, ?_, ?_⟩
    · rw [show 0 + 1 + k = 0 + k + 1 by omega]; exact points_loop_stop _ _ _ _ _ _ _ _ _
    · intro i q hq
      cases i with
      | zero =>
        simp only [List.getElem?_cons_zero, Option.some.injEq] at hq
        subst hq
        exact ⟨by simp, 0, le_refl _, le_refl _, by simp⟩
      | succ i => simp at hq
    · intro i q q' _ hq'
      simp at hq'
  | succ ra ih =>
    intro k rb pts x0 y0 err hra hrb herr0 herr1 herr hx0 hy0
    have hprod : dy ≤ ((ra + 1 : Nat) : Int) * dy := by
      have : (1 : Int) * dy ≤ ((ra + 1 : Nat) : Int) * dy :=
        Int.mul_le_mul_of_nonneg_right (by omega) hdy
      omega
    have hsplit : ((ra + 1 : Nat) : Int) * dy = (ra : Int) * dy + dy := by push_cast; ring
    have hrb0 : 0 ≤ rb := int_mul_nonneg_of_gt rb dx hdx0 (by omega)
    have hxn := hxin (ra : Int) (by omega) (by omega)
    have hxstep : x0 + sx = x1 - sx * (ra : Int) := by rw [hx0]; push_cast; ring
    have hne : ¬ (x0 = x1 ∧ y0 = y1) := by
      intro hh
      have h1 := hh.1
      rw [hx0] at h1
      rcases hsx with rfl | rfl <;> omega
    have hgt : err > -dx := by omega
    rw [show ra + 1 + 1 + k = ra + 1 + k + 1 by omega, points_loop_step _ _ _ _ _ _ _ _ _ _ _ hne,
      wrap32_neg dx (le_of_lt hdx0) hdxr]
    simp only [if_pos hgt]
    rw [wrap32_of_range (x0 + sx) (by rw [hxstep]; omega) (by rw [hxstep]; omega),
      wrap32_of_range (err - dy) (by omega) (by omega)]
    by_cases hlt : err < dy
    · have hrbm : (rb - 1) * dx = rb * dx - dx := by ring
      have hrb1 : 0 ≤ rb - 1 := int_mul_nonneg_of_gt (rb - 1) dx hdx0 (by omega)
      have hyn := hyin (rb - 1) hrb1 (by omega)
      have hystep : y0 + sy = y1 - sy * (rb - 1) := by rw [hy0]; ring
      simp only [if_pos hlt]
      rw [wrap32_of_range (err - dy + dx) (by omega) (by omega),
        wrap32_of_range (y0 + sy) (by rw [hystep]; omega) (by rw [hystep]; omega)]
      obtain ⟨pts2, e2, hd2, hl2, hn2, s1, s2⟩ := ih k (rb - 1) (pts ++ [(x0, y0)])
        (x0 + sx) (y0 + sy) (err - dy + dx) (by omega) (by omega) (by omega) (by omega)
        (by omega) hxstep hystep
      obtain ⟨t1, t2⟩ := shape_cons x0 y0 y1 sx sy rb (y0 + sy) pts2 hrb0 hy0 (rb - 1)
        (by omega) (Or.inr rfl) hd2 s1 s2
      refine ⟨(x0, y0) :: pts2, ?_, rfl, getLast_cons_of_getLast _ _ _ hl2,
        by simp [hn2], t1, t2⟩
      rw [e2, List.append_assoc, List.singleton_append]
    · simp only [if_neg hlt]
      obtain ⟨pts2, e2, hd2, hl2, hn2, s1, s2⟩ := ih k rb (pts ++ [(x0, y0)])
        (x0 + sx) y0 (err - dy) (by omega) hrb (by omega) (by omega)
        (by omega) hxstep hy0
      obtain ⟨t1, t2⟩ := shape_cons x0 y0 y1 sx sy rb y0 pts2 hrb0 hy0 rb
        (le_refl _) (Or.inl rfl) hd2 s1 s2
      refine ⟨(x0, y0) :: pts2, ?_, rfl, getLast_cons_of_getLast _ _ _ hl2,
        by simp [hn2], t1, t2⟩
      rw [e2, List.append_assoc, List.singleton_append]

/-- Shape of a list of points that starts at `(x0, y0)`, for a line that advances
along `y`: the `i`-th point has `y` coordinate `y0 + sy * i`, its `x` coordinate
is one of `x1 - sx * t` with `0 ≤ t ≤ ra`, and from one point to the next `x`
stays or moves by `sx`. -/
theorem shape_cons_y (x0 y0 x1 sx sy ra : Int) (xa : Int) (pts2 : List (Int × Int))
    (hra0 : 0 ≤ ra) (hx0 : x0 = x1 - sx * ra) (ra2 : Int) (hra2 : ra2 ≤ ra)
    (hxa : xa = x0 ∨ xa = x0 + sx)
    (hd2 : pts2.head? = some (xa, y0 + sy))
    (h1 : ∀ (i : Nat) (q : Int × Int), pts2[i]? = some q →
      q.2 = y0 + sy + sy * i ∧ ∃ t : Int, 0 ≤ t ∧ t ≤ ra2 ∧ q.1 = x1 - sx * t)
    (h2 : ∀ (i : Nat) (q q' : Int × Int), pts2[i]? = some q → pts2[i + 1]? = some q' →
      q'.1 = q.1 ∨ q'.1 = q.1 + sx) :
    (∀ (i : Nat) (q : Int × Int), ((x0, y0) :: pts2)[i]? = some q →
      q.2 = y0 + sy * i ∧ ∃ t : Int, 0 ≤ t ∧ t ≤ ra ∧ q.1 = x1 - sx * t) ∧
    (∀ (i : Nat) (q q' : Int × Int), ((x0, y0) :: pts2)[i]? = some q →
      ((x0, y0) :: pts2)[i + 1]? = some q' → q'.1 = q.1 ∨ q'.1 = q.1 + sx) := by
  constructor
  · intro i q hq
    cases i with
    | zero =>
      simp only [List.getElem?_cons_zero, Option.some.injEq] at hq
      subst hq
      exact ⟨by simp, ra, hra0, le_refl _, hx0⟩
    | succ i =>
      simp only [List.getElem?_cons_succ] at hq
      obtain ⟨e1, t, ht0, ht1, e2⟩ := h1 i q hq
      refine ⟨?_, t, ht0, le_trans ht1 hra2, e2⟩
      rw [e1]; push_cast; ring
  · intro i q q' hq hq'
    cases i with
    | zero =>
      simp only [List.getElem?_cons_zero, Option.some.injEq] at hq
      simp only [List.getElem?_cons_succ] at hq'
      rw [← List.head?_eq_getElem?, hd2] at hq'
      simp only [Option.some.injEq] at hq'
      subst hq hq'
      exact hxa
    | succ i =>
      simp only [List.getElem?_cons_succ] at hq hq'
      exact h2 i q q' hq hq'

/-- The points of a line whose `y` extent is at least its `x` extent: with `ra`
columns and `rb` rows left to the end point and the error term in `(-dy, 0]`,
the loop stops at the end point after `rb + 1` points, one per row. -/
theorem points_ymajor (x1 y1 dx sx dy sy e0 : Int)
    (hdx : 0 ≤ dx) (hdxy : dx ≤ dy) (hdy0 : 0 < dy) (hdyr : dy < 2147483648)
    (hsy : sy = 1 ∨ sy = -1)
    (he0 : -dy < e0 ∧ e0 ≤ 0)
    (hxin : ∀ t : Int, 0 ≤ t → t ≤ dx →
      -2147483648 ≤ x1 - sx * t ∧ x1 - sx * t < 2147483648)
    (hyin : ∀ t : Int, 0 ≤ t → t ≤ dy →
      -2147483648 ≤ y1 - sy * t ∧ y1 - sy * t < 2147483648) :
    ∀ (rb k : Nat) (ra : Int) (pts : List (Int × Int)) (x0 y0 err : Int),
      ra ≤ dx → (rb : Int) ≤ dy →
      -dy < err → err ≤ 0 → err = e0 + ra * dy - rb * dx →
      x0 = x1 - sx * ra → y0 = y1 - sy * rb →
      ∃ pts1, PutLine_points_loop x1 y1 dx sx dy sy (rb + 1 + k) pts x0 y0 err
          = some (pts ++ pts1) ∧
        pts1.head? = some (x0, y0) ∧ pts1.getLast? = some (x1, y1) ∧
        pts1.length = rb + 1 ∧
        (∀ (i : Nat) (q : Int × Int), pts1[i]? = some q →
          q.2 = y0 + sy * i ∧ ∃ t : Int, 0 ≤ t ∧ t ≤ ra ∧ q.1 = x1 - sx * t) ∧
        (∀ (i : Nat) (q q' : Int × Int), pts1[i]? = some q → pts1[i + 1]? = some q' →
          q'.1 = q.1 ∨ q'.1 = q.1 + sx) := by
  intro rb
  induction rb with
  | zero =>
    intro k ra pts x0 y0 err hra _ herr0 herr1 herr hx0 hy0
    have hz : ((0 : Nat) : Int) * dx = 0 := by simp
    rw [hz] at herr
    have hraz : ra = 0 := by
      have h1 := int_mul_nonneg_of_gt ra dy hdy0 (by omega)
      have h2 := int_mul_nonpos_of_lt ra dy hdy0 (by omega)
      omega
    have hx0' : x0 = x1 := by rw [hx0, hraz]; simp
    have hy0' : y0 = y1 := by rw [hy0]; simp
    subst hx0' hy0' hraz
    refine ⟨[(x0, y0)], ?_, rfl, rfl, rfl, ?_, ?_⟩
    · rw [show 0 + 1 + k = 0 + k + 1 by omega]; exact points_loop_stop _ _ _ _ _ _ _ _ _
    · intro i q hq
      cases i with
      | zero =>
        simp only [List.getElem?_cons_zero, Option.some.injEq] at hq
        subst hq
        exact ⟨by simp, 0, le_refl _, le_refl _, by simp⟩
      | succ i => simp at hq
    · intro i q q' _ hq'
      simp at hq'
  | succ rb ih =>
    intro k ra pts x0 y0 err hra hrb herr0 herr1 herr hx0 hy0
    have hprod : dx ≤ ((rb + 1 : Nat) : Int) * dx := by
      have : (1 : Int) * dx ≤ ((rb + 1 : Nat) : Int) * dx :=
        Int.mul_le_mul_of_nonneg_right (by omega) hdx
      omega
    have hsplit : ((rb + 1 : Nat) : Int) * dx = (rb : Int) * dx + dx := by push_cast; ring
    have hra0 : 0 ≤ ra := int_mul_nonneg_of_gt ra dy hdy0 (by omega)
    have hyn := hyin (rb : Int) (by omega) (by omega)
    have hystep : y0 + sy = y1 - sy * (rb : Int) := by rw [hy0]; push_cast; ring
    have hne : ¬ (x0 = x1 ∧ y0 = y1) := by
      intro hh
      have h1 := hh.2
      rw [hy0] at h1
      rcases hsy with rfl | rfl <;> omega
    have hlt : err < dy := by omega
    rw [show rb + 1 + 1 + k = rb + 1 + k + 1 by omega, points_loop_step _ _ _ _ _ _ _ _ _ _ _ hne,
      wrap32_neg dx hdx (by omega)]
    simp only [if_pos hlt]
    rw [wrap32_of_range (y0 + sy) (by rw [hystep]; omega) (by rw [hystep]; omega)]
    by_cases hgt : err > -dx
    · have hram : (ra - 1) * dy = ra * dy - dy := by ring
      have hra1 : 0 ≤ ra - 1 := int_mul_nonneg_of_gt (ra - 1) dy hdy0 (by omega)
      have hxn := hxin (ra - 1) hra1 (by omega)
      have hxstep : x0 + sx = x1 - sx * (ra - 1) := by rw [hx0]; ring
      simp only [if_pos hgt]
      rw [wrap32_wrap32_add, wrap32_of_range (err - dy + dx) (by omega) (by omega),
        wrap32_of_range (x0 + sx) (by rw [hxstep]; omega) (by rw [hxstep]; omega)]
      obtain ⟨pts2, e2, hd2, hl2, hn2, s1, s2⟩ := ih k (ra - 1) (pts ++ [(x0, y0)])
        (x0 + sx) (y0 + sy) (err - dy + dx) (by omega) (by omega) (by omega) (by omega)
        (by omega) hxstep hystep
      obtain ⟨t1, t2⟩ := shape_cons_y x0 y0 x1 sx sy ra (x0 + sx) pts2 hra0 hx0 (ra - 1)
        (by omega) (Or.inr rfl) hd2 s1 s2
      refine ⟨(x0, y0) :: pts2, ?_, rfl, getLast_cons_of_getLast _ _ _ hl2,
        by simp [hn2], t1, t2⟩
      rw [e2, List.append_assoc, List.singleton_append]
    · simp only [if_neg hgt]
      rw [wrap32_of_range (err + dx) (by omega) (by omega)]
      obtain ⟨pts2, e2, hd2, hl2, hn2, s1, s2⟩ := ih k ra (pts ++ [(x0, y0)])
        x0 (y0 + sy) (err + dx) hra (by omega) (by omega) (by omega)
        (by omega) hx0 hystep
      obtain ⟨t1, t2⟩ := shape_cons_y x0 y0 x1 sx sy ra x0 pts2 hra0 hx0 ra
        (le_refl _) (Or.inl rfl) hd2 s1 s2
      refine ⟨(x0, y0) :: pts2, ?_, rfl, getLast_cons_of_getLast _ _ _ hl2,
        by simp [hn2], t1, t2⟩
      rw [e2, List.append_assoc, List.singleton_append]

/-- More iterations do not change the points of a line loop that has stopped. -/
theorem points_loop_mono (x1 y1 dx sx dy sy : Int) (k : Nat) :
    ∀ (fuel : Nat) (pts : List (Int × Int)) (x0 y0 err : Int) (r : List (Int × Int)),
      PutLine_points_loop x1 y1 dx sx dy sy fuel pts x0 y0 err = some r →
      PutLine_points_loop x1 y1 dx sx dy sy (fuel + k) pts x0 y0 err = some r := by
  intro fuel
  induction fuel with
  | zero =>
    intro pts x0 y0 err r h
    simp [PutLine_points_loop] at h
  | succ fuel ih =>
    intro pts x0 y0 err r h
    rw [show fuel + 1 + k = fuel + k + 1 by omega, PutLine_points_loop]
    rw [PutLine_points_loop] at h
    by_cases hc : x0 = x1 ∧ y0 = y1
    · rw [if_pos hc] at h ⊢; exact h
    · rw [if_neg hc] at h ⊢
      exact ih _ _ _ _ _ h

/-- Extent and direction of a line along one axis, for `int` coordinates whose
difference and its absolute value fit `int`. -/
theorem line_axis_int (a b : Int) (ha : -2147483648 ≤ a ∧ a < 2147483648)
    (hb : -2147483648 ≤ b ∧ b < 2147483648)
    (hd : -2147483648 < b - a ∧ b - a < 2147483648) :
    abs32 (wrap32 (b - a)) = |b - a| ∧ 0 ≤ |b - a| ∧ |b - a| < 2147483648 ∧
    ((if a < b then (1 : Int) else -1) = 1 ∨ (if a < b then (1 : Int) else -1) = -1) ∧
    a = b - (if a < b then (1 : Int) else -1) * |b - a| ∧
    ∀ t : Int, 0 ≤ t → t ≤ |b - a| →
      (-2147483648 ≤ b - (if a < b then (1 : Int) else -1) * t ∧
        b - (if a < b then (1 : Int) else -1) * t < 2147483648) ∧
      min a b ≤ b - (if a < b then (1 : Int) else -1) * t ∧
      b - (if a < b then (1 : Int) else -1) * t ≤ max a b := by
  rw [wrap32_of_range (b - a) (by omega) (by omega)]
  unfold abs32
  by_cases h : a < b
  · rw [if_neg (by omega), wrap32_of_range (b - a) (by omega) (by omega),
      abs_of_pos (by omega : 0 < b - a)]
    simp only [if_pos h]
    refine ⟨trivial, by omega, by omega, by simp, by omega, ?_⟩
    intro t ht0 ht1
    omega
  · have habs : |b - a| = a - b := by
      rw [abs_of_nonpos (by omega : b - a ≤ 0)]; ring
    rw [habs, wrap32_of_range _ (by split <;> omega) (by split <;> omega)]
    simp only [if_neg h]
    by_cases h2 : b - a < 0
    · simp only [if_pos h2]
      refine ⟨by ring, by omega, by omega, by simp, by omega, ?_⟩
      intro t ht0 ht1
      omega
    · simp only [if_neg h2]
      refine ⟨by omega, by omega, by omega, by simp, by omega, ?_⟩
      intro t ht0 ht1
      omega

/-- The points of a line, for any extents and steps that lead from the start
point to the end point within the range of `int`. -/
theorem points_run (x0 y0 x1 y1 dx sx dy sy : Int)
    (hdx : 0 ≤ dx) (hdy : 0 ≤ dy) (hdxr : dx < 2147483648) (hdyr : dy < 2147483648)
    (hsx : sx = 1 ∨ sx = -1) (hsy : sy = 1 ∨ sy = -1)
    (hx0 : x0 = x1 - sx * dx) (hy0 : y0 = y1 - sy * dy)
    (hxin : ∀ t : Int, 0 ≤ t → t ≤ dx →
      -2147483648 ≤ x1 - sx * t ∧ x1 - sx * t < 2147483648)
    (hyin : ∀ t : Int, 0 ≤ t → t ≤ dy →
      -2147483648 ≤ y1 - sy * t ∧ y1 - sy * t < 2147483648) :
    ∃ pts, (∀ k : Nat, PutLine_points_loop x1 y1 dx sx dy sy (dx.toNat + dy.toNat + 1 + k) []
          x0 y0 (Int.tdiv (if dx > dy then dx else wrap32 (-dy)) 2) = some pts) ∧
      (pts.length : Int) = max dx dy + 1 ∧
      pts.head? = some (x0, y0) ∧ pts.getLast? = some (x1, y1) ∧
      (∀ (i : Nat) (q q' : Int × Int), pts[i]? = some q → pts[i + 1]? = some q' →
        (q'.1 = q.1 ∨ q'.1 = q.1 + sx) ∧ (q'.2 = q.2 ∨ q'.2 = q.2 + sy) ∧
        (dy < dx → q'.1 = q.1 + sx) ∧ (dx ≤ dy → q'.2 = q.2 + sy)) ∧
      (∀ q : Int × Int, q ∈ pts → ∃ t u : Int, (0 ≤ t ∧ t ≤ dx ∧ q.1 = x1 - sx * t) ∧
        0 ≤ u ∧ u ≤ dy ∧ q.2 = y1 - sy * u) ∧
      (dy < dx → ∀ (i : Nat) (q : Int × Int), pts[i]? = some q → q.1 = x0 + sx * i) ∧
      (dx ≤ dy → ∀ (i : Nat) (q : Int × Int), pts[i]? = some q → q.2 = y0 + sy * i) := by
  have hra : ((dx.toNat : Nat) : Int) = dx := Int.toNat_of_nonneg hdx
  have hrb : ((dy.toNat : Nat) : Int) = dy := Int.toNat_of_nonneg hdy
  by_cases hmaj : dx > dy
  · rw [if_pos hmaj, Int.tdiv_eq_ediv hdx (by decide)]
    obtain ⟨pts1, e1, hd1, hl1, hn1, s1, s2⟩ := points_xmajor x1 y1 dx sx dy sy
      (dx / 2) hmaj hdy hdxr hsx ⟨by omega, by omega⟩ hxin hyin dx.toNat dy.toNat dy []
      x0 y0 (dx / 2) (by omega) (le_refl dy) (by omega) (by omega)
      (by rw [hra]; ring) (by rw [hra]; exact hx0) hy0
    rw [List.nil_append] at e1
    refine ⟨pts1, ?_, ?_, hd1, hl1, ?_, ?_, fun _ i q hq => (s1 i q hq).1,
      fun h => absurd hmaj (by omega)⟩
    · intro k
      rw [show dx.toNat + dy.toNat + 1 + k = dx.toNat + 1 + dy.toNat + k by omega]
      exact points_loop_mono _ _ _ _ _ _ k _ _ _ _ _ _ e1
    · rw [hn1]; push_cast; rw [hra, max_eq_left (le_of_lt hmaj)]
    · intro i q q' hq hq'
      have a1 := (s1 i q hq).1
      have a2 := (s1 (i + 1) q' hq').1
      have a3 := s2 i q q' hq hq'
      have a4 : q'.1 = q.1 + sx := by rw [a2, a1]; push_cast; ring
      exact ⟨Or.inr a4, a3, fun _ => a4, fun h => absurd hmaj (by omega)⟩
    · intro q hq
      obtain ⟨i, hi⟩ := List.mem_iff_getElem?.mp hq
      obtain ⟨a1, u, hu0, hu1, a2⟩ := s1 i q hi
      have hil : i < pts1.length := (List.getElem?_eq_some.mp hi).1
      refine ⟨dx - i, u, ⟨by omega, by omega, ?_⟩, hu0, hu1, a2⟩
      rw [a1, hx0]; ring
  · rw [if_neg hmaj, wrap32_neg dy hdy hdyr, Int.neg_tdiv, Int.tdiv_eq_ediv hdy (by decide)]
    by_cases hdy0 : 0 < dy
    · obtain ⟨pts1, e1, hd1, hl1, hn1, s1, s2⟩ := points_ymajor x1 y1 dx sx dy sy
        (-(dy / 2)) hdx (by omega) hdy0 hdyr hsy ⟨by omega, by omega⟩ hxin hyin dy.toNat
        dx.toNat dx [] x0 y0 (-(dy / 2)) (le_refl dx) (by omega) (by omega) (by omega)
        (by rw [hrb]; ring) hx0 (by rw [hrb]; exact hy0)
      rw [List.nil_append] at e1
      refine ⟨pts1, ?_, ?_, hd1, hl1, ?_, ?_, fun h => absurd h hmaj,
        fun _ i q hq => (s1 i q hq).1⟩
      · intro k
        rw [show dx.toNat + dy.toNat + 1 + k = dy.toNat + 1 + dx.toNat + k by omega]
        exact points_loop_mono _ _ _ _ _ _ k _ _ _ _ _ _ e1
      · rw [hn1]; push_cast; rw [hrb, max_eq_right (by omega)]
      · intro i q q' hq hq'
        have a1 := (s1 i q hq).1
        have a2 := (s1 (i + 1) q' hq').1
        have a3 := s2 i q q' hq hq'
        have a4 : q'.2 = q.2 + sy := by rw [a2, a1]; push_cast; ring
        exact ⟨a3, Or.inr a4, fun h => absurd h hmaj, fun _ => a4⟩
      · intro q hq
        obtain ⟨i, hi⟩ := List.mem_iff_getElem?.mp hq
        obtain ⟨a1, t, ht0, ht1, a2⟩ := s1 i q hi
        have hil : i < pts1.length := (List.getElem?_eq_some.mp hi).1
        refine ⟨t, dy - i, ⟨ht0, ht1, a2⟩, by omega, by omega, ?_⟩
        rw [a1, hy0]; ring
    · have hdy1 : dy = 0 := by omega
      have hdx1 : dx = 0 := by omega
      subst hdy1 hdx1
      simp only [mul_zero, sub_zero] at hx0 hy0
      subst hx0 hy0
      refine ⟨[(x0, y0)], ?_, by simp, rfl, rfl, ?_, ?_, fun h => absurd h (lt_irrefl _), ?_⟩
      · intro k
        rw [show Int.toNat 0 + Int.toNat 0 + 1 + k = k + 1 by simp; omega]
        exact points_loop_stop _ _ _ _ _ _ _ _ _
      · intro i q q' _ hq'
        simp at hq'
      · intro q hq
        simp only [List.mem_singleton] at hq
        subst hq
        exact ⟨0, 0, ⟨le_refl _, le_refl _, by simp⟩, le_refl _, le_refl _, by simp⟩
      · intro _ i q hq
        cases i with
        | zero =>
          simp only [List.getElem?_cons_zero, Option.some.injEq] at hq
          subst hq
          simp
        | succ i => simp at hq

/-- The points of a line between `int` endpoints whose coordinate differences
and their absolute values fit `int`. -/
theorem line_points_spec (x0 y0 x1 y1 : Int)
    (hx0 : -2147483648 ≤ x0 ∧ x0 < 2147483648) (hy0 : -2147483648 ≤ y0 ∧ y0 < 2147483648)
    (hx1 : -2147483648 ≤ x1 ∧ x1 < 2147483648) (hy1 : -2147483648 ≤ y1 ∧ y1 < 2147483648)
    (hdx : -2147483648 < x1 - x0 ∧ x1 - x0 < 2147483648)
    (hdy : -2147483648 < y1 - y0 ∧ y1 - y0 < 2147483648) :
    ∃ pts : List (Int × Int),
      (∃ N : Nat, ∀ fuel : Nat, N ≤ fuel → PutLine_points fuel x0 y0 x1 y1 = some pts) ∧
      (∀ (p : Panel) (fuel : Nat) (fb fb1 : Buf) (pts1 : List (Int × Int)),
        Display_PutLine p fuel fb x0 y0 x1 y1 = Outcome.done (fb1, pts1) → pts1 = pts) ∧
      (pts.length : Int) = max |x1 - x0| |y1 - y0| + 1 ∧
      pts.head? = some (x0, y0) ∧ pts.getLast? = some (x1, y1) ∧
      (∀ (i : Nat) (q q' : Int × Int), pts[i]? = some q → pts[i + 1]? = some q' →
        |q'.1 - q.1| ≤ 1 ∧ |q'.2 - q.2| ≤ 1 ∧
        (|y1 - y0| < |x1 - x0| → |q'.1 - q.1| = 1) ∧
        (|x1 - x0| ≤ |y1 - y0| → |q'.2 - q.2| = 1)) ∧
      (∀ q : Int × Int, q ∈ pts →
        (min x0 x1 ≤ q.1 ∧ q.1 ≤ max x0 x1) ∧ min y0 y1 ≤ q.2 ∧ q.2 ≤ max y0 y1) ∧
      (∀ p : Panel, (0 ≤ x0 ∧ x0 < p.DISPLAY_WIDTH) → (0 ≤ x1 ∧ x1 < p.DISPLAY_WIDTH) →
        (0 ≤ y0 ∧ y0 < p.DISPLAY_HEIGHT) → (0 ≤ y1 ∧ y1 < p.DISPLAY_HEIGHT) →
        ∀ q : Int × Int, q ∈ pts →
          (0 ≤ q.1 ∧ q.1 < p.DISPLAY_WIDTH) ∧ 0 ≤ q.2 ∧ q.2 < p.DISPLAY_HEIGHT) ∧
      (|y1 - y0| < |x1 - x0| → ∀ (i : Nat) (q : Int × Int), pts[i]? = some q →
        q.1 = x0 + (if x0 < x1 then (1 : Int) else -1) * i) ∧
      (|x1 - x0| ≤ |y1 - y0| → ∀ (i : Nat) (q : Int × Int), pts[i]? = some q →
        q.2 = y0 + (if y0 < y1 then (1 : Int) else -1) * i) := by
  obtain ⟨ex, hdx0, hdxr, hsx, hxe, hxin⟩ := line_axis_int x0 x1 hx0 hx1 hdx
  obtain ⟨ey, hdy0, hdyr, hsy, hye, hyin⟩ := line_axis_int y0 y1 hy0 hy1 hdy
  have hP : ∀ fuel : Nat, PutLine_points fuel x0 y0 x1 y1
      = PutLine_points_loop x1 y1 |x1 - x0| (if x0 < x1 then 1 else -1) |y1 - y0|
          (if y0 < y1 then 1 else -1) fuel [] x0 y0
          (Int.tdiv (if |x1 - x0| > |y1 - y0| then |x1 - x0| else wrap32 (-|y1 - y0|)) 2) := by
    intro fuel
    unfold PutLine_points
    simp only []
    rw [ex, ey]
  clear ex ey
  generalize (if x0 < x1 then (1 : Int) else -1) = sx at *
  generalize (if y0 < y1 then (1 : Int) else -1) = sy at *
  generalize |x1 - x0| = dx at *
  generalize |y1 - y0| = dy at *
  obtain ⟨pts, hrun, hlen, hhd, hlast, hstep, hmem, hix, hiy⟩ := points_run x0 y0 x1 y1 dx sx dy sy
    hdx0 hdy0 hdxr hdyr hsx hsy hxe hye (fun t a b => (hxin t a b).1)
    (fun t a b => (hyin t a b).1)
  have hbox : ∀ q : Int × Int, q ∈ pts →
      (min x0 x1 ≤ q.1 ∧ q.1 ≤ max x0 x1) ∧ min y0 y1 ≤ q.2 ∧ q.2 ≤ max y0 y1 := by
    intro q hq
    obtain ⟨t, u, ⟨ht0, ht1, e1⟩, hu0, hu1, e2⟩ := hmem q hq
    rw [e1, e2]
    exact ⟨(hxin t ht0 ht1).2, (hyin u hu0 hu1).2⟩
  refine ⟨pts, ⟨dx.toNat + dy.toNat + 1, ?_⟩, ?_, hlen, hhd, hlast, ?_, hbox, ?_, hix, hiy⟩
  · intro fuel hfuel
    rw [hP, show fuel = dx.toNat + dy.toNat + 1 + (fuel - (dx.toNat + dy.toNat + 1)) by omega]
    exact hrun _
  · intro p fuel fb fb1 pts1 hdone
    have h1 := PutLine_points_of_done p fuel fb x0 y0 x1 y1 fb1 pts1 hdone
    rw [hP] at h1
    have h2 := points_loop_mono _ _ _ _ _ _ (dx.toNat + dy.toNat + 1) _ _ _ _ _ _ h1
    rw [show fuel + (dx.toNat + dy.toNat + 1) = dx.toNat + dy.toNat + 1 + fuel by omega,
      hrun fuel] at h2
    exact (Option.some.inj h2).symm
  · intro i q q' hq hq'
    obtain ⟨a1, a2, a3, a4⟩ := hstep i q q' hq hq'
    refine ⟨abs_le.mpr ?_, abs_le.mpr ?_, ?_, ?_⟩
    · rcases hsx with rfl | rfl <;> omega
    · rcases hsy with rfl | rfl <;> omega
    · intro hm
      have a5 := a3 hm
      rcases hsx with rfl | rfl
      · rw [show q'.1 - q.1 = 1 by omega]; rfl
      · rw [show q'.1 - q.1 = -1 by omega]; rfl
    · intro hm
      have a5 := a4 hm
      rcases hsy with rfl | rfl
      · rw [show q'.2 - q.2 = 1 by omega]; rfl
      · rw [show q'.2 - q.2 = -1 by omega]; rfl
  · intro p hpx0 hpx1 hpy0 hpy1 q hq
    have hb := hbox q hq
    omega


/-- C14: shape of the rasterized line.  For all `int` endpoints whose coordinate
differences and their absolute values fit `int`, the loop of `PutLine` stops
(every bound from `N` on gives the same points), and the sequence of points it
plots starts at `(x0, y0)`, ends at `(x1, y1)`, has exactly
`max(|x1-x0|, |y1-y0|) + 1` points, moves by exactly 1 along the major axis and by
at most 1 along the minor axis from each point to the next, and stays in the
bounding box of the two endpoints; so between two on-panel endpoints every plotted
point is on the panel.  Every finished run of `Display_PutLine` plotted these
points. -/
theorem PutLine_line_shape (x0 y0 x1 y1 : Int)
    (hx0 : -2147483648 ≤ x0 ∧ x0 < 2147483648) (hy0 : -2147483648 ≤ y0 ∧ y0 < 2147483648)
    (hx1 : -2147483648 ≤ x1 ∧ x1 < 2147483648) (hy1 : -2147483648 ≤ y1 ∧ y1 < 2147483648)
    (hdx : -2147483648 < x1 - x0 ∧ x1 - x0 < 2147483648)
    (hdy : -2147483648 < y1 - y0 ∧ y1 - y0 < 2147483648) :
    ∃ pts : List (Int × Int),
      (∃ N : Nat, ∀ fuel : Nat, N ≤ fuel → PutLine_points fuel x0 y0 x1 y1 = some pts) ∧
      (∀ (p : Panel) (fuel : Nat) (fb fb1 : Buf) (pts1 : List (Int × Int)),
        Display_PutLine p fuel fb x0 y0 x1 y1 = Outcome.done (fb1, pts1) → pts1 = pts) ∧
      (pts.length : Int) = max |x1 - x0| |y1 - y0| + 1 ∧
      pts.head? = some (x0, y0) ∧ pts.getLast? = some (x1, y1) ∧
      (∀ (i : Nat) (q q' : Int × Int), pts[i]? = some q → pts[i + 1]? = some q' →
        |q'.1 - q.1| ≤ 1 ∧ |q'.2 - q.2| ≤ 1 ∧
        (|y1 - y0| < |x1 - x0| → |q'.1 - q.1| = 1) ∧
        (|x1 - x0| ≤ |y1 - y0| → |q'.2 - q.2| = 1)) ∧
      (∀ q : Int × Int, q ∈ pts →
        (min x0 x1 ≤ q.1 ∧ q.1 ≤ max x0 x1) ∧ min y0 y1 ≤ q.2 ∧ q.2 ≤ max y0 y1) ∧
      (∀ p : Panel, (0 ≤ x0 ∧ x0 < p.DISPLAY_WIDTH) → (0 ≤ x1 ∧ x1 < p.DISPLAY_WIDTH) →
        (0 ≤ y0 ∧ y0 < p.DISPLAY_HEIGHT) → (0 ≤ y1 ∧ y1 < p.DISPLAY_HEIGHT) →
        ∀ q : Int × Int, q ∈ pts →
          (0 ≤ q.1 ∧ q.1 < p.DISPLAY_WIDTH) ∧ 0 ≤ q.2 ∧ q.2 < p.DISPLAY_HEIGHT) := by
  obtain ⟨pts, h1, h2, h3, h4, h5, h6, h7, h8, _, _⟩ :=
    line_points_spec x0 y0 x1 y1 hx0 hy0 hx1 hy1 hdx hdy
  exact ⟨pts, h1, h2, h3, h4, h5, h6, h7, h8⟩

theorem PutLine_line_shape_witness :
    ∃ pts : List (Int × Int),
      (∃ N : Nat, ∀ fuel : Nat, N ≤ fuel → PutLine_points fuel 5 0 1 2 = some pts) ∧
      (∀ (p : Panel) (fuel : Nat) (fb fb1 : Buf) (pts1 : List (Int × Int)),
        Display_PutLine p fuel fb 5 0 1 2 = Outcome.done (fb1, pts1) → pts1 = pts) ∧
      (pts.length : Int) = max |(1 : Int) - 5| |(2 : Int) - 0| + 1 ∧
      pts.head? = some (5, 0) ∧ pts.getLast? = some (1, 2) ∧
      (∀ (i : Nat) (q q' : Int × Int), pts[i]? = some q → pts[i + 1]? = some q' →
        |q'.1 - q.1| ≤ 1 ∧ |q'.2 - q.2| ≤ 1 ∧
        (|(2 : Int) - 0| < |(1 : Int) - 5| → |q'.1 - q.1| = 1) ∧
        (|(1 : Int) - 5| ≤ |(2 : Int) - 0| → |q'.2 - q.2| = 1)) ∧
      (∀ q : Int × Int, q ∈ pts →
        (min 5 1 ≤ q.1 ∧ q.1 ≤ max 5 1) ∧ min 0 2 ≤ q.2 ∧ q.2 ≤ max 0 2) ∧
      (∀ p : Panel, (0 ≤ (5 : Int) ∧ (5 : Int) < p.DISPLAY_WIDTH) →
        (0 ≤ (1 : Int) ∧ (1 : Int) < p.DISPLAY_WIDTH) →
        (0 ≤ (0 : Int) ∧ (0 : Int) < p.DISPLAY_HEIGHT) →
        (0 ≤ (2 : Int) ∧ (2 : Int) < p.DISPLAY_HEIGHT) →
        ∀ q : Int × Int, q ∈ pts →
          (0 ≤ q.1 ∧ q.1 < p.DISPLAY_WIDTH) ∧ 0 ≤ q.2 ∧ q.2 < p.DISPLAY_HEIGHT) :=
  PutLine_line_shape 5 0 1 2 (by decide) (by decide) (by decide) (by decide) (by decide)
    (by decide)

/-! ## Axis-aligned lines -/

/-- A line between two on-panel endpoints: the loop stops without a fault and
each pixel is set if it is a plotted point and keeps its value otherwise. -/
theorem PutLine_on_panel (p : Panel) (hp : p.ok) (fb : Buf)
    (hfb : fb.length = DISPLAY_FRAMEBUFFER_SIZE p) (x0 y0 x1 y1 : Int)
    (hx0 : 0 ≤ x0 ∧ x0 < p.DISPLAY_WIDTH) (hy0 : 0 ≤ y0 ∧ y0 < p.DISPLAY_HEIGHT)
    (hx1 : 0 ≤ x1 ∧ x1 < p.DISPLAY_WIDTH) (hy1 : 0 ≤ y1 ∧ y1 < p.DISPLAY_HEIGHT) :
    ∃ (N : Nat) (fb1 : Buf) (pts : List (Int × Int)),
      (∀ fuel, N ≤ fuel →
        Display_PutLine p fuel fb x0 y0 x1 y1 = Outcome.done (fb1, pts)) ∧
      fb1.length = DISPLAY_FRAMEBUFFER_SIZE p ∧
      ∀ px py : Nat, py < p.DISPLAY_HEIGHT →
        pixel p fb1 px py = (decide (((px : Int), (py : Int)) ∈ pts) || pixel p fb px py) := by
  have hW : (p.DISPLAY_WIDTH : Int) < 2147483648 := by have := hp.2.1; omega
  have hH : (p.DISPLAY_HEIGHT : Int) < 2147483648 := by have := hp.2.2.1; omega
  obtain ⟨ax1, ax2, ax3, ax4, ax5⟩ := line_axis x0 x1 p.DISPLAY_WIDTH hx0 hx1 hW
  obtain ⟨ay1, ay2, ay3, ay4, ay5⟩ := line_axis y0 y1 p.DISPLAY_HEIGHT hy0 hy1 hH
  obtain ⟨fb1, pts, e1, l1, _, _, b1⟩ := PutLine_loop_run p hp fb hfb x0 y0 x1 y1 _ _ _ _
    ax1 ay1 ax2 ay2 ax3 ay3 ax4 ay4 ax5 ay5
  refine ⟨(abs32 (wrap32 (x1 - x0))).toNat + (abs32 (wrap32 (y1 - y0))).toNat + 1, fb1, pts,
    ?_, l1, b1⟩
  intro fuel hfuel
  obtain ⟨k, rfl⟩ := Nat.exists_eq_add_of_le hfuel
  unfold Display_PutLine
  exact PutLine_loop_mono p _ _ _ _ _ _ k _ _ _ _ _ _ _ e1

/-- The points of a horizontal line are the points of its row between the two
end columns. -/
theorem horizontal_points (x0 x1 y : Int)
    (hx0 : -2147483648 ≤ x0 ∧ x0 < 2147483648) (hx1 : -2147483648 ≤ x1 ∧ x1 < 2147483648)
    (hy : -2147483648 ≤ y ∧ y < 2147483648)
    (hdx : -2147483648 < x1 - x0 ∧ x1 - x0 < 2147483648) :
    ∃ pts : List (Int × Int),
      (∀ (p : Panel) (fuel : Nat) (fb fb1 : Buf) (pts1 : List (Int × Int)),
        Display_PutLine p fuel fb x0 y x1 y = Outcome.done (fb1, pts1) → pts1 = pts) ∧
      ∀ q : Int × Int, q ∈ pts ↔ (min x0 x1 ≤ q.1 ∧ q.1 ≤ max x0 x1) ∧ q.2 = y := by
  obtain ⟨pts, _, hlink, hlen, hhd, _, _, hbox, _, hix, _⟩ :=
    line_points_spec x0 y x1 y hx0 hy hx1 hy hdx (by simp)
  rw [sub_self, abs_zero] at hlen hix
  have hfwd : ∀ q : Int × Int, q ∈ pts → (min x0 x1 ≤ q.1 ∧ q.1 ≤ max x0 x1) ∧ q.2 = y := by
    intro q hq
    have hb := hbox q hq
    rw [min_self, max_self] at hb
    exact ⟨hb.1, le_antisymm hb.2.2 hb.2.1⟩
  refine ⟨pts, hlink, fun q => ⟨hfwd q, ?_⟩⟩
  intro hq
  obtain ⟨⟨hq1, hq2⟩, hq3⟩ := hq
  have key : ∀ (i : Nat) (s : Int), (i : Int) < pts.length →
      (∀ (j : Nat) (r : Int × Int), pts[j]? = some r → r.1 = x0 + s * j) →
      q.1 = x0 + s * i → q ∈ pts := by
    intro i s hi hs hqi
    have hi1 : i < pts.length := by omega
    have hget : pts[i]? = some (pts[i]) := List.getElem?_eq_getElem hi1
    have hm : pts[i] ∈ pts := List.getElem_mem hi1
    have e1 := hs i _ hget
    have e2 := (hfwd _ hm).2
    have : q = pts[i] := Prod.ext (by rw [hqi, e1]) (by rw [hq3, e2])
    rw [this]; exact hm
  by_cases h : x0 < x1
  · rw [abs_of_pos (by omega : 0 < x1 - x0)] at hlen hix
    rw [if_pos h] at hix
    rw [max_eq_left (by omega : (0 : Int) ≤ x1 - x0)] at hlen
    rw [min_eq_left (le_of_lt h)] at hq1
    rw [max_eq_right (le_of_lt h)] at hq2
    refine key (q.1 - x0).toNat 1 ?_ (hix (by omega)) ?_
    · rw [Int.toNat_of_nonneg (by omega)]; omega
    · rw [Int.toNat_of_nonneg (by omega)]; ring
  · by_cases h2 : x1 = x0
    · subst h2
      rw [min_self] at hq1
      rw [max_self] at hq2
      have : q = (x1, y) := Prod.ext (le_antisymm hq2 hq1) hq3
      rw [this]
      exact List.mem_of_mem_head? hhd
    · have h3 : x1 < x0 := by omega
      have habs : |x1 - x0| = x0 - x1 := by
        rw [abs_of_neg (by omega : x1 - x0 < 0)]; ring
      rw [habs] at hlen hix
      rw [if_neg h] at hix
      rw [max_eq_left (by omega : (0 : Int) ≤ x0 - x1)] at hlen
      rw [min_eq_right (le_of_lt h3)] at hq1
      rw [max_eq_left (le_of_lt h3)] at hq2
      refine key (x0 - q.1).toNat (-1) ?_ (hix (by omega)) ?_
      · rw [Int.toNat_of_nonneg (by omega)]; omega
      · rw [Int.toNat_of_nonneg (by omega)]; ring

/-- The points of a vertical line are the points of its column between the two
end rows. -/
theorem vertical_points (x y0 y1 : Int)
    (hx : -2147483648 ≤ x ∧ x < 2147483648)
    (hy0 : -2147483648 ≤ y0 ∧ y0 < 2147483648) (hy1 : -2147483648 ≤ y1 ∧ y1 < 2147483648)
    (hdy : -2147483648 < y1 - y0 ∧ y1 - y0 < 2147483648) :
    ∃ pts : List (Int × Int),
      (∀ (p : Panel) (fuel : Nat) (fb fb1 : Buf) (pts1 : List (Int × Int)),
        Display_PutLine p fuel fb x y0 x y1 = Outcome.done (fb1, pts1) → pts1 = pts) ∧
      ∀ q : Int × Int, q ∈ pts ↔ q.1 = x ∧ min y0 y1 ≤ q.2 ∧ q.2 ≤ max y0 y1 := by
  obtain ⟨pts, _, hlink, hlen, _, _, _, hbox, _, _, hiy⟩ :=
    line_points_spec x y0 x y1 hx hy0 hx hy1 (by simp) hdy
  rw [sub_self, abs_zero] at hlen hiy
  have hiy1 := hiy (abs_nonneg _)
  have hfwd : ∀ q : Int × Int, q ∈ pts → q.1 = x ∧ min y0 y1 ≤ q.2 ∧ q.2 ≤ max y0 y1 := by
    intro q hq
    have hb := hbox q hq
    rw [min_self, max_self] at hb
    exact ⟨le_antisymm hb.1.2 hb.1.1, hb.2⟩
  refine ⟨pts, hlink, fun q => ⟨hfwd q, ?_⟩⟩
  intro hq
  obtain ⟨hq3, hq1, hq2⟩ := hq
  have key : ∀ (i : Nat) (s : Int), (i : Int) < pts.length →
      (∀ (j : Nat) (r : Int × Int), pts[j]? = some r → r.2 = y0 + s * j) →
      q.2 = y0 + s * i → q ∈ pts := by
    intro i s hi hs hqi
    have hi1 : i < pts.length := by omega
    have hget : pts[i]? = some (pts[i]) := List.getElem?_eq_getElem hi1
    have hm : pts[i] ∈ pts := List.getElem_mem hi1
    have e1 := hs i _ hget
    have e2 := (hfwd _ hm).1
    have : q = pts[i] := Prod.ext (by rw [hq3, e2]) (by rw [hqi, e1])
    rw [this]; exact hm
  by_cases h : y0 < y1
  · rw [abs_of_pos (by omega : 0 < y1 - y0)] at hlen
    rw [if_pos h] at hiy1
    rw [max_eq_right (by omega : (0 : Int) ≤ y1 - y0)] at hlen
    rw [min_eq_left (le_of_lt h)] at hq1
    rw [max_eq_right (le_of_lt h)] at hq2
    refine key (q.2 - y0).toNat 1 ?_ hiy1 ?_
    · rw [Int.toNat_of_nonneg (by omega)]; omega
    · rw [Int.toNat_of_nonneg (by omega)]; ring
  · have h3 : y1 ≤ y0 := by omega
    have habs : |y1 - y0| = y0 - y1 := by
      rw [abs_of_nonpos (by omega : y1 - y0 ≤ 0)]; ring
    rw [habs] at hlen
    rw [if_neg h] at hiy1
    rw [max_eq_right (by omega : (0 : Int) ≤ y0 - y1)] at hlen
    rw [min_eq_right h3] at hq1
    rw [max_eq_left h3] at hq2
    refine key (y0 - q.2).toNat (-1) ?_ hiy1 ?_
    · rw [Int.toNat_of_nonneg (by omega)]; omega
    · rw [Int.toNat_of_nonneg (by omega)]; ring

/-- C16: axis-aligned lines are exact.  For every on-panel row `y` and on-panel
columns `x0`, `x1` in either order, `PutLine(x0, y, x1, y)` returns without a
fault, sets exactly the pixels `(px, y)` with `min(x0,x1) ≤ px ≤ max(x0,x1)` and
changes no other pixel; for every on-panel column `x` and on-panel rows `y0`,
`y1`, `PutLine(x, y0, x, y1)` sets exactly the pixels `(x, py)` with
`min(y0,y1) ≤ py ≤ max(y0,y1)` and changes no other pixel. -/
theorem PutLine_axis_aligned_exact (p : Panel) (hp : p.ok) (fb : Buf)
    (hfb : fb.length = DISPLAY_FRAMEBUFFER_SIZE p) (x0 x1 y x y0 y1 : Int)
    (hx0 : 0 ≤ x0 ∧ x0 < p.DISPLAY_WIDTH) (hx1 : 0 ≤ x1 ∧ x1 < p.DISPLAY_WIDTH)
    (hy : 0 ≤ y ∧ y < p.DISPLAY_HEIGHT)
    (hx : 0 ≤ x ∧ x < p.DISPLAY_WIDTH)
    (hy0 : 0 ≤ y0 ∧ y0 < p.DISPLAY_HEIGHT) (hy1 : 0 ≤ y1 ∧ y1 < p.DISPLAY_HEIGHT) :
    (∃ (N : Nat) (fb1 : Buf) (pts : List (Int × Int)),
      (∀ fuel, N ≤ fuel → Display_PutLine p fuel fb x0 y x1 y = Outcome.done (fb1, pts)) ∧
      fb1.length = DISPLAY_FRAMEBUFFER_SIZE p ∧
      ∀ px py : Nat, py < p.DISPLAY_HEIGHT →
        pixel p fb1 px py =
          if (min x0 x1 ≤ px ∧ (px : Int) ≤ max x0 x1) ∧ (py : Int) = y then true
          else pixel p fb px py) ∧
    (∃ (N : Nat) (fb1 : Buf) (pts : List (Int × Int)),
      (∀ fuel, N ≤ fuel → Display_PutLine p fuel fb x y0 x y1 = Outcome.done (fb1, pts)) ∧
      fb1.length = DISPLAY_FRAMEBUFFER_SIZE p ∧
      ∀ px py : Nat, py < p.DISPLAY_HEIGHT →
        pixel p fb1 px py =
          if (px : Int) = x ∧ min y0 y1 ≤ py ∧ (py : Int) ≤ max y0 y1 then true
          else pixel p fb px py) := by
  have hW := hp.2.1
  have hH := hp.2.2.1
  constructor
  · obtain ⟨N, fb1, pts, hrun, hlen, hpix⟩ := PutLine_on_panel p hp fb hfb x0 y x1 y hx0 hy hx1 hy
    obtain ⟨pts2, hlink, hmem⟩ := horizontal_points x0 x1 y (by omega) (by omega) (by omega)
      (by omega)
    have he := hlink p N fb fb1 pts (hrun N (le_refl N))
    subst he
    refine ⟨N, fb1, pts, hrun, hlen, ?_⟩
    intro px py hpy
    rw [hpix px py hpy]
    by_cases hc : (min x0 x1 ≤ px ∧ (px : Int) ≤ max x0 x1) ∧ (py : Int) = y
    · rw [if_pos hc, decide_eq_true ((hmem _).mpr hc), Bool.true_or]
    · rw [if_neg hc, decide_eq_false (fun hm => hc ((hmem _).mp hm)), Bool.false_or]
  · obtain ⟨N, fb1, pts, hrun, hlen, hpix⟩ := PutLine_on_panel p hp fb hfb x y0 x y1 hx hy0 hx hy1
    obtain ⟨pts2, hlink, hmem⟩ := vertical_points x y0 y1 (by omega) (by omega) (by omega)
      (by omega)
    have he := hlink p N fb fb1 pts (hrun N (le_refl N))
    subst he
    refine ⟨N, fb1, pts, hrun, hlen, ?_⟩
    intro px py hpy
    rw [hpix px py hpy]
    by_cases hc : (px : Int) = x ∧ min y0 y1 ≤ py ∧ (py : Int) ≤ max y0 y1
    · rw [if_pos hc, decide_eq_true ((hmem _).mpr hc), Bool.true_or]
    · rw [if_neg hc, decide_eq_false (fun hm => hc ((hmem _).mp hm)), Bool.false_or]

theorem PutLine_axis_aligned_exact_witness :
    (∃ (N : Nat) (fb1 : Buf) (pts : List (Int × Int)),
      (∀ fuel, N ≤ fuel → Display_PutLine ⟨8, 16⟩ fuel (List.replicate 16 0x81) 5 9 2 9
        = Outcome.done (fb1, pts)) ∧
      fb1.length = DISPLAY_FRAMEBUFFER_SIZE ⟨8, 16⟩ ∧
      ∀ px py : Nat, py < (⟨8, 16⟩ : Panel).DISPLAY_HEIGHT →
        pixel ⟨8, 16⟩ fb1 px py =
          if (min (5 : Int) 2 ≤ px ∧ (px : Int) ≤ max 5 2) ∧ (py : Int) = 9 then true
          else pixel ⟨8, 16⟩ (List.replicate 16 0x81) px py) ∧
    (∃ (N : Nat) (fb1 : Buf) (pts : List (Int × Int)),
      (∀ fuel, N ≤ fuel → Display_PutLine ⟨8, 16⟩ fuel (List.replicate 16 0x81) 3 6 3 11
        = Outcome.done (fb1, pts)) ∧
      fb1.length = DISPLAY_FRAMEBUFFER_SIZE ⟨8, 16⟩ ∧
      ∀ px py : Nat, py < (⟨8, 16⟩ : Panel).DISPLAY_HEIGHT →
        pixel ⟨8, 16⟩ fb1 px py =
          if (px : Int) = 3 ∧ min (6 : Int) 11 ≤ py ∧ (py : Int) ≤ max 6 11 then true
          else pixel ⟨8, 16⟩ (List.replicate 16 0x81) px py) :=
  PutLine_axis_aligned_exact ⟨8, 16⟩ (by decide) (List.replicate 16 0x81) (by decide)
    5 2 9 3 6 11 (by decide) (by decide) (by decide) (by decide) (by decide) (by decide)

/-! ## Lines with points off the panel -/

/-- C18: the line `PutLine(INT_MAX, 0, INT_MAX, 0)` plots the single point
`(INT_MAX, 0)`, which is off the panel and should be dropped; yet in the blitter
the sum `x + w` wraps to `INT_MIN`, the sanity check passes and the copy is
started outside the framebuffer, for every bound on the loop. -/
theorem PutLine_offpanel_point_not_dropped (fuel : Nat) :
    ¬ ((2147483647 : Int) < (⟨64, 128⟩ : Panel).DISPLAY_WIDTH) ∧
    PutLine_points (fuel + 1) 2147483647 0 2147483647 0 = some [(2147483647, 0)] ∧
    Display_PutLine ⟨64, 128⟩ (fuel + 1) (List.replicate 1024 0) 2147483647 0 2147483647 0
      = Outcome.fault := by
  refine ⟨by decide, ?_, ?_⟩
  · unfold PutLine_points
    simp only []
    rw [PutLine_points_loop]
    simp
  · unfold Display_PutLine
    simp only []
    rw [PutLine_loop]
    have h : Display_PutPixelsUnlocked ⟨64, 128⟩ (List.replicate 1024 0) 2147483647 0 [0xFF] 0 1 1
        = none := by decide
    rw [h]

/-- The blitter call of the line loop on any point whose coordinates plus one fit
`int`: a point on the panel is set, a point off the panel is dropped. -/
theorem plot_general (p : Panel) (hp : p.ok) (fb : Buf)
    (hfb : fb.length = DISPLAY_FRAMEBUFFER_SIZE p) (x0 y0 : Int)
    (hx : -2147483648 ≤ x0 ∧ x0 + 1 < 2147483648)
    (hy : -2147483648 ≤ y0 ∧ y0 + 1 < 2147483648) :
    ∃ fb1, Display_PutPixelsUnlocked p fb x0 y0 [0xFF] 0 1 1 = some fb1 ∧
      fb1.length = DISPLAY_FRAMEBUFFER_SIZE p ∧
      ∀ px py : Nat, px < p.DISPLAY_WIDTH → py < p.DISPLAY_HEIGHT →
        pixel p fb1 px py = (decide ((px : Int) = x0 ∧ (py : Int) = y0) || pixel p fb px py) := by
  by_cases hon : (0 ≤ x0 ∧ x0 < p.DISPLAY_WIDTH) ∧ 0 ≤ y0 ∧ y0 < p.DISPLAY_HEIGHT
  · obtain ⟨fb1, e1, l1, b1⟩ := plot_spec p hp fb hfb x0 y0 hon.1 hon.2
    exact ⟨fb1, e1, l1, fun px py _ hpy => b1 px py hpy⟩
  · refine ⟨fb, PutPixelsUnlocked_invalid_dropped p fb [0xFF] 0 x0 y0 1 1 (by omega) (by omega)
      (by omega), hfb, ?_⟩
    intro px py hpx hpy
    rw [decide_eq_false (by omega), Bool.false_or]

/-- The list of plotted points the points loop starts with is only extended. -/
theorem points_loop_acc (x1 y1 dx sx dy sy : Int) :
    ∀ (fuel : Nat) (pts : List (Int × Int)) (x0 y0 err : Int),
      PutLine_points_loop x1 y1 dx sx dy sy fuel pts x0 y0 err
        = (PutLine_points_loop x1 y1 dx sx dy sy fuel [] x0 y0 err).map fun r => pts ++ r := by
  intro fuel
  induction fuel with
  | zero => intro pts x0 y0 err; rfl
  | succ fuel ih =>
    intro pts x0 y0 err
    rw [PutLine_points_loop, PutLine_points_loop]
    by_cases hc : x0 = x1 ∧ y0 = y1
    · rw [if_pos hc, if_pos hc]; rfl
    · rw [if_neg hc, if_neg hc]
      simp only []
      rw [ih (pts ++ [(x0, y0)]), ih ([] ++ [(x0, y0)]), Option.map_map]
      congr 1
      funext r
      simp

/-- The line loop, run on the points of the points loop: when every plotted point
has coordinates whose successors fit `int`, the loop stops without a fault, and
each pixel of the panel is set if it is a plotted point and keeps its value
otherwise. -/
theorem PutLine_loop_of_points (p : Panel) (hp : p.ok) (x1 y1 dx sx dy sy : Int) :
    ∀ (fuel : Nat) (fb : Buf) (pts : List (Int × Int)) (x0 y0 err : Int)
      (new : List (Int × Int)),
      fb.length = DISPLAY_FRAMEBUFFER_SIZE p →
      PutLine_points_loop x1 y1 dx sx dy sy fuel [] x0 y0 err = some new →
      (∀ q : Int × Int, q ∈ new → (-2147483648 ≤ q.1 ∧ q.1 + 1 < 2147483648) ∧
        -2147483648 ≤ q.2 ∧ q.2 + 1 < 2147483648) →
      ∃ fb1, PutLine_loop p x1 y1 dx sx dy sy fuel fb pts x0 y0 err
          = Outcome.done (fb1, pts ++ new) ∧
        fb1.length = DISPLAY_FRAMEBUFFER_SIZE p ∧
        ∀ px py : Nat, px < p.DISPLAY_WIDTH → py < p.DISPLAY_HEIGHT →
          pixel p fb1 px py
            = (decide (((px : Int), (py : Int)) ∈ new) || pixel p fb px py) := by
  intro fuel
  induction fuel with
  | zero =>
    intro fb pts x0 y0 err new _ h
    simp [PutLine_points_loop] at h
  | succ fuel ih =>
    intro fb pts x0 y0 err new hfb h hsafe
    rw [PutLine_points_loop] at h
    rw [PutLine_loop]
    by_cases hc : x0 = x1 ∧ y0 = y1
    · rw [if_pos hc] at h
      simp only [List.nil_append, Option.some.injEq] at h
      subst h
      have hs := hsafe (x0, y0) (by simp)
      obtain ⟨fb1, e1, l1, b1⟩ := plot_general p hp fb hfb x0 y0 hs.1 hs.2
      rw [e1]
      simp only [if_pos hc]
      refine ⟨fb1, rfl, l1, ?_⟩
      intro px py hpx hpy
      rw [b1 px py hpx hpy, decide_mem_cons]
      simp
    · rw [if_neg hc] at h
      simp only [] at h
      rw [points_loop_acc] at h
      cases hr : PutLine_points_loop x1 y1 dx sx dy sy fuel []
          (if err > wrap32 (-dx) then wrap32 (x0 + sx) else x0)
          (if err < dy then wrap32 (y0 + sy) else y0)
          (if err < dy then wrap32 ((if err > wrap32 (-dx) then wrap32 (err - dy) else err) + dx)
            else (if err > wrap32 (-dx) then wrap32 (err - dy) else err)) with
      | none => rw [hr] at h; simp at h
      | some new2 =>
        rw [hr] at h
        simp only [List.nil_append, Option.map_some', Option.some.injEq,
          List.singleton_append] at h
        subst h
        have hs := hsafe (x0, y0) (by simp)
        obtain ⟨fb1, e1, l1, b1⟩ := plot_general p hp fb hfb x0 y0 hs.1 hs.2
        obtain ⟨fb2, e2, l2, b2⟩ := ih fb1 (pts ++ [(x0, y0)]) _ _ _ new2 l1 hr
          (fun q hq => hsafe q (List.mem_cons_of_mem _ hq))
        rw [e1]
        simp only [if_neg hc]
        refine ⟨fb2, ?_, l2, ?_⟩
        · rw [e2, List.append_assoc, List.singleton_append]
        · intro px py hpx hpy
          rw [b2 px py hpx hpy, b1 px py hpx hpy, decide_mem_cons, ← Bool.or_assoc]
          congr 1
          exact Bool.or_comm _ _

/-- Away from the overflow of the sanity check `PutLine` only turns pixels on: for
all endpoints whose coordinates plus one fit `int` and whose differences fit
`int`, the loop stops without a fault, each pixel of the panel is 1 if it is a
plotted point and keeps its value otherwise; plotted points off the panel change
nothing. -/
theorem PutLine_only_sets_pixels (p : Panel) (hp : p.ok) (fb : Buf)
    (hfb : fb.length = DISPLAY_FRAMEBUFFER_SIZE p) (x0 y0 x1 y1 : Int)
    (hx0 : -2147483648 ≤ x0 ∧ x0 + 1 < 2147483648)
    (hy0 : -2147483648 ≤ y0 ∧ y0 + 1 < 2147483648)
    (hx1 : -2147483648 ≤ x1 ∧ x1 + 1 < 2147483648)
    (hy1 : -2147483648 ≤ y1 ∧ y1 + 1 < 2147483648)
    (hdx : -2147483648 < x1 - x0 ∧ x1 - x0 < 2147483648)
    (hdy : -2147483648 < y1 - y0 ∧ y1 - y0 < 2147483648) :
    ∃ (N : Nat) (fb1 : Buf) (pts : List (Int × Int)),
      (∀ fuel, N ≤ fuel →
        Display_PutLine p fuel fb x0 y0 x1 y1 = Outcome.done (fb1, pts)) ∧
      (∀ fuel, N ≤ fuel → PutLine_points fuel x0 y0 x1 y1 = some pts) ∧
      fb1.length = DISPLAY_FRAMEBUFFER_SIZE p ∧
      (∀ px py : Nat, px < p.DISPLAY_WIDTH → py < p.DISPLAY_HEIGHT →
        pixel p fb1 px py = (decide (((px : Int), (py : Int)) ∈ pts) || pixel p fb px py)) ∧
      ∀ px py : Nat, px < p.DISPLAY_WIDTH → py < p.DISPLAY_HEIGHT →
        pixel p fb px py = true → pixel p fb1 px py = true := by
  obtain ⟨pts, ⟨N, hN⟩, _, _, _, _, _, hbox, _, _, _⟩ :=
    line_points_spec x0 y0 x1 y1 (by omega) (by omega) (by omega) (by omega) hdx hdy
  have hpN := hN N (le_refl N)
  have hsafe : ∀ q : Int × Int, q ∈ pts → (-2147483648 ≤ q.1 ∧ q.1 + 1 < 2147483648) ∧
      -2147483648 ≤ q.2 ∧ q.2 + 1 < 2147483648 := by
    intro q hq
    have hb := hbox q hq
    omega
  unfold PutLine_points at hpN
  obtain ⟨fb1, e1, l1, b1⟩ := PutLine_loop_of_points p hp _ _ _ _ _ _ N fb [] _ _ _ pts hfb hpN
    hsafe
  rw [List.nil_append] at e1
  refine ⟨N, fb1, pts, ?_, hN, l1, b1, ?_⟩
  · intro fuel hfuel
    obtain ⟨k, rfl⟩ := Nat.exists_eq_add_of_le hfuel
    unfold Display_PutLine
    exact PutLine_loop_mono p _ _ _ _ _ _ k _ _ _ _ _ _ _ e1
  · intro px py hpx hpy hold
    rw [b1 px py hpx hpy, hold, Bool.or_true]

/-! ## Glyph placement -/

theorem widthSum_cons (font : Font_Info_t) (c : Int) (cs : List Int) :
    widthSum font (c :: cs) = glyphWidth font c + widthSum font cs := by
  simp [widthSum]

theorem widthSum_nonneg (font : Font_Info_t) :
    ∀ txt : List Int, (∀ c : Int, c ∈ txt → 0 < glyphWidth font c) → 0 ≤ widthSum font txt := by
  intro txt
  induction txt with
  | nil => intro _; simp [widthSum]
  | cons c cs ih =>
    intro h
    rw [widthSum_cons]
    have h1 := h c (List.mem_cons_self _ _)
    have h2 := ih (fun d hd => h d (List.mem_cons_of_mem _ hd))
    omega

/-- One iteration of the text loop on a character that has a glyph of positive
width: with the cursor at or right of `x` and the advanced cursor within `int`,
the kerning gap is added when the cursor has left `x`, the glyph is blitted at the
cursor so advanced, and the cursor moves on by the glyph's width. -/
theorem PutText_glyph_step (p : Panel) (font : Font_Info_t) (x : Int)
    (hker : 0 ≤ font.kerning) (c : Int) (cs : List Int) (st : TextState)
    (h10 : c ≠ 10) (h32 : c ≠ 32) (hlo : font.startChar ≤ c) (hhi : c ≤ font.endChar)
    (hidx : c - font.startChar < 2147483648) (hw : 0 < glyphWidth font c)
    (hx : -2147483648 ≤ x) (hcur : x ≤ st.curX)
    (hfit : st.curX + (if st.curX = x then 0 else font.kerning) + glyphWidth font c
      < 2147483648) :
    ∃ ci : Font_CharInfo_t, tableAt font.charInfo (c - font.startChar) = some ci ∧
      glyphWidth font c = ci.width ∧
      PutText_loop p font x (c :: cs) st
        = (ptr font.data ci.offset).bind fun off =>
          (Display_PutPixelsUnlocked p st.fb
            (st.curX + (if st.curX = x then 0 else font.kerning)) st.y font.data off ci.width
            font.height).bind fun fb1 =>
          PutText_loop p font x cs
            (TextState.mk (st.curX + (if st.curX = x then 0 else font.kerning) + ci.width)
              st.y fb1
              (st.log ++ [TextEvent.glyph st.curX (decide (x ≠ st.curX ∧ font.kerning ≠ 0))
                (st.curX + (if st.curX = x then 0 else font.kerning)) st.y
                (c - font.startChar) off ci.width font.height])) := by
  have hwrap : wrap32 (c - font.startChar) = c - font.startChar :=
    wrap32_of_range _ (by omega) hidx
  have hgw : glyphWidth font c
      = match tableAt font.charInfo (c - font.startChar) with
        | some ci => ci.width
        | none => 0 := by
    unfold glyphWidth; rw [hwrap]
  cases hci : tableAt font.charInfo (c - font.startChar) with
  | none =>
    rw [hgw, hci] at hw
    exact absurd hw (lt_irrefl 0)
  | some ci =>
    rw [hci] at hgw
    simp only [] at hgw
    rw [hgw] at hfit hw
    have hgap : (if decide (x ≠ st.curX ∧ font.kerning ≠ 0) = true
        then wrap32 (st.curX + font.kerning) else st.curX)
        = st.curX + (if st.curX = x then 0 else font.kerning) := by
      by_cases h1 : st.curX = x
      · have hn : ¬ (x ≠ st.curX ∧ font.kerning ≠ 0) := fun h => h.1 h1.symm
        rw [if_pos h1, decide_eq_false hn]
        simp
      · rw [if_neg h1] at hfit ⊢
        by_cases h2 : font.kerning = 0
        · have hn : ¬ (x ≠ st.curX ∧ font.kerning ≠ 0) := fun h => h.2 h2
          rw [decide_eq_false hn, h2]
          simp
        · have hy : x ≠ st.curX ∧ font.kerning ≠ 0 := ⟨fun h => h1 h.symm, h2⟩
          rw [decide_eq_true hy, if_pos rfl, wrap32_of_range _ (by omega) (by omega)]
    have hge : 0 ≤ (if st.curX = x then 0 else font.kerning) := by
      split
      · exact le_refl 0
      · exact hker
    refine ⟨ci, rfl, hgw, ?_⟩
    rw [PutText_loop, if_neg h10, if_neg h32, if_neg (by omega)]
    simp only []
    have hw2 : wrap32 (st.curX + (if st.curX = x then 0 else font.kerning) + ci.width)
        = st.curX + (if st.curX = x then 0 else font.kerning) + ci.width :=
      wrap32_of_range _ (by omega) (by omega)
    rw [hwrap, hci, hgap]
    simp only [Option.some_bind, hw2]

/-- The glyphs of a run of the text loop over characters that all have a glyph of
positive width, when the advanced cursor stays within `int`: one glyph event per
character, the `k`-th at the cursor advanced by the kerning gap, the widths of
the glyphs before it and `k` kernings. -/
theorem PutText_loop_glyphs (p : Panel) (font : Font_Info_t) (x : Int)
    (hker : 0 ≤ font.kerning) (hx : -2147483648 ≤ x) :
    ∀ (txt : List Int) (st st1 : TextState),
      (∀ c : Int, c ∈ txt → c ≠ 10 ∧ c ≠ 32 ∧ font.startChar ≤ c ∧ c ≤ font.endChar ∧
        c - font.startChar < 2147483648 ∧ 0 < glyphWidth font c) →
      x ≤ st.curX →
      st.curX + (if st.curX = x then 0 else font.kerning) + widthSum font txt
        + ((txt.length : Int) - 1) * font.kerning < 2147483648 →
      PutText_loop p font x txt st = some st1 →
      ∃ l : List TextEvent, st1.log = st.log ++ l ∧ l.length = txt.length ∧
        ∀ (k : Nat) (c : Int), txt[k]? = some c →
          ∃ (ci : Font_CharInfo_t) (off : Nat) (cur : Int) (kerned : Bool),
            tableAt font.charInfo (c - font.startChar) = some ci ∧ (off : Int) = ci.offset ∧
            l[k]? = some (TextEvent.glyph cur kerned
              (st.curX + (if st.curX = x then 0 else font.kerning)
                + widthSum font (txt.take k) + k * font.kerning)
              st.y (c - font.startChar) off ci.width font.height) := by
  intro txt
  induction txt with
  | nil =>
    intro st st1 _ _ _ hrun
    simp only [PutText_loop, Option.some.injEq] at hrun
    subst hrun
    exact ⟨[], by simp, rfl, by intro k c hk; simp at hk⟩
  | cons c cs ih =>
    intro st st1 hgood hcur hb hrun
    obtain ⟨h10, h32, hlo, hhi, hidx, hw⟩ := hgood c (List.mem_cons_self _ _)
    have hgood2 : ∀ d : Int, d ∈ cs → d ≠ 10 ∧ d ≠ 32 ∧ font.startChar ≤ d ∧ d ≤ font.endChar ∧
        d - font.startChar < 2147483648 ∧ 0 < glyphWidth font d :=
      fun d hd => hgood d (List.mem_cons_of_mem _ hd)
    have hs0 := widthSum_nonneg font cs (fun d hd => (hgood2 d hd).2.2.2.2.2)
    have hn : 0 ≤ (cs.length : Int) * font.kerning := mul_nonneg (Int.ofNat_nonneg _) hker
    have e1 : (((c :: cs).length : Int) - 1) * font.kerning = (cs.length : Int) * font.kerning := by
      simp
    have e2 : ((cs.length : Int) - 1) * font.kerning
        = (cs.length : Int) * font.kerning - font.kerning := by ring
    rw [e1, widthSum_cons] at hb
    have hge : 0 ≤ (if st.curX = x then 0 else font.kerning) := by
      split
      · exact le_refl 0
      · exact hker
    obtain ⟨ci, hci, hgw, hstep⟩ := PutText_glyph_step p font x hker c cs st h10 h32 hlo hhi hidx
      hw hx hcur (by omega)
    rw [hstep] at hrun
    simp only [Option.bind_eq_some] at hrun
    obtain ⟨off, hoff, fb1, _, hrec⟩ := hrun
    rw [hgw] at hw hb
    have hne : ¬ (st.curX + (if st.curX = x then 0 else font.kerning) + ci.width = x) := by omega
    obtain ⟨l2, hl1, hl2, hl3⟩ := ih _ st1 hgood2 (by simp only []; omega)
      (by simp only [if_neg hne]; omega) hrec
    simp only [if_neg hne] at hl3
    refine ⟨_ :: l2, by rw [hl1, List.append_assoc, List.singleton_append], by simp [hl2], ?_⟩
    intro k d hk
    cases k with
    | zero =>
      simp only [List.getElem?_cons_zero, Option.some.injEq] at hk
      subst hk
      refine ⟨ci, off, st.curX, decide (x ≠ st.curX ∧ font.kerning ≠ 0), hci,
        ptr_some _ _ _ hoff, ?_⟩
      simp [widthSum]
    | succ k =>
      simp only [List.getElem?_cons_succ] at hk
      obtain ⟨ci2, off2, cur2, kerned2, t1, t2, t3⟩ := hl3 k d hk
      refine ⟨ci2, off2, cur2, kerned2, t1, t2, ?_⟩
      rw [List.getElem?_cons_succ, t3, List.take_succ_cons, widthSum_cons, hgw]
      have hpos : st.curX + (if st.curX = x then 0 else font.kerning) + ci.width + font.kerning
          + widthSum font (List.take k cs) + (k : Int) * font.kerning
          = st.curX + (if st.curX = x then 0 else font.kerning)
            + (ci.width + widthSum font (List.take k cs)) + ((k + 1 : Nat) : Int) * font.kerning := by
        push_cast; ring
      rw [hpos]

/-- A blitter call whose sums `x + w` and `y + h` fit `int` and whose bitmap
holds `w * ceil(h/8)` bytes returns, with a framebuffer of the same size. -/
theorem blit_total (p : Panel) (hp : p.ok) (fb : Buf)
    (hfb : fb.length = DISPLAY_FRAMEBUFFER_SIZE p) (bitmap : Buf) (bm : Nat) (x y w h : Int)
    (hxw : -2147483648 ≤ x + w ∧ x + w < 2147483648)
    (hyh : -2147483648 ≤ y + h ∧ y + h < 2147483648)
    (hbm : bm + w.toNat * ((h.toNat + 7) / 8) ≤ bitmap.length) :
    ∃ fb1, Display_PutPixelsUnlocked p fb x y bitmap bm w h = some fb1 ∧
      fb1.length = fb.length := by
  by_cases hbad : x < 0 ∨ y < 0 ∨ w ≤ 0 ∨ h ≤ 0 ∨ x + w > p.DISPLAY_WIDTH ∨
      y + h > p.DISPLAY_HEIGHT
  · exact ⟨fb, PutPixelsUnlocked_invalid_dropped p fb bitmap bm x y w h hxw hyh hbad, rfl⟩
  · have hx0 : 0 ≤ x := by omega
    have hy0 : 0 ≤ y := by omega
    have hw0 : 0 ≤ w := by omega
    have hh0 : 0 ≤ h := by omega
    lift x to ℕ using hx0 with X
    lift y to ℕ using hy0 with Y
    lift w to ℕ using hw0 with W
    lift h to ℕ using hh0 with H
    simp only [Int.toNat_ofNat] at hbm
    obtain ⟨fb1, e1, l1, _⟩ := PutPixelsUnlocked_spec p hp fb bitmap bm X Y W H hfb
      (by omega) (by omega) (by omega) (by omega) hbm
    exact ⟨fb1, e1, l1⟩

/-- The text loop over characters that all have a glyph of positive width
returns, when the advanced cursor and `y + font->height` stay within `int` and
every glyph bitmap lies inside the font data. -/
theorem PutText_loop_total (p : Panel) (hp : p.ok) (font : Font_Info_t) (x : Int)
    (hker : 0 ≤ font.kerning) (hx : -2147483648 ≤ x) :
    ∀ (txt : List Int) (st : TextState),
      (∀ c : Int, c ∈ txt → c ≠ 10 ∧ c ≠ 32 ∧ font.startChar ≤ c ∧ c ≤ font.endChar ∧
        c - font.startChar < 2147483648 ∧ 0 < glyphWidth font c) →
      x ≤ st.curX →
      st.curX + (if st.curX = x then 0 else font.kerning) + widthSum font txt
        + ((txt.length : Int) - 1) * font.kerning < 2147483648 →
      st.fb.length = DISPLAY_FRAMEBUFFER_SIZE p →
      (-2147483648 ≤ st.y + font.height ∧ st.y + font.height < 2147483648) →
      (∀ (c : Int) (ci : Font_CharInfo_t), c ∈ txt →
        tableAt font.charInfo (c - font.startChar) = some ci →
        0 ≤ ci.offset ∧
          ci.offset.toNat + ci.width.toNat * ((font.height.toNat + 7) / 8) ≤ font.data.length) →
      ∃ st1, PutText_loop p font x txt st = some st1 := by
  intro txt
  induction txt with
  | nil =>
    intro st _ _ _ _ _ _
    exact ⟨st, by simp [PutText_loop]⟩
  | cons c cs ih =>
    intro st hgood hcur hb hfb hy hdata
    obtain ⟨h10, h32, hlo, hhi, hidx, hw⟩ := hgood c (List.mem_cons_self _ _)
    have hgood2 : ∀ d : Int, d ∈ cs → d ≠ 10 ∧ d ≠ 32 ∧ font.startChar ≤ d ∧ d ≤ font.endChar ∧
        d - font.startChar < 2147483648 ∧ 0 < glyphWidth font d :=
      fun d hd => hgood d (List.mem_cons_of_mem _ hd)
    have hs0 := widthSum_nonneg font cs (fun d hd => (hgood2 d hd).2.2.2.2.2)
    have hn : 0 ≤ (cs.length : Int) * font.kerning := mul_nonneg (Int.ofNat_nonneg _) hker
    have e1 : (((c :: cs).length : Int) - 1) * font.kerning = (cs.length : Int) * font.kerning := by
      simp
    have e2 : ((cs.length : Int) - 1) * font.kerning
        = (cs.length : Int) * font.kerning - font.kerning := by ring
    rw [e1, widthSum_cons] at hb
    have hge : 0 ≤ (if st.curX = x then 0 else font.kerning) := by
      split
      · exact le_refl 0
      · exact hker
    obtain ⟨ci, hci, hgw, hstep⟩ := PutText_glyph_step p font x hker c cs st h10 h32 hlo hhi hidx
      hw hx hcur (by omega)
    rw [hgw] at hw hb
    obtain ⟨ho0, hodata⟩ := hdata c ci (List.mem_cons_self _ _) hci
    have hptr : ptr font.data ci.offset = some ci.offset.toNat := by
      unfold ptr
      rw [if_pos ⟨ho0, by omega⟩]
    obtain ⟨fb1, hblit, hlen⟩ := blit_total p hp st.fb hfb font.data ci.offset.toNat
      (st.curX + (if st.curX = x then 0 else font.kerning)) st.y ci.width font.height
      ⟨by omega, by omega⟩ hy hodata
    have hne : ¬ (st.curX + (if st.curX = x then 0 else font.kerning) + ci.width = x) := by omega
    rw [hstep, hptr, Option.some_bind, hblit, Option.some_bind]
    exact ih _ hgood2 (by simp only []; omega) (by simp only [if_neg hne]; omega)
      (hlen.trans hfb) hy (fun d di hd => hdata d di (List.mem_cons_of_mem _ hd))

/-- The claim C15 as stated fails when the cursor leaves the range of `int`: with
`x = INT_MAX` the cursor wraps to `INT_MIN` after the first glyph, and the second
glyph of `"AA"` is blitted at `INT_MIN + 1`, not at `x + 1 + 1 * kerning`. -/
theorem PutText_glyph_position_wraps :
    0 ≤ (⟨65, 65, 8, 1, 3, [⟨1, 0⟩], [0xFF]⟩ : Font_Info_t).kerning ∧
    (∀ c : Int, c ∈ [(65 : Int), 65] → c ≠ 10 ∧ c ≠ 32 ∧
      (⟨65, 65, 8, 1, 3, [⟨1, 0⟩], [0xFF]⟩ : Font_Info_t).startChar ≤ c ∧
      c ≤ (⟨65, 65, 8, 1, 3, [⟨1, 0⟩], [0xFF]⟩ : Font_Info_t).endChar ∧
      0 < glyphWidth ⟨65, 65, 8, 1, 3, [⟨1, 0⟩], [0xFF]⟩ c) ∧
    (PutText_run ⟨8, 8⟩ (List.replicate 8 0) 2147483647 (-1) [65, 65]
        ⟨65, 65, 8, 1, 3, [⟨1, 0⟩], [0xFF]⟩).map (fun st => st.log[1]?)
      = some (some (TextEvent.glyph (-2147483648) true (-2147483647) (-1) 0 0 1 8)) ∧
    (-2147483647 : Int) ≠ 2147483647 + widthSum ⟨65, 65, 8, 1, 3, [⟨1, 0⟩], [0xFF]⟩ [65]
      + 1 * (⟨65, 65, 8, 1, 3, [⟨1, 0⟩], [0xFF]⟩ : Font_Info_t).kerning := by
  decide

/-- C15, amended: glyph placement on a single line.  For every font with
`kerning >= 0` and every text made only of characters in
`[font.startChar, font.endChar]` other than `' '` and `'\n'`, all of whose glyph
widths are positive, when the glyph indices `char - startChar` and the cursor
positions up to `x + sum of all widths + (n - 1) * kerning` fit `int`: a run of
`PutText(x, y, text, font)` that returns has issued one blit per character, the
`k`-th (from 0) at `(x + sum of the widths of glyphs 0..k-1 + k * kerning, y)`
with that glyph's width, height `font.height`, and bitmap at
`font.data + glyph.dataOffset` for glyph index `char - startChar`; and the run
returns when moreover `y + font.height` fits `int` and every glyph bitmap lies
inside the font data. -/
theorem PutText_glyph_placement (p : Panel) (fb : Buf) (x y : Int) (txt : List Int)
    (font : Font_Info_t) (hker : 0 ≤ font.kerning)
    (hgood : ∀ c : Int, c ∈ txt → c ≠ 10 ∧ c ≠ 32 ∧ font.startChar ≤ c ∧ c ≤ font.endChar ∧
      c - font.startChar < 2147483648 ∧ 0 < glyphWidth font c)
    (hx : -2147483648 ≤ x)
    (hfit : x + widthSum font txt + ((txt.length : Int) - 1) * font.kerning < 2147483648) :
    (∀ st : TextState, PutText_run p fb x y txt font = some st →
      st.log.length = txt.length ∧
      ∀ (k : Nat) (c : Int), txt[k]? = some c →
        ∃ (ci : Font_CharInfo_t) (off : Nat) (cur : Int) (kerned : Bool),
          tableAt font.charInfo (c - font.startChar) = some ci ∧ (off : Int) = ci.offset ∧
          st.log[k]? = some (TextEvent.glyph cur kerned
            (x + widthSum font (txt.take k) + k * font.kerning) y
            (c - font.startChar) off ci.width font.height)) ∧
    (p.ok → fb.length = DISPLAY_FRAMEBUFFER_SIZE p →
      (-2147483648 ≤ y + font.height ∧ y + font.height < 2147483648) →
      (∀ (c : Int) (ci : Font_CharInfo_t), c ∈ txt →
        tableAt font.charInfo (c - font.startChar) = some ci →
        0 ≤ ci.offset ∧
          ci.offset.toNat + ci.width.toNat * ((font.height.toNat + 7) / 8) ≤ font.data.length) →
      ∃ st : TextState, PutText_run p fb x y txt font = some st) := by
  constructor
  · intro st hrun
    obtain ⟨l, hl1, hl2, hl3⟩ := PutText_loop_glyphs p font x hker hx txt
      (TextState.mk x y fb []) st hgood (le_refl x) (by simpa using hfit) hrun
    simp only [List.nil_append] at hl1
    subst hl1
    refine ⟨hl2, ?_⟩
    intro k c hk
    obtain ⟨ci, off, cur, kerned, t1, t2, t3⟩ := hl3 k c hk
    refine ⟨ci, off, cur, kerned, t1, t2, ?_⟩
    simpa using t3
  · intro hp hfb hy hdata
    exact PutText_loop_total p hp font x hker hx txt (TextState.mk x y fb []) hgood (le_refl x)
      (by simpa using hfit) hfb hy hdata

theorem PutText_glyph_placement_witness :
    (∀ st : TextState, PutText_run ⟨16, 8⟩ (List.replicate 16 0) 3 0 [65, 66]
        ⟨65, 66, 8, 1, 3, [⟨1, 0⟩, ⟨2, 1⟩], [0xFF, 0x0F, 0xF0]⟩ = some st →
      st.log.length = [(65 : Int), 66].length ∧
      ∀ (k : Nat) (c : Int), [(65 : Int), 66][k]? = some c →
        ∃ (ci : Font_CharInfo_t) (off : Nat) (cur : Int) (kerned : Bool),
          tableAt (⟨65, 66, 8, 1, 3, [⟨1, 0⟩, ⟨2, 1⟩], [0xFF, 0x0F, 0xF0]⟩ : Font_Info_t).charInfo
            (c - (⟨65, 66, 8, 1, 3, [⟨1, 0⟩, ⟨2, 1⟩], [0xFF, 0x0F, 0xF0]⟩ : Font_Info_t).startChar)
            = some ci ∧ (off : Int) = ci.offset ∧
          st.log[k]? = some (TextEvent.glyph cur kerned
            (3 + widthSum ⟨65, 66, 8, 1, 3, [⟨1, 0⟩, ⟨2, 1⟩], [0xFF, 0x0F, 0xF0]⟩
                ([(65 : Int), 66].take k)
              + k * (⟨65, 66, 8, 1, 3, [⟨1, 0⟩, ⟨2, 1⟩], [0xFF, 0x0F, 0xF0]⟩ : Font_Info_t).kerning)
            0
            (c - (⟨65, 66, 8, 1, 3, [⟨1, 0⟩, ⟨2, 1⟩], [0xFF, 0x0F, 0xF0]⟩ : Font_Info_t).startChar)
            off ci.width
            (⟨65, 66, 8, 1, 3, [⟨1, 0⟩, ⟨2, 1⟩], [0xFF, 0x0F, 0xF0]⟩ : Font_Info_t).height)) ∧
    ((⟨16, 8⟩ : Panel).ok →
      (List.replicate 16 (0 : Byte)).length = DISPLAY_FRAMEBUFFER_SIZE ⟨16, 8⟩ →
      (-2147483648 ≤ (0 : Int)
          + (⟨65, 66, 8, 1, 3, [⟨1, 0⟩, ⟨2, 1⟩], [0xFF, 0x0F, 0xF0]⟩ : Font_Info_t).height ∧
        (0 : Int) + (⟨65, 66, 8, 1, 3, [⟨1, 0⟩, ⟨2, 1⟩], [0xFF, 0x0F, 0xF0]⟩ : Font_Info_t).height
          < 2147483648) →
      (∀ (c : Int) (ci : Font_CharInfo_t), c ∈ [(65 : Int), 66] →
        tableAt (⟨65, 66, 8, 1, 3, [⟨1, 0⟩, ⟨2, 1⟩], [0xFF, 0x0F, 0xF0]⟩ : Font_Info_t).charInfo
          (c - (⟨65, 66, 8, 1, 3, [⟨1, 0⟩, ⟨2, 1⟩], [0xFF, 0x0F, 0xF0]⟩ : Font_Info_t).startChar)
          = some ci →
        0 ≤ ci.offset ∧
          ci.offset.toNat + ci.width.toNat *
            (((⟨65, 66, 8, 1, 3, [⟨1, 0⟩, ⟨2, 1⟩], [0xFF, 0x0F, 0xF0]⟩ : Font_Info_t).height.toNat
              + 7) / 8)
            ≤ (⟨65, 66, 8, 1, 3, [⟨1, 0⟩, ⟨2, 1⟩], [0xFF, 0x0F, 0xF0]⟩ : Font_Info_t).data.length) →
      ∃ st : TextState, PutText_run ⟨16, 8⟩ (List.replicate 16 0) 3 0 [65, 66]
        ⟨65, 66, 8, 1, 3, [⟨1, 0⟩, ⟨2, 1⟩], [0xFF, 0x0F, 0xF0]⟩ = some st) :=
  PutText_glyph_placement ⟨16, 8⟩ (List.replicate 16 0) 3 0 [65, 66]
    ⟨65, 66, 8, 1, 3, [⟨1, 0⟩, ⟨2, 1⟩], [0xFF, 0x0F, 0xF0]⟩ (by decide) (by decide) (by decide)
    (by decide)

end Display
